import Mathlib

/-!
# Upsert strategies of `cantart/upsert-benchmark`

A shallow embedding of package `upsert` (`identifiers.go`, `hash_indexed.go`,
`batched_hash_indexed.go`, `naive.go`) and the properties of its generated SQL,
its error paths and its statement traces.

Conventions of the embedding.

* A Go `string` holding valid UTF-8 is a Lean `String`; `for i, r := range s`
  visits its runes with `i` the byte offset of the rune.
* The tables of Go's `unicode` package above Latin-1 (and its case mapping above
  ASCII) are not part of the repository: they are the parameter `UnicodeTables`.
  The Latin-1 part of `unicode.IsLetter` / `unicode.IsDigit` is fixed by the Go
  standard library and is written out.
* A value of type `any` is a `Value`; `fmt.Sprintf("%v", v)` is `fmtV`.
* The database is an oracle `Db`: the answer to the `k`-th operation sent on the
  handle.  Every function that talks to the database takes the trace of the
  operations issued so far and returns the extended trace.
* A Go `error` is an `Err` (the wrapping chain built by `fmt.Errorf` with `%w`);
  a run-time panic of an out-of-range index is `Ret.panic`.
* Slice lengths and placeholder counters are `Nat`: a slice of `n` rows occupies
  `24 * n` bytes, so none of the sums the code forms reaches `2^63`.
* The database itself is outside the repository.  Where a property speaks of the
  stored table, the table is the list of its rows and `tableStep` gives the effect
  of each statement of the strategies on it; an oracle `obeys` the table when it
  answers the operations of a trace as `tableStep` does.
-/

namespace UpsertBenchmark

/-! ## Values, errors, operations -/

/-- The part of Go's `unicode` tables that the standard library fixes outside the repository. -/
structure UnicodeTables where
  /-- Membership in `unicode.Letter` for code points above U+00FF. -/
  letterAbove : Nat → Bool
  /-- Membership in `unicode.Digit` (category Nd) for code points above U+00FF. -/
  digitAbove : Nat → Bool
  /-- The result of `unicode.ToLower` for code points above U+007F. -/
  lowerAbove : Char → Char
  /-- The general categories L and Nd share no code point. -/
  disjoint : ∀ n, letterAbove n = true → digitAbove n = false

/-- Tables that know no letter or digit above U+00FF and no case pair above U+007F (used for
concrete runs on Latin-1 names without upper-case letters above ASCII, where the tables are
never consulted or answer as Go does). -/
def latin1Tables : UnicodeTables :=
  { letterAbove := fun _ => false, digitAbove := fun _ => false, lowerAbove := fun c => c,
    disjoint := fun _ _ => rfl }

/-- A row value (`any`): the driver-bindable scalars. -/
inductive Value where
  | null
  | bool (b : Bool)
  | int (i : Int)
  | str (s : String)
  deriving DecidableEq, Repr

abbrev Row := List Value

/-- An error reported by `database/sql`: `noRows` is any error for which
`errors.Is(err, sql.ErrNoRows)` holds. -/
inductive DbErr where
  | noRows
  | other (code : Nat)
  deriving DecidableEq, Repr

/-- Go error values built by the package. -/
inductive Err where
  /-- Message of `errors.New`, or of `fmt.Errorf` with `%d` verbs only. -/
  | new (msg : String)
  /-- Value of `fmt.Errorf("invalid identifier %q", name)`. -/
  | invalidIdentifier (name : String)
  /-- Value of `fmt.Errorf("unique key %q not found in columns", key)`. -/
  | keyNotFound (key : String)
  /-- Value of `fmt.Errorf("unique key %q: missing quoted identifier", key)`. -/
  | keyMissingQuoted (key : String)
  /-- Value of `fmt.Errorf(ctx + ": %w", inner)`. -/
  | wrap (ctx : String) (inner : Err)
  /-- Value of `fmt.Errorf("unique key %q: %w", key, inner)`. -/
  | wrapKey (key : String) (inner : Err)
  /-- An error returned by the database handle. -/
  | driver (e : DbErr)
  deriving DecidableEq, Repr

/-- Result of a call: `nil`, an error, or an index-out-of-range panic. -/
inductive Ret where
  | ok
  | err (e : Err)
  | panic
  deriving DecidableEq, Repr

/-- One operation sent on the database handle or on the transaction. -/
inductive Op where
  /-- Call of `ExecContext(ctx, sql, args...)`. -/
  | exec (sql : String) (args : List Value)
  /-- Call of `QueryRowContext(ctx, sql, args...).Scan(&one)`. -/
  | queryRow (sql : String) (args : List Value)
  /-- Call of `db.BeginTx`. -/
  | begin
  /-- Call of `tx.Commit`. -/
  | commit
  /-- Call of `tx.Rollback`. -/
  | rollback
  deriving DecidableEq, Repr

/-- The operation with its bound argument list erased: the SQL text alone. -/
def Op.text : Op → Op
  | .exec sql _ => .exec sql []
  | .queryRow sql _ => .queryRow sql []
  | .begin => .begin
  | .commit => .commit
  | .rollback => .rollback

deriving instance DecidableEq for Except

/-- The database as an oracle: the answer (`none` is success) to the operation that is sent
when `k` operations have been sent before it. -/
abbrev Db := Nat → Option DbErr

/-- Decimal rendering of `%d` for a non-negative int. -/
def fmtD (n : Nat) : String := Nat.repr n

/-- Rendering of `fmt.Sprintf("%v", val)`. -/
def fmtV : Value → String
  | .null => "<nil>"
  | .bool true => "true"
  | .bool false => "false"
  | .int (Int.ofNat n) => Nat.repr n
  | .int (Int.negSucc n) => "-" ++ Nat.repr (n + 1)
  | .str s => s

/-- Result of `strings.Join(xs, sep)`. -/
def joinStrings (sep : String) : List String → String
  | [] => ""
  | [x] => x
  | x :: y :: rest => x ++ sep ++ joinStrings sep (y :: rest)

/-! ## identifiers.go -/

/-- The double-quote character. -/
def dq : Char := Char.ofNat 34

/-- Go's `unicode.IsLetter`: the Latin-1 property table, then the `Letter` range table. -/
def unicodeIsLetter (U : UnicodeTables) (r : Char) : Bool :=
  let n := r.toNat
  if n ≤ 0xFF then
    (0x41 ≤ n && n ≤ 0x5A) || (0x61 ≤ n && n ≤ 0x7A) || n == 0xAA || n == 0xB5 || n == 0xBA
      || (0xC0 ≤ n && n ≤ 0xD6) || (0xD8 ≤ n && n ≤ 0xF6) || (0xF8 ≤ n && n ≤ 0xFF)
  else U.letterAbove n

/-- Go's `unicode.IsDigit`: `'0'..'9'` in Latin-1, then the `Digit` range table. -/
def unicodeIsDigit (U : UnicodeTables) (r : Char) : Bool :=
  let n := r.toNat
  if n ≤ 0xFF then 0x30 ≤ n && n ≤ 0x39 else U.digitAbove n

/-- The body of `for i, r := range name` in `isSafeIdentifier`; `i` is the byte offset. -/
def isSafeLoop (U : UnicodeTables) : Nat → List Char → Bool
  | _, [] => true
  | i, r :: rest =>
    if r = '_' then isSafeLoop U (i + r.utf8Size) rest
    else if unicodeIsLetter U r then isSafeLoop U (i + r.utf8Size) rest
    else if unicodeIsDigit U r then
      if i = 0 then false else isSafeLoop U (i + r.utf8Size) rest
    else false

/-- Go's `isSafeIdentifier`. -/
def isSafeIdentifier (U : UnicodeTables) (name : String) : Bool :=
  if name = "" then false else isSafeLoop U 0 name.data

/-- Result of `strings.ReplaceAll(name, "\"", "\"\"")`. -/
def doubleQuotes (name : String) : String :=
  ⟨name.data.flatMap fun c => if c = dq then [dq, dq] else [c]⟩

/-- Go's `quoteIdentifier`. -/
def quoteIdentifier (U : UnicodeTables) (name : String) : Except Err String :=
  if !isSafeIdentifier U name then .error (.invalidIdentifier name)
  else .ok ("\"" ++ doubleQuotes name ++ "\"")

/-- Go's `unicode.ToLower`: ASCII by arithmetic, the case tables above. -/
def unicodeToLower (U : UnicodeTables) (r : Char) : Char :=
  if r.toNat ≤ 0x7F then
    if 0x41 ≤ r.toNat ∧ r.toNat ≤ 0x5A then Char.ofNat (r.toNat + 32) else r
  else U.lowerAbove r

/-- Go's `strings.ToLower`. -/
def stringsToLower (U : UnicodeTables) (s : String) : String :=
  ⟨s.data.map (unicodeToLower U)⟩

/-- The UTF-8 encoding of one rune, as bytes. -/
def utf8Rune (c : Char) : List Nat :=
  let n := c.toNat
  if n < 0x80 then [n]
  else if n < 0x800 then [0xC0 + n / 0x40, 0x80 + n % 0x40]
  else if n < 0x10000 then [0xE0 + n / 0x1000, 0x80 + n / 0x40 % 0x40, 0x80 + n % 0x40]
  else [0xF0 + n / 0x40000, 0x80 + n / 0x1000 % 0x40, 0x80 + n / 0x40 % 0x40, 0x80 + n % 0x40]

/-- The conversion `[]byte(part)`. -/
def stringBytes (s : String) : List Nat := s.data.flatMap utf8Rune

/-- Byte-wise `a < b` on byte strings, the order of Go's string comparison. -/
def bytesLt : List Nat → List Nat → Bool
  | [], [] => false
  | [], _ :: _ => true
  | _ :: _, [] => false
  | a :: as, b :: bs => if a < b then true else if b < a then false else bytesLt as bs

/-- Insertion into a list sorted by Go's string order. -/
def insertSorted (x : String) : List String → List String
  | [] => [x]
  | y :: ys => if bytesLt (stringBytes y) (stringBytes x) then y :: insertSorted x ys else x :: y :: ys

/-- Result of `sort.Strings` on a copy of the slice: the ascending rearrangement. -/
def sortStrings : List String → List String
  | [] => []
  | x :: xs => insertSorted x (sortStrings xs)

/-! ### SHA-1 (FIPS 180-4), the digest behind `crypto/sha1` -/

/-- Rotation of a 32-bit word to the left. -/
def rotl32 (x n : Nat) : Nat := ((x <<< n) ||| (x >>> (32 - n))) % 2 ^ 32

/-- Big-endian bytes of a word of `k` bytes. -/
def beBytes : Nat → Nat → List Nat
  | 0, _ => []
  | k + 1, x => (x >>> (8 * k)) % 256 :: beBytes k x

/-- The padded message: a `0x80` byte, zeros up to 56 modulo 64, the bit length on 8 bytes. -/
def sha1Pad (msg : List Nat) : List Nat :=
  msg ++ 0x80 :: List.replicate ((119 - msg.length % 64) % 64) 0 ++ beBytes 8 (8 * msg.length)

/-- Big-endian 32-bit words of a byte string (four bytes each). -/
def beWords : List Nat → List Nat
  | a :: b :: c :: d :: rest => (a <<< 24 ||| b <<< 16 ||| c <<< 8 ||| d) :: beWords rest
  | _ => []

/-- The message schedule, most recent word first: `k` more words after `ws`. -/
def sha1Schedule : Nat → List Nat → List Nat
  | 0, ws => ws
  | k + 1, ws =>
    sha1Schedule k
      (rotl32 (ws.getD 2 0 ^^^ ws.getD 7 0 ^^^ ws.getD 13 0 ^^^ ws.getD 15 0) 1 :: ws)

/-- The five working variables. -/
structure Sha1State where
  a : Nat
  b : Nat
  c : Nat
  d : Nat
  e : Nat
  deriving DecidableEq, Repr

/-- One round `t` with schedule word `w`. -/
def sha1Round (s : Sha1State) (t w : Nat) : Sha1State :=
  let f :=
    if t < 20 then (s.b &&& s.c) ||| ((s.b ^^^ 0xFFFFFFFF) &&& s.d)
    else if t < 40 then s.b ^^^ s.c ^^^ s.d
    else if t < 60 then (s.b &&& s.c) ||| (s.b &&& s.d) ||| (s.c &&& s.d)
    else s.b ^^^ s.c ^^^ s.d
  let k :=
    if t < 20 then 0x5A827999 else if t < 40 then 0x6ED9EBA1
    else if t < 60 then 0x8F1BBCDC else 0xCA62C1D6
  { a := (rotl32 s.a 5 + f + s.e + k + w) % 2 ^ 32, b := s.a, c := rotl32 s.b 30, d := s.c, e := s.d }

/-- The rounds over the schedule words in order, starting at round `t`. -/
def sha1Rounds : Sha1State → Nat → List Nat → Sha1State
  | s, _, [] => s
  | s, t, w :: ws => sha1Rounds (sha1Round s t w) (t + 1) ws

/-- The compression of one 64-byte block into the chaining value. -/
def sha1Block (h : Sha1State) (block : List Nat) : Sha1State :=
  let w := (sha1Schedule 64 (beWords block).reverse).reverse
  let s := sha1Rounds h 0 w
  { a := (h.a + s.a) % 2 ^ 32, b := (h.b + s.b) % 2 ^ 32, c := (h.c + s.c) % 2 ^ 32,
    d := (h.d + s.d) % 2 ^ 32, e := (h.e + s.e) % 2 ^ 32 }

/-- The blocks of the padded message, folded through the compression (`k` blocks). -/
def sha1Blocks : Nat → Sha1State → List Nat → Sha1State
  | 0, h, _ => h
  | k + 1, h, bytes => sha1Blocks k (sha1Block h (bytes.take 64)) (bytes.drop 64)

/-- The 20-byte SHA-1 digest of a byte string. -/
def sha1 (msg : List Nat) : List Nat :=
  let p := sha1Pad msg
  let h := sha1Blocks (p.length / 64)
    { a := 0x67452301, b := 0xEFCDAB89, c := 0x98BADCFE, d := 0x10325476, e := 0xC3D2E1F0 } p
  beBytes 4 h.a ++ beBytes 4 h.b ++ beBytes 4 h.c ++ beBytes 4 h.d ++ beBytes 4 h.e

/-- One lower-case hexadecimal digit. -/
def hexDigit (n : Nat) : Char :=
  if n < 10 then Char.ofNat (48 + n) else Char.ofNat (87 + n)

/-- Rendering of `fmt.Sprintf("%x", bytes)`. -/
def hexString (bytes : List Nat) : String :=
  ⟨bytes.flatMap fun b => [hexDigit (b / 16 % 16), hexDigit (b % 16)]⟩

/-- The closure `writePart`: the bytes of the part, then `'|'`. -/
def writePart (part : String) : List Nat := stringBytes part ++ [0x7C]

/-- Go's `deriveIndexName`. -/
def deriveIndexName (U : UnicodeTables) (table : String) (uniqueKeys : List String)
    (suffix : String) : String :=
  let keys := sortStrings uniqueKeys
  let written := writePart (stringsToLower U table)
    ++ keys.flatMap (fun key => writePart (stringsToLower U key))
    ++ writePart (stringsToLower U suffix)
  let digest := hexString (sha1 written)
  "idx_" ++ ⟨digest.data.take 16⟩

/-! ## hash_indexed.go -/

/-- The map `columnIndex` / `seenKeys`: the latest binding of a key comes first. -/
abbrev GoMap := List (String × Nat)

/-- The first loop of `Upsert`: quotes each column and records its position. Returns
`quotedColumns` and `columnIndex`. -/
def quoteColumns (U : UnicodeTables) : Nat → List String → GoMap → Except Err (List String × GoMap)
  | _, [], columnIndex => .ok ([], columnIndex)
  | i, col :: rest, columnIndex =>
    match quoteIdentifier U col with
    | .error err => .error (.wrap ("column[" ++ fmtD i ++ "]") err)
    | .ok quoted =>
      match quoteColumns U (i + 1) rest ((col, i) :: columnIndex) with
      | .error err => .error err
      | .ok (quotedColumns, columnIndex') => .ok (quoted :: quotedColumns, columnIndex')

/-- The second loop of `HashIndexedUpserter.Upsert`: every key must be a column and is quoted. -/
def quoteUniqueKeys (U : UnicodeTables) (columnIndex : GoMap) : List String → Except Err (List String)
  | [] => .ok []
  | key :: rest =>
    match columnIndex.lookup key with
    | none => .error (.keyNotFound key)
    | some _ =>
      match quoteIdentifier U key with
      | .error err => .error (.wrapKey key err)
      | .ok quoted =>
        match quoteUniqueKeys U columnIndex rest with
        | .error err => .error err
        | .ok quotedUniqueKeys => .ok (quoted :: quotedUniqueKeys)

/-- The loop of Go's `compositeKey` from key position `i` on, `b` being the builder. -/
def compositeKeyLoop (row : Row) (columnIndex : GoMap) : Nat → List String → String → Option String
  | _, [], b => some b
  | i, key :: rest, b =>
    match row[(columnIndex.lookup key).getD 0]? with
    | none => none
    | some val =>
      compositeKeyLoop row columnIndex (i + 1) rest ((if i > 0 then b ++ "|" else b) ++ fmtV val)

/-- Go's `compositeKey`; `none` is the panic of an index out of range. -/
def compositeKey (row : Row) (uniqueKeys : List String) (columnIndex : GoMap) : Option String :=
  compositeKeyLoop row columnIndex 0 uniqueKeys ""

/-- Text of the statement built in `ensureUniqueIndex`. -/
def createIndexSql (indexIdent tableIdent : String) (quotedUniqueKeys : List String) : String :=
  "CREATE UNIQUE INDEX IF NOT EXISTS " ++ indexIdent ++ " ON " ++ tableIdent
    ++ " (" ++ joinStrings ", " quotedUniqueKeys ++ ")"

/-- Go's `ensureUniqueIndex`, run after the trace `tr`. -/
def ensureUniqueIndex (U : UnicodeTables) (db : Db) (tr : List Op) (tableIdent rawTable : String)
    (quotedUniqueKeys uniqueKeys : List String) : Ret × List Op :=
  match quoteIdentifier U (deriveIndexName U rawTable uniqueKeys "hash_idx") with
  | .error err => (.err (.wrap "index name" err), tr)
  | .ok indexIdent =>
    match db tr.length with
    | some err =>
      (.err (.wrap "create unique index" (.driver err)),
        tr ++ [.exec (createIndexSql indexIdent tableIdent quotedUniqueKeys) []])
    | none => (.ok, tr ++ [.exec (createIndexSql indexIdent tableIdent quotedUniqueKeys) []])

/-- The `seenKeys` loop: row lengths and in-batch duplicates, from row index `idx` on. -/
def checkRows (columns uniqueKeys : List String) (columnIndex : GoMap) :
    Nat → List Row → GoMap → Ret
  | _, [], _ => .ok
  | idx, row :: rest, seenKeys =>
    if row.length ≠ columns.length then
      .err (.new ("row " ++ fmtD idx ++ ": columns (" ++ fmtD columns.length ++ ") and values ("
        ++ fmtD row.length ++ ") length mismatch"))
    else
      match compositeKey row uniqueKeys columnIndex with
      | none => .panic
      | some key =>
        match seenKeys.lookup key with
        | some prev =>
          .err (.new ("rows " ++ fmtD prev ++ " and " ++ fmtD idx
            ++ " share duplicate unique key values"))
        | none => checkRows columns uniqueKeys columnIndex (idx + 1) rest ((key, idx) :: seenKeys)

/-- The inner loop `for j := range columns` over one row: the placeholders of the row, the
values appended to `args`, and the next `argIdx`. -/
def rowPlaceholders (row : Row) : List String → Nat → Nat → Option (List String × List Value × Nat)
  | [], _, argIdx => some ([], [], argIdx)
  | _ :: cols, j, argIdx =>
    match row[j]? with
    | none => none
    | some v =>
      match rowPlaceholders row cols (j + 1) (argIdx + 1) with
      | none => none
      | some (ps, vs, next) => some (("$" ++ fmtD argIdx) :: ps, v :: vs, next)

/-- The outer loop `for i, row := range rows`: the groups `placeholders` and `args`. -/
def buildPlaceholders (columns : List String) : List Row → Nat → Option (List String × List Value)
  | [], _ => some ([], [])
  | row :: rest, argIdx =>
    match rowPlaceholders row columns 0 argIdx with
    | none => none
    | some (ps, vs, next) =>
      match buildPlaceholders columns rest next with
      | none => none
      | some (groups, args) => some (("(" ++ joinStrings ", " ps ++ ")") :: groups, vs ++ args)

/-- The loop building `setClauses`: one assignment per column outside `uniqueSet`. -/
def buildSetClauses (uniqueSet : List String) : List String → List String → List String
  | col :: cols, quoted :: quotedCols =>
    if uniqueSet.contains col then buildSetClauses uniqueSet cols quotedCols
    else (quoted ++ " = EXCLUDED." ++ quoted) :: buildSetClauses uniqueSet cols quotedCols
  | _, _ => []

/-- The text `query` of the upsert statement. -/
def upsertSql (tableIdent : String) (quotedColumns placeholders quotedUniqueKeys setClauses :
    List String) : String :=
  if setClauses.length = 0 then
    "INSERT INTO " ++ tableIdent ++ " (" ++ joinStrings ", " quotedColumns ++ ") VALUES "
      ++ joinStrings ", " placeholders ++ " ON CONFLICT (" ++ joinStrings ", " quotedUniqueKeys
      ++ ") DO NOTHING"
  else
    "INSERT INTO " ++ tableIdent ++ " (" ++ joinStrings ", " quotedColumns ++ ") VALUES "
      ++ joinStrings ", " placeholders ++ " ON CONFLICT (" ++ joinStrings ", " quotedUniqueKeys
      ++ ") DO UPDATE SET " ++ joinStrings ", " setClauses

/-- Go's `(*HashIndexedUpserter).Upsert`, run after the trace `tr`: the returned error and the
trace of operations sent to the database. -/
def HashIndexedUpserter.Upsert (U : UnicodeTables) (db : Db) (tr : List Op) (table : String)
    (columns : List String) (rows : List Row) (uniqueKeys : List String) : Ret × List Op :=
  if columns.length = 0 then (.err (.new "at least one column is required"), tr)
  else if uniqueKeys.length = 0 then (.err (.new "at least one unique key is required"), tr)
  else if rows.length = 0 then (.ok, tr)
  else
    match quoteIdentifier U table with
    | .error err => (.err (.wrap "table" err), tr)
    | .ok tableIdent =>
      match quoteColumns U 0 columns [] with
      | .error err => (.err err, tr)
      | .ok (quotedColumns, columnIndex) =>
        match quoteUniqueKeys U columnIndex uniqueKeys with
        | .error err => (.err err, tr)
        | .ok quotedUniqueKeys =>
          match ensureUniqueIndex U db tr tableIdent table quotedUniqueKeys uniqueKeys with
          | (.err err, tr1) => (.err err, tr1)
          | (.panic, tr1) => (.panic, tr1)
          | (.ok, tr1) =>
            match checkRows columns uniqueKeys columnIndex 0 rows [] with
            | .err err => (.err err, tr1)
            | .panic => (.panic, tr1)
            | .ok =>
              match buildPlaceholders columns rows 1 with
              | none => (.panic, tr1)
              | some (placeholders, args) =>
                let setClauses := buildSetClauses uniqueKeys columns quotedColumns
                let query := upsertSql tableIdent quotedColumns placeholders quotedUniqueKeys
                  setClauses
                match db tr1.length with
                | some err => (.err (.wrap "exec upsert" (.driver err)), tr1 ++ [.exec query args])
                | none => (.ok, tr1 ++ [.exec query args])

/-! ## batched_hash_indexed.go -/

/-- The slice expression `rows[start:end]`. -/
def sliceRows (rows : List Row) (start stop : Nat) : List Row := (rows.take stop).drop start

/-- The loop `for start := 0; start < len(rows); start += batchSize` from `start` on, with
`fuel` iterations allowed; returns the error, the trace, and the row slices handed to the
Bulk upserter so far (`calls`). Running out of fuel is `none`. -/
def batchLoop (U : UnicodeTables) (db : Db) (table : String) (columns : List String)
    (rows : List Row) (uniqueKeys : List String) (batchSize : Nat) :
    Nat → Nat → List Op → List (List Row) → Option (Ret × List Op × List (List Row))
  | 0, _, _, _ => none
  | fuel + 1, start, tr, calls =>
    if start < rows.length then
      let stop := min (start + batchSize) rows.length
      let chunk := sliceRows rows start stop
      match HashIndexedUpserter.Upsert U db tr table columns chunk uniqueKeys with
      | (.ok, tr1) =>
        batchLoop U db table columns rows uniqueKeys batchSize fuel (start + batchSize) tr1
          (calls ++ [chunk])
      | (r, tr1) => some (r, tr1, calls ++ [chunk])
    else some (.ok, tr, calls)

/-- Go's `(*BatchedHashIndexedUpserter).Upsert` for a receiver with the given `batchSize`,
run after the trace `tr`; the third component lists the row slices passed to the Bulk
upserter, in call order. The loop is given `len(rows) + 1` iterations. -/
def BatchedHashIndexedUpserter.Upsert (U : UnicodeTables) (db : Db) (batchSize : Int)
    (tr : List Op) (table : String) (columns : List String) (rows : List Row)
    (uniqueKeys : List String) : Option (Ret × List Op × List (List Row)) :=
  if columns.length = 0 then some (.err (.new "at least one column is required"), tr, [])
  else if uniqueKeys.length = 0 then
    some (.err (.new "at least one unique key is required"), tr, [])
  else if rows.length = 0 then some (.ok, tr, [])
  else if batchSize ≤ 0 then some (.err (.new "batch size must be positive"), tr, [])
  else batchLoop U db table columns rows uniqueKeys batchSize.toNat (rows.length + 1) 0 tr []

/-! ## naive.go -/

/-- The second loop of `NaiveUpserter.Upsert` from key position `i` on: returns
`whereClauses` and `quotedUniqueKeys`. -/
def quoteWhereKeys (U : UnicodeTables) (columnIndex : GoMap) :
    Nat → List String → Except Err (List String × List String)
  | _, [] => .ok ([], [])
  | i, key :: rest =>
    match columnIndex.lookup key with
    | none => .error (.keyNotFound key)
    | some _ =>
      match quoteIdentifier U key with
      | .error err => .error (.wrapKey key err)
      | .ok quotedKey =>
        match quoteWhereKeys U columnIndex (i + 1) rest with
        | .error err => .error err
        | .ok (whereClauses, quotedUniqueKeys) =>
          .ok ((quotedKey ++ " = $" ++ fmtD (i + 1)) :: whereClauses, quotedKey :: quotedUniqueKeys)

/-- The loop filling `whereArgs`; `none` is the panic of an index out of range. -/
def whereArgs (row : Row) (columnIndex : GoMap) : List String → Option (List Value)
  | [] => some []
  | key :: rest =>
    match row[(columnIndex.lookup key).getD 0]? with
    | none => none
    | some v =>
      match whereArgs row columnIndex rest with
      | none => none
      | some vs => some (v :: vs)

/-- The placeholders `$i+1 .. $i+k` of `executeInsert`. -/
def insertPlaceholders : Nat → Nat → List String
  | 0, _ => []
  | k + 1, i => ("$" ++ fmtD (i + 1)) :: insertPlaceholders k (i + 1)

/-- Text of the statement built in `executeInsert`. -/
def insertSql (table : String) (quotedColumns : List String) (row : Row) : String :=
  "INSERT INTO " ++ table ++ " (" ++ joinStrings ", " quotedColumns ++ ") VALUES ("
    ++ joinStrings ", " (insertPlaceholders row.length 0) ++ ")"

/-- Go's `executeInsert`, run after the trace `tr`. -/
def executeInsert (db : Db) (tr : List Op) (table : String) (quotedColumns : List String)
    (row : Row) : Ret × List Op :=
  match db tr.length with
  | some err => (.err (.wrap "insert row" (.driver err)), tr ++ [.exec (insertSql table quotedColumns row) row])
  | none => (.ok, tr ++ [.exec (insertSql table quotedColumns row) row])

/-- The first loop of `executeUpdate` from column position `i` on: `setClauses`, the values
appended to `args`, and the next `idx`; `none` is a panic. -/
def updateSetClauses (quotedColumns : List String) (row : Row) :
    List String → Nat → Nat → Option (List String × List Value × Nat)
  | [], _, idx => some ([], [], idx)
  | _ :: cols, i, idx =>
    match quotedColumns[i]?, row[i]? with
    | some quoted, some v =>
      match updateSetClauses quotedColumns row cols (i + 1) (idx + 1) with
      | none => none
      | some (cs, vs, next) => some ((quoted ++ " = $" ++ fmtD idx) :: cs, v :: vs, next)
    | _, _ => none

/-- The second loop of `executeUpdate` from key position `i` on: `whereClauses` and the values
appended to `args`. -/
def updateWhereClauses (quotedUniqueKeys : List String) (row : Row) (columnIndex : GoMap) :
    List String → Nat → Nat → Except Ret (List String × List Value)
  | [], _, _ => .ok ([], [])
  | key :: rest, i, idx =>
    match quotedUniqueKeys[i]? with
    | none => .error .panic
    | some quotedKey =>
      if quotedKey = "" then .error (.err (.keyMissingQuoted key))
      else
        match row[(columnIndex.lookup key).getD 0]? with
        | none => .error .panic
        | some v =>
          match updateWhereClauses quotedUniqueKeys row columnIndex rest (i + 1) (idx + 1) with
          | .error r => .error r
          | .ok (cs, vs) => .ok ((quotedKey ++ " = $" ++ fmtD idx) :: cs, v :: vs)

/-- Go's `executeUpdate`, run after the trace `tr`. -/
def executeUpdate (db : Db) (tr : List Op) (table : String) (quotedColumns columns : List String)
    (columnIndex : GoMap) (row : Row) (uniqueKeys quotedUniqueKeys : List String) :
    Ret × List Op :=
  match updateSetClauses quotedColumns row columns 0 1 with
  | none => (.panic, tr)
  | some (setClauses, args, idx) =>
    match updateWhereClauses quotedUniqueKeys row columnIndex uniqueKeys 0 idx with
    | .error r => (r, tr)
    | .ok (whereClauses, keyArgs) =>
      let updateQuery := "UPDATE " ++ table ++ " SET " ++ joinStrings ", " setClauses
        ++ " WHERE " ++ joinStrings " AND " whereClauses
      match db tr.length with
      | some err => (.err (.wrap "update row" (.driver err)), tr ++ [.exec updateQuery (args ++ keyArgs)])
      | none => (.ok, tr ++ [.exec updateQuery (args ++ keyArgs)])

/-- The row loop of `NaiveUpserter.Upsert` from row index `rowIdx` on (up to the return
statement that leaves it, the deferred rollback excluded). -/
def naiveRows (db : Db) (tableIdent checkQuery : String) (quotedColumns columns : List String)
    (columnIndex : GoMap) (uniqueKeys quotedUniqueKeys : List String) :
    Nat → List Row → List Op → Ret × List Op
  | _, [], tr => (.ok, tr)
  | rowIdx, row :: rest, tr =>
    if row.length ≠ columns.length then
      (.err (.new ("row " ++ fmtD rowIdx ++ ": columns (" ++ fmtD columns.length
        ++ ") and values (" ++ fmtD row.length ++ ") length mismatch")), tr)
    else
      match whereArgs row columnIndex uniqueKeys with
      | none => (.panic, tr)
      | some wargs =>
        let tr1 := tr ++ [.queryRow checkQuery wargs]
        match db tr.length with
        | some (.other code) =>
          (.err (.wrap ("row " ++ fmtD rowIdx ++ ": check existing row") (.driver (.other code))),
            tr1)
        | none =>
          match executeUpdate db tr1 tableIdent quotedColumns columns columnIndex row uniqueKeys
              quotedUniqueKeys with
          | (.err err, tr2) => (.err (.wrap ("row " ++ fmtD rowIdx) err), tr2)
          | (.panic, tr2) => (.panic, tr2)
          | (.ok, tr2) =>
            naiveRows db tableIdent checkQuery quotedColumns columns columnIndex uniqueKeys
              quotedUniqueKeys (rowIdx + 1) rest tr2
        | some .noRows =>
          match executeInsert db tr1 tableIdent quotedColumns row with
          | (.err err, tr2) => (.err (.wrap ("row " ++ fmtD rowIdx) err), tr2)
          | (.panic, tr2) => (.panic, tr2)
          | (.ok, tr2) =>
            naiveRows db tableIdent checkQuery quotedColumns columns columnIndex uniqueKeys
              quotedUniqueKeys (rowIdx + 1) rest tr2

/-- Go's `(*NaiveUpserter).Upsert`, run after the trace `tr`. The deferred function sends
`tx.Rollback()` on every exit on which `committed` is still false. -/
def NaiveUpserter.Upsert (U : UnicodeTables) (db : Db) (tr : List Op) (table : String)
    (columns : List String) (rows : List Row) (uniqueKeys : List String) : Ret × List Op :=
  if columns.length = 0 then (.err (.new "at least one column is required"), tr)
  else if uniqueKeys.length = 0 then (.err (.new "at least one unique key is required"), tr)
  else if rows.length = 0 then (.ok, tr)
  else
    match quoteIdentifier U table with
    | .error err => (.err (.wrap "table" err), tr)
    | .ok tableIdent =>
      match quoteColumns U 0 columns [] with
      | .error err => (.err err, tr)
      | .ok (quotedColumns, columnIndex) =>
        match quoteWhereKeys U columnIndex 0 uniqueKeys with
        | .error err => (.err err, tr)
        | .ok (whereClauses, quotedUniqueKeys) =>
          match db tr.length with
          | some err => (.err (.wrap "begin tx" (.driver err)), tr ++ [.begin])
          | none =>
            let checkQuery := "SELECT 1 FROM " ++ tableIdent ++ " WHERE "
              ++ joinStrings " AND " whereClauses ++ " LIMIT 1"
            match naiveRows db tableIdent checkQuery quotedColumns columns columnIndex uniqueKeys
                quotedUniqueKeys 0 rows (tr ++ [.begin]) with
            | (.ok, tr2) =>
              match db tr2.length with
              | some err => (.err (.wrap "commit tx" (.driver err)), tr2 ++ [.commit, .rollback])
              | none => (.ok, tr2 ++ [.commit])
            | (r, tr2) => (r, tr2 ++ [.rollback])

/-! ## Specification-side definitions -/

/-- An ASCII letter, an ASCII digit or the underscore. -/
def asciiIdentChar (c : Char) : Bool :=
  (0x41 ≤ c.toNat && c.toNat ≤ 0x5A) || (0x61 ≤ c.toNat && c.toNat ≤ 0x7A)
    || (0x30 ≤ c.toNat && c.toNat ≤ 0x39) || c == '_'

/-- An ASCII digit. -/
def asciiDigit (c : Char) : Bool := 0x30 ≤ c.toNat && c.toNat ≤ 0x39

/-- The identifiers of the specification: non-empty, ASCII letters, digits and underscore
only, the first character not a digit. -/
def asciiIdentifier (name : String) : Bool :=
  !name.data.isEmpty && name.data.all asciiIdentChar && !(name.data.head?.any asciiDigit)

/-- A rune the code lets pass: the underscore, a Unicode letter or a Unicode decimal digit. -/
def identRune (U : UnicodeTables) (c : Char) : Bool :=
  c == '_' || unicodeIsLetter U c || unicodeIsDigit U c

/-- The identifiers the code accepts: non-empty, underscore, Unicode letters and Unicode
decimal digits only, the first rune not a digit. -/
def unicodeIdentifier (U : UnicodeTables) (name : String) : Bool :=
  !name.data.isEmpty && name.data.all (identRune U) && !(name.data.head?.any (unicodeIsDigit U))

/-- A name between two double quotes. -/
def quoted (name : String) : String := "\"" ++ name ++ "\""

/-- The map `columnIndex` after the column loop has run over `cols` from position `i`,
starting from the map `m`. -/
def columnIndexFrom : Nat → List String → GoMap → GoMap
  | _, [], m => m
  | i, col :: rest, m => columnIndexFrom (i + 1) rest ((col, i) :: m)

/-- The map `columnIndex` of a column list. -/
def columnIndexOf (columns : List String) : GoMap := columnIndexFrom 0 columns []

/-- The structural validation of a call: non-empty column and key lists, safe table and
column names, every unique key among the columns, every row as long as the column list. -/
def validCall (U : UnicodeTables) (table : String) (columns : List String) (rows : List Row)
    (uniqueKeys : List String) : Prop :=
  columns ≠ [] ∧ uniqueKeys ≠ [] ∧ isSafeIdentifier U table = true
    ∧ (∀ c ∈ columns, isSafeIdentifier U c = true)
    ∧ (∀ k ∈ uniqueKeys, k ∈ columns)
    ∧ (∀ r ∈ rows, r.length = columns.length)

/-- The composite keys of a batch, in row order. -/
def batchKeys (columns uniqueKeys : List String) (rows : List Row) : List (Option String) :=
  rows.map fun r => compositeKey r uniqueKeys (columnIndexOf columns)

/-- The `CREATE UNIQUE INDEX` operation of a call. -/
def createOp (U : UnicodeTables) (table : String) (uniqueKeys : List String) : Op :=
  .exec (createIndexSql (quoted (deriveIndexName U table uniqueKeys "hash_idx")) (quoted table)
    (uniqueKeys.map quoted)) []

/-- The parenthesised group of row `i` of a batch with `m` columns: placeholders numbered
`i*m+1` to `i*m+m`. -/
def placeholderGroup (m i : Nat) : String :=
  "(" ++ joinStrings ", " ((List.range m).map fun j => "$" ++ fmtD (i * m + j + 1)) ++ ")"

/-- The conflict action: nothing when every column is a unique key, else one assignment per
column that is not a unique key, in column order. -/
def conflictAction (columns uniqueKeys : List String) : String :=
  if columns.all (fun c => uniqueKeys.contains c) then "DO NOTHING"
  else "DO UPDATE SET " ++ joinStrings ", "
    ((columns.filter fun c => !uniqueKeys.contains c).map fun c =>
      quoted c ++ " = EXCLUDED." ++ quoted c)

/-- The text of the multi-row upsert for `n` rows up to and including the conflict target. -/
def bulkInsertHead (table : String) (columns : List String) (n : Nat)
    (uniqueKeys : List String) : String :=
  "INSERT INTO " ++ quoted table ++ " (" ++ joinStrings ", " (columns.map quoted) ++ ") VALUES "
    ++ joinStrings ", " ((List.range n).map (placeholderGroup columns.length))
    ++ " ON CONFLICT (" ++ joinStrings ", " (uniqueKeys.map quoted) ++ ") "

/-- The text of the multi-row upsert for `n` rows. -/
def bulkInsertText (table : String) (columns : List String) (n : Nat)
    (uniqueKeys : List String) : String :=
  bulkInsertHead table columns n uniqueKeys ++ conflictAction columns uniqueKeys

/-- The scan of `seenKeys` over the composite keys alone: the first pair of row indices
found to share a key, if any. -/
def scanKeys : Nat → List String → GoMap → Option (Nat × Nat)
  | _, [], _ => none
  | idx, k :: ks, seen =>
    match seen.lookup k with
    | some prev => some (prev, idx)
    | none => scanKeys (idx + 1) ks ((k, idx) :: seen)

/-- The text of the duplicate-key error for rows `p` and `q`. -/
def duplicateMessage (p q : Nat) : String :=
  "rows " ++ fmtD p ++ " and " ++ fmtD q ++ " share duplicate unique key values"

/-- The text of the length-mismatch error for row `i` with `v` values against `m` columns. -/
def mismatchMessage (i m v : Nat) : String :=
  "row " ++ fmtD i ++ ": columns (" ++ fmtD m ++ ") and values (" ++ fmtD v ++ ") length mismatch"

/-- The group of row `i` when the counter `argIdx` stood at `a` before row 0. -/
def groupFrom (a m i : Nat) : String :=
  "(" ++ joinStrings ", " ((List.range m).map fun j => "$" ++ fmtD (a + i * m + j)) ++ ")"

/-- The chunks of the specification: `ceil(n/s)` contiguous slices, the `k`-th being
`rows[k*s : min((k+1)*s, n)]`. -/
def chunksOf (s : Nat) (rows : List Row) : List (List Row) :=
  (List.range ((rows.length + s - 1) / s)).map fun k =>
    sliceRows rows (k * s) (min ((k + 1) * s) rows.length)

/-- The next `c` slices of width `s` starting at row `start`. -/
def chunksFrom (s : Nat) (rows : List Row) : Nat → Nat → List (List Row)
  | 0, _ => []
  | c + 1, start =>
    sliceRows rows start (min (start + s) rows.length) :: chunksFrom s rows c (start + s)

/-- The Bulk strategy applied to a list of chunks in order, stopping at the first call that
does not succeed; the third component lists the chunks handed over. -/
def runChunks (U : UnicodeTables) (db : Db) (table : String) (columns uniqueKeys : List String) :
    List (List Row) → List Op → List (List Row) → Ret × List Op × List (List Row)
  | [], tr, calls => (.ok, tr, calls)
  | c :: cs, tr, calls =>
    match HashIndexedUpserter.Upsert U db tr table columns c uniqueKeys with
    | (.ok, tr1) => runChunks U db table columns uniqueKeys cs tr1 (calls ++ [c])
    | (r, tr1) => (r, tr1, calls ++ [c])

/-- The two statements of a successful Bulk call on a chunk. -/
def chunkOps (U : UnicodeTables) (table : String) (columns uniqueKeys : List String)
    (c : List Row) : List Op :=
  [createOp U table uniqueKeys, .exec (bulkInsertText table columns c.length uniqueKeys) c.flatten]

/-- The trace at the moment the Bulk call for chunk `k` is made, every earlier chunk having
been handed to the Bulk strategy in order, starting from the trace `tr`. -/
def traceBefore (U : UnicodeTables) (db : Db) (table : String) (columns uniqueKeys : List String) :
    List (List Row) → List Op → Nat → List Op
  | _, tr, 0 => tr
  | [], tr, _ + 1 => tr
  | c :: cs, tr, k + 1 =>
    traceBefore U db table columns uniqueKeys cs
      (HashIndexedUpserter.Upsert U db tr table columns c uniqueKeys).2 k

/-- A database that refuses its third operation and accepts every other one. -/
def failsThirdOp : Db := fun k => if k = 2 then some (.other 7) else none

/-- The values of a row in its unique-key columns, in unique-key order. -/
def keyValues (columns uniqueKeys : List String) (row : Row) : List Value :=
  uniqueKeys.map fun k => row.getD ((List.lookup k (columnIndexOf columns)).getD 0) Value.null

/-- The assignments `<q_i> = $idx, <q_i+1> = $idx+1, ...` of the row-by-row `UPDATE`. -/
def setClauseTexts (quotedColumns : List String) : List String → Nat → Nat → List String
  | [], _, _ => []
  | _ :: cols, i, idx =>
    (quotedColumns.getD i "" ++ " = $" ++ fmtD idx) :: setClauseTexts quotedColumns cols (i + 1) (idx + 1)

/-- The predicates `<k> = $idx, ...` over the unique keys. -/
def whereClauseTexts : List String → Nat → List String
  | [], _ => []
  | k :: rest, idx => (quoted k ++ " = $" ++ fmtD idx) :: whereClauseTexts rest (idx + 1)

/-- The text of the existence probe. -/
def naiveCheckText (table : String) (uniqueKeys : List String) : String :=
  "SELECT 1 FROM " ++ quoted table ++ " WHERE " ++ joinStrings " AND " (whereClauseTexts uniqueKeys 1)
    ++ " LIMIT 1"

/-- The text of the row-by-row `UPDATE`. -/
def naiveUpdateText (table : String) (columns uniqueKeys : List String) : String :=
  "UPDATE " ++ quoted table ++ " SET "
    ++ joinStrings ", " (setClauseTexts (columns.map quoted) columns 0 1)
    ++ " WHERE " ++ joinStrings " AND " (whereClauseTexts uniqueKeys (1 + columns.length))

/-- The validation of the names of a call, which all three strategies run before they touch
the database: non-empty column and key lists, safe table and column names, every unique key
among the columns. -/
def validNames (U : UnicodeTables) (table : String) (columns uniqueKeys : List String) : Prop :=
  columns ≠ [] ∧ uniqueKeys ≠ [] ∧ isSafeIdentifier U table = true
    ∧ (∀ c ∈ columns, isSafeIdentifier U c = true)
    ∧ (∀ k ∈ uniqueKeys, k ∈ columns)

/-- The existence probe of the specification: `SELECT 1 FROM t WHERE k1 = $1 AND ... LIMIT 1`. -/
def probeText (table : String) (uniqueKeys : List String) : String :=
  "SELECT 1 FROM " ++ quoted table ++ " WHERE "
    ++ joinStrings " AND " ((List.enumFrom 1 uniqueKeys).map fun p => quoted p.2 ++ " = $" ++ fmtD p.1)
    ++ " LIMIT 1"

/-- The update of the specification: every column is set to `$1..$m`, the keys are compared
with `$m+1..$m+k`. -/
def updateText (table : String) (columns uniqueKeys : List String) : String :=
  "UPDATE " ++ quoted table ++ " SET "
    ++ joinStrings ", " ((List.enumFrom 1 columns).map fun p => quoted p.2 ++ " = $" ++ fmtD p.1)
    ++ " WHERE "
    ++ joinStrings " AND " ((List.enumFrom (columns.length + 1) uniqueKeys).map fun p =>
        quoted p.2 ++ " = $" ++ fmtD p.1)

/-- The single-row insert of the specification: `INSERT INTO t (columns) VALUES ($1..$m)`. -/
def insertText (table : String) (columns : List String) : String :=
  "INSERT INTO " ++ quoted table ++ " (" ++ joinStrings ", " (columns.map quoted) ++ ") VALUES ("
    ++ joinStrings ", " ((List.range columns.length).map fun j => "$" ++ fmtD (j + 1)) ++ ")"

/-- The operations of the row-by-row strategy for a list of rows whose first probe is the
operation number `pos`: per row the probe bound to the key values, then the update when the
probe found a row (answer `none`) and the insert otherwise. -/
def naiveRowOps (db : Db) (table : String) (columns uniqueKeys : List String) :
    Nat → List Row → List Op
  | _, [] => []
  | pos, r :: rest =>
    Op.queryRow (probeText table uniqueKeys) (keyValues columns uniqueKeys r)
      :: (match db pos with
          | none => Op.exec (updateText table columns uniqueKeys) (r ++ keyValues columns uniqueKeys r)
          | some _ => Op.exec (insertText table columns) r)
      :: naiveRowOps db table columns uniqueKeys (pos + 2) rest

/-- Every probe and write of `n` rows succeeds, the first probe being operation number `pos`:
a probe answers "found" or `sql.ErrNoRows`, a write answers without error. -/
def rowsSucceed (db : Db) (pos n : Nat) : Prop :=
  ∀ j, j < n →
    (db (pos + 2 * j) = none ∨ db (pos + 2 * j) = some DbErr.noRows) ∧ db (pos + 2 * j + 1) = none

/-- The text of `err.Error()`, given the rendering `q` of the verb `%q` and the text `d` of
the errors of the database handle. -/
def Err.message (q : String → String) (d : DbErr → String) : Err → String
  | .new msg => msg
  | .invalidIdentifier name => "invalid identifier " ++ q name
  | .keyNotFound key => "unique key " ++ q key ++ " not found in columns"
  | .keyMissingQuoted key => "unique key " ++ q key ++ ": missing quoted identifier"
  | .wrap ctx inner => ctx ++ ": " ++ Err.message q d inner
  | .wrapKey key inner => "unique key " ++ q key ++ ": " ++ Err.message q d inner
  | .driver e => d e

/-- The database error at the end of the `Unwrap` chain, if there is one. -/
def Err.cause : Err → Option DbErr
  | .wrap _ inner => Err.cause inner
  | .wrapKey _ inner => Err.cause inner
  | .driver e => some e
  | _ => none

/-- The byte string written to the hash in `deriveIndexName`. -/
def digestInput (U : UnicodeTables) (table : String) (uniqueKeys : List String)
    (suffix : String) : List Nat :=
  writePart (stringsToLower U table)
    ++ (sortStrings uniqueKeys).flatMap (fun key => writePart (stringsToLower U key))
    ++ writePart (stringsToLower U suffix)

/-- A database in which the probe of the second row (operation 3) finds no row and every
other operation succeeds. -/
def secondRowIsNew : Db := fun k => if k = 3 then some .noRows else none

/-- A statement sent with SQL text (an exec or a query), as opposed to the transaction
operations begin, commit and rollback. -/
def Op.isStatement : Op → Bool
  | .exec _ _ => true
  | .queryRow _ _ => true
  | _ => false

/-- A database that refuses every operation. -/
def refusesAll : Db := fun _ => some (.other 1)

/-- A database that refuses its fifth operation and accepts every other one. -/
def failsFifthOp : Db := fun k => if k = 4 then some (.other 9) else none

/-- The `%v` renderings of a row's unique-key values, in unique-key order. -/
def renderedKey (columns uniqueKeys : List String) (row : Row) : List String :=
  (keyValues columns uniqueKeys row).map fmtV

/-- The renderings that follow the first one in a composite key: each behind a `|`. -/
def keyTail : List String → String
  | [] => ""
  | v :: rest => "|" ++ v ++ keyTail rest

/-- The separator of `compositeKey` does not occur in the string. -/
def barFree (v : String) : Prop := '|' ∉ v.data

/-- Two rows of the batch that fall in the same chunk of width `s` (indices `i < j` with
`i / s = j / s`) and have the same composite key. -/
def sameChunkDuplicate (columns uniqueKeys : List String) (s : Nat) (rows : List Row) : Prop :=
  ∃ i j ri rj, i < j ∧ i / s = j / s ∧ rows[i]? = some ri ∧ rows[j]? = some rj
    ∧ compositeKey ri uniqueKeys (columnIndexOf columns)
      = compositeKey rj uniqueKeys (columnIndexOf columns)

/-- Modelled from the spec: the table of the database, which is not part of the repository.
A table is the list of its rows, each row holding one value per column in column order; this
is the test whether some row of the table `T` has the key `kv` under the key function `key`. -/
def hasKey (key : Row → List Value) (T : List Row) (kv : List Value) : Bool :=
  T.any fun x => decide (key x = kv)

/-- Modelled from the spec: the upsert of one proposed row `r` into the table `T`. When some
row has the key of `r`, every such row `x` is replaced by `f x r`; otherwise `r` is appended. -/
def upsertBy (key : Row → List Value) (f : Row → Row → Row) (T : List Row) (r : Row) :
    List Row :=
  if hasKey key T (key r) then T.map fun x => if key x = key r then f x r else x
  else T ++ [r]

/-- The last row of a batch that carries the key `kv`. -/
def lastBy (key : Row → List Value) : List Row → List Value → Option Row
  | [], _ => none
  | r :: rest, kv =>
    match lastBy key rest kv with
    | some l => some l
    | none => if key r = kv then some r else none

/-- Modelled from the spec: the row that `ON CONFLICT (keys) DO UPDATE SET c = EXCLUDED.c`
(one assignment per column outside the unique keys; `DO NOTHING` when there is none) leaves in
place of the stored row `old` when `new` is proposed: the stored value in every unique-key
column and the proposed value in every other column. -/
def mergeRow (columns uniqueKeys : List String) (old new : Row) : Row :=
  (List.range columns.length).map fun i =>
    if uniqueKeys.contains (columns.getD i "") then old.getD i Value.null
    else new.getD i Value.null

/-- The rows bound to a multi-row insert: `n` consecutive groups of `m` arguments. -/
def rowsOfArgs (m : Nat) : Nat → List Value → List Row
  | 0, _ => []
  | n + 1, args => args.take m :: rowsOfArgs m n (args.drop m)

/-- Modelled from the spec: the effect of one operation on the table and the answer of the
database, with no database errors. The probe answers "found" (`none`) when a row has the bound
key values and `sql.ErrNoRows` otherwise; the row-by-row `UPDATE` replaces every row with the
bound key values by the bound row; the single-row `INSERT` appends the bound row; the
multi-row `INSERT ... ON CONFLICT` upserts its rows in order; any other operation (index
creation, `BEGIN`, `COMMIT`) succeeds and leaves the rows as they are. The undoing of writes
by `ROLLBACK` is not modelled: the model is applied to the traces of calls that succeed. -/
def tableStep (table : String) (columns uniqueKeys : List String) (T : List Row) :
    Op → List Row × Option DbErr
  | .queryRow sql args =>
    if sql = probeText table uniqueKeys then
      (T, if hasKey (keyValues columns uniqueKeys) T args then none else some DbErr.noRows)
    else (T, none)
  | .exec sql args =>
    if sql = updateText table columns uniqueKeys then
      (T.map fun x =>
        if keyValues columns uniqueKeys x = args.drop columns.length then
          args.take columns.length
        else x, none)
    else if sql = insertText table columns then (T ++ [args], none)
    else if sql = bulkInsertText table columns (args.length / columns.length) uniqueKeys then
      ((rowsOfArgs columns.length (args.length / columns.length) args).foldl
        (upsertBy (keyValues columns uniqueKeys) (mergeRow columns uniqueKeys)) T, none)
    else (T, none)
  | _ => (T, none)

/-- The table after a list of operations. -/
def finalTable (table : String) (columns uniqueKeys : List String) :
    List Row → List Op → List Row
  | T, [] => T
  | T, op :: rest =>
    finalTable table columns uniqueKeys (tableStep table columns uniqueKeys T op).1 rest

/-- The oracle `db` answers the operations `ops`, sent from operation number `pos` on against
the table `T`, as the table model does. -/
def obeys (db : Db) (table : String) (columns uniqueKeys : List String) :
    List Row → Nat → List Op → Prop
  | _, _, [] => True
  | T, pos, op :: rest =>
    db pos = (tableStep table columns uniqueKeys T op).2
      ∧ obeys db table columns uniqueKeys (tableStep table columns uniqueKeys T op).1 (pos + 1) rest

/-- A database in which the probe of the first row (operation 1) finds no row and every other
operation succeeds. -/
def firstRowIsNew : Db := fun k => if k = 1 then some .noRows else none

/-- Modelled from the spec: the answers of the table `T` to the probes and writes of the
row-by-row strategy for a batch, two per row: the probe answers "found" (`none`) or
`sql.ErrNoRows`, the write that follows succeeds and upserts the row. -/
def tableAnswers (columns uniqueKeys : List String) : List Row → List Row → List (Option DbErr)
  | _, [] => []
  | T, r :: rest =>
    (if hasKey (keyValues columns uniqueKeys) T (keyValues columns uniqueKeys r) then none
      else some DbErr.noRows)
      :: none
      :: tableAnswers columns uniqueKeys
          (upsertBy (keyValues columns uniqueKeys) (fun _ r => r) T r) rest

/-- Modelled from the spec: the database holding the table `T`, as an oracle for one
row-by-row call on the batch `rows`: `BEGIN` succeeds, the probes and writes are answered by
the table, `COMMIT` succeeds. -/
def tableOracle (columns uniqueKeys : List String) (T rows : List Row) : Db :=
  fun k => (none :: tableAnswers columns uniqueKeys T rows).getD k none

/-! ## Identifier safety -/

theorem utf8Size_pos (c : Char) : 0 < c.utf8Size := by
  unfold Char.utf8Size
  dsimp only
  split_ifs <;> decide

theorem letter_not_digit (U : UnicodeTables) (c : Char) (h : unicodeIsLetter U c = true) :
    unicodeIsDigit U c = false := by
  unfold unicodeIsLetter at h
  unfold unicodeIsDigit
  by_cases hn : c.toNat ≤ 0xFF
  · simp only [hn, if_true] at h ⊢
    simp only [Bool.or_eq_true, Bool.and_eq_true, decide_eq_true_eq, beq_iff_eq] at h
    simp only [Bool.and_eq_false_iff, decide_eq_false_iff_not]
    omega
  · simp only [hn, if_false] at h ⊢
    exact U.disjoint _ h

theorem underscore_not_digit (U : UnicodeTables) : unicodeIsDigit U '_' = false := by
  have h : ('_' : Char).toNat = 95 := by decide
  simp [unicodeIsDigit, h]

theorem isSafeLoop_pos (U : UnicodeTables) (cs : List Char) :
    ∀ i, 0 < i → isSafeLoop U i cs = cs.all (identRune U) := by
  induction cs with
  | nil => intro i _; rfl
  | cons c rest ih =>
    intro i hi
    have hne : i ≠ 0 := Nat.pos_iff_ne_zero.mp hi
    have ih' := ih (i + c.utf8Size) (by omega)
    simp only [isSafeLoop, List.all_cons, identRune, hne, if_false, ih']
    by_cases h1 : c = '_'
    · simp [h1, identRune]
    · by_cases h2 : unicodeIsLetter U c = true
      · simp [h1, h2, identRune]
      · by_cases h3 : unicodeIsDigit U c = true
        · simp [h1, h2, h3, identRune]
        · simp [h1, h2, h3]

theorem isSafeIdentifier_eq (U : UnicodeTables) (name : String) :
    isSafeIdentifier U name = unicodeIdentifier U name := by
  obtain ⟨cs⟩ := name
  unfold isSafeIdentifier unicodeIdentifier
  cases cs with
  | nil => simp
  | cons c rest =>
    have hne : (String.mk (c :: rest)) ≠ "" := by
      intro h
      have := congrArg String.data h
      simp at this
    simp only [hne, if_false, isSafeLoop, List.isEmpty_cons, Bool.not_false, Bool.true_and,
      List.all_cons, List.head?_cons, Option.any_some, Nat.zero_add, if_true]
    rw [isSafeLoop_pos U rest _ (utf8Size_pos c)]
    by_cases h1 : c = '_'
    · subst h1
      simp [identRune, underscore_not_digit]
    · by_cases h2 : unicodeIsLetter U c = true
      · simp [h1, h2, identRune, letter_not_digit U c h2]
      · by_cases h3 : unicodeIsDigit U c = true
        · simp [h1, h2, h3, identRune]
        · simp [h1, h2, h3, identRune]

theorem all_eq_of_forall {α : Type} (l : List α) (p q : α → Bool)
    (h : ∀ x ∈ l, p x = q x) : l.all p = l.all q := by
  induction l with
  | nil => rfl
  | cons a t ih =>
    rw [List.all_cons, List.all_cons, h a (List.mem_cons_self a t),
      ih fun x hx => h x (List.mem_cons_of_mem a hx)]

theorem identRune_dq (U : UnicodeTables) : identRune U dq = false := by
  have h : dq.toNat = 34 := by decide
  have h2 : dq ≠ '_' := by decide
  simp [identRune, unicodeIsLetter, unicodeIsDigit, h, h2]

theorem identRune_ascii (U : UnicodeTables) (c : Char) (h : c.toNat < 128) :
    identRune U c = asciiIdentChar c := by
  have h1 : c.toNat ≤ 0xFF := by omega
  have h2 : (c.toNat == 0xAA) = false := beq_eq_false_iff_ne.mpr (by omega)
  have h3 : (c.toNat == 0xB5) = false := beq_eq_false_iff_ne.mpr (by omega)
  have h4 : (c.toNat == 0xBA) = false := beq_eq_false_iff_ne.mpr (by omega)
  have h5 : ¬ (0xC0 ≤ c.toNat) := by omega
  have h6 : ¬ (0xD8 ≤ c.toNat) := by omega
  have h7 : ¬ (0xF8 ≤ c.toNat) := by omega
  simp only [identRune, unicodeIsLetter, unicodeIsDigit, asciiIdentChar, h1, if_true]
  simp [h2, h3, h4, h5, h6, h7, Bool.or_comm, Bool.or_left_comm]

theorem asciiIdentChar_lt (c : Char) (h : asciiIdentChar c = true) : c.toNat < 128 := by
  simp only [asciiIdentChar, Bool.or_eq_true, Bool.and_eq_true, decide_eq_true_eq,
    beq_iff_eq] at h
  rcases h with ((h | h) | h) | h
  · omega
  · omega
  · omega
  · subst h
    decide

theorem unicodeIsDigit_ascii (U : UnicodeTables) (c : Char) (h : c.toNat < 128) :
    unicodeIsDigit U c = asciiDigit c := by
  have h1 : c.toNat ≤ 0xFF := by omega
  simp [unicodeIsDigit, asciiDigit, h1]

theorem doubleQuotes_of_safe (U : UnicodeTables) (cs : List Char)
    (h : cs.all (identRune U) = true) :
    (cs.flatMap fun c => if c = dq then [dq, dq] else [c]) = cs ∧ cs.count dq = 0 := by
  induction cs with
  | nil => simp
  | cons c rest ih =>
    simp only [List.all_cons, Bool.and_eq_true] at h
    have hc : c ≠ dq := by
      intro hc
      rw [hc, identRune_dq] at h
      exact Bool.false_ne_true h.1
    obtain ⟨ih1, ih2⟩ := ih h.2
    constructor
    · simp [List.flatMap_cons, hc, ih1]
    · rw [List.count_cons_of_ne (Ne.symm hc)]
      exact ih2

theorem doubleQuotes_safe (U : UnicodeTables) (name : String)
    (h : isSafeIdentifier U name = true) : doubleQuotes name = name := by
  have hall : name.data.all (identRune U) = true := by
    rw [isSafeIdentifier_eq] at h
    simp only [unicodeIdentifier, Bool.and_eq_true] at h
    exact h.1.2
  unfold doubleQuotes
  rw [(doubleQuotes_of_safe U name.data hall).1]

/-- C1, counterexample: the one-rune name U+00E9 (a Latin-1 letter of Go's fixed property
table, not an ASCII letter) is accepted by `isSafeIdentifier` and quoted without error. -/
theorem isSafeIdentifier_accepts_non_ascii :
    isSafeIdentifier latin1Tables "é" = true
      ∧ asciiIdentifier "é" = false
      ∧ quoteIdentifier latin1Tables "é" = .ok "\"é\"" := by
  decide

/-- C1, amended: `isSafeIdentifier` holds (and `quoteIdentifier` succeeds) exactly for the
non-empty names made of underscores, Unicode letters and Unicode decimal digits whose first
rune is not a digit; every other name is answered with the invalid-identifier error; among
the names made of ASCII characters the accepted ones are exactly the ASCII identifiers. -/
theorem isSafeIdentifier_iff_unicodeIdentifier (U : UnicodeTables) (name : String) :
    isSafeIdentifier U name = unicodeIdentifier U name
      ∧ quoteIdentifier U name =
          (if unicodeIdentifier U name then Except.ok ("\"" ++ doubleQuotes name ++ "\"")
            else Except.error (Err.invalidIdentifier name))
      ∧ asciiIdentifier name
          = (isSafeIdentifier U name && name.data.all fun c => decide (c.toNat < 128)) := by
  refine ⟨isSafeIdentifier_eq U name, ?_, ?_⟩
  · unfold quoteIdentifier
    rw [isSafeIdentifier_eq]
    cases unicodeIdentifier U name <;> simp
  · rw [isSafeIdentifier_eq]
    obtain ⟨cs⟩ := name
    unfold asciiIdentifier unicodeIdentifier
    cases cs with
    | nil => simp
    | cons c rest =>
      simp only [List.isEmpty_cons, Bool.not_false, Bool.true_and, List.head?_cons,
        Option.any_some]
      by_cases hall : ((c :: rest).all fun c => decide (c.toNat < 128)) = true
      · have hc : c.toNat < 128 := by
          simp only [List.all_cons, Bool.and_eq_true, decide_eq_true_eq] at hall
          exact hall.1
        have heq : (c :: rest).all (identRune U) = (c :: rest).all asciiIdentChar := by
          apply all_eq_of_forall
          intro x hx
          have := (List.all_eq_true.mp hall) x hx
          exact identRune_ascii U x (by simpa using this)
        rw [hall, heq, unicodeIsDigit_ascii U c hc]
        simp
      · have hall' : ((c :: rest).all fun c => decide (c.toNat < 128)) = false := by
          simpa using hall
        have hno : (c :: rest).all asciiIdentChar = false := by
          by_contra hcon
          have hyes : (c :: rest).all asciiIdentChar = true := by simpa using hcon
          apply hall
          rw [List.all_eq_true] at hyes ⊢
          intro x hx
          simpa using asciiIdentChar_lt x (hyes x hx)
        rw [hall', hno]
        simp

/-- C2: `quoteIdentifier` fails exactly when `isSafeIdentifier` is false; otherwise it
returns the double quote, the name unchanged, the double quote: the doubling step changes
nothing and the result holds exactly two double quotes, its first and last characters. -/
theorem quoteIdentifier_wraps (U : UnicodeTables) (name : String) :
    (isSafeIdentifier U name = false →
        quoteIdentifier U name = Except.error (Err.invalidIdentifier name))
      ∧ (isSafeIdentifier U name = true →
          quoteIdentifier U name = Except.ok ("\"" ++ name ++ "\"")
            ∧ doubleQuotes name = name
            ∧ ("\"" ++ name ++ "\"").data.count dq = 2
            ∧ ("\"" ++ name ++ "\"").data.head? = some dq
            ∧ ("\"" ++ name ++ "\"").data.getLast? = some dq) := by
  constructor
  · intro h
    simp [quoteIdentifier, h]
  · intro h
    have hall : name.data.all (identRune U) = true := by
      rw [isSafeIdentifier_eq] at h
      simp only [unicodeIdentifier, Bool.and_eq_true] at h
      exact h.1.2
    obtain ⟨h1, h2⟩ := doubleQuotes_of_safe U name.data hall
    have hd : doubleQuotes name = name := by
      unfold doubleQuotes
      rw [h1]
    refine ⟨?_, hd, ?_, ?_, ?_⟩
    · simp [quoteIdentifier, h, hd]
    · have : ("\"" ++ name ++ "\"").data = dq :: (name.data ++ [dq]) := by
        simp [String.data_append]
        rfl
      rw [this, List.count_cons_self, List.count_append, h2]
      rfl
    · have : ("\"" ++ name ++ "\"").data = dq :: (name.data ++ [dq]) := by
        simp [String.data_append]
        rfl
      rw [this]
      rfl
    · have : ("\"" ++ name ++ "\"").data = dq :: (name.data ++ [dq]) := by
        simp [String.data_append]
        rfl
      rw [this, List.getLast?_cons, List.getLast?_append]
      rfl

/-- C2, witness: `users` is wrapped in double quotes; `1user` and a name holding a double
quote are rejected. -/
theorem quoteIdentifier_wraps_witness :
    quoteIdentifier latin1Tables "users" = Except.ok "\"users\""
      ∧ quoteIdentifier latin1Tables "1user" = Except.error (Err.invalidIdentifier "1user")
      ∧ quoteIdentifier latin1Tables "user\"name"
          = Except.error (Err.invalidIdentifier "user\"name") :=
  ⟨((quoteIdentifier_wraps latin1Tables "users").2 (by decide)).1,
    (quoteIdentifier_wraps latin1Tables "1user").1 (by decide),
    (quoteIdentifier_wraps latin1Tables "user\"name").1 (by decide)⟩

/-! ## The validation loops -/

theorem quoteIdentifier_safe (U : UnicodeTables) (name : String)
    (h : isSafeIdentifier U name = true) : quoteIdentifier U name = .ok (quoted name) := by
  simp [quoteIdentifier, h, doubleQuotes_safe U name h, quoted]

theorem quoteColumns_ok (U : UnicodeTables) (cols : List String)
    (h : ∀ c ∈ cols, isSafeIdentifier U c = true) :
    ∀ i m, quoteColumns U i cols m = .ok (cols.map quoted, columnIndexFrom i cols m) := by
  induction cols with
  | nil => intro i m; rfl
  | cons c rest ih =>
    intro i m
    have hc := quoteIdentifier_safe U c (h c (List.mem_cons_self c rest))
    have ih' := ih (fun x hx => h x (List.mem_cons_of_mem c hx)) (i + 1) ((c, i) :: m)
    simp only [quoteColumns, hc, ih', List.map_cons, columnIndexFrom]

theorem lookup_columnIndexFrom (key : String) (cols : List String) :
    ∀ i m, (key ∈ cols → ∃ j, (columnIndexFrom i cols m).lookup key = some j
        ∧ i ≤ j ∧ j < i + cols.length)
      ∧ (key ∉ cols → (columnIndexFrom i cols m).lookup key = m.lookup key) := by
  induction cols with
  | nil =>
    intro i m
    exact ⟨fun h => absurd h (List.not_mem_nil key), fun _ => rfl⟩
  | cons c rest ih =>
    intro i m
    obtain ⟨ih1, ih2⟩ := ih (i + 1) ((c, i) :: m)
    constructor
    · intro hmem
      by_cases hr : key ∈ rest
      · obtain ⟨j, hj, h1, h2⟩ := ih1 hr
        exact ⟨j, hj, by omega, by simp only [List.length_cons]; omega⟩
      · have hkc : key = c := by
          rcases List.mem_cons.mp hmem with h | h
          · exact h
          · exact absurd h hr
        refine ⟨i, ?_, le_refl i, by simp only [List.length_cons]; omega⟩
        simp only [columnIndexFrom]
        rw [ih2 hr, hkc]
        simp [List.lookup]
    · intro hmem
      have hr : key ∉ rest := fun h => hmem (List.mem_cons_of_mem c h)
      have hkc : ¬ key = c := fun h => hmem (h ▸ List.mem_cons_self c rest)
      simp only [columnIndexFrom]
      rw [ih2 hr]
      have hb : (key == c) = false := beq_eq_false_iff_ne.mpr hkc
      simp [List.lookup, hb]

theorem lookup_columnIndexOf (columns : List String) (key : String) (h : key ∈ columns) :
    ∃ j, (columnIndexOf columns).lookup key = some j ∧ j < columns.length := by
  obtain ⟨j, hj, _, h2⟩ := (lookup_columnIndexFrom key columns 0 []).1 h
  exact ⟨j, hj, by omega⟩

theorem quoteUniqueKeys_ok (U : UnicodeTables) (columns keys : List String)
    (hsafe : ∀ c ∈ columns, isSafeIdentifier U c = true) (hsub : ∀ k ∈ keys, k ∈ columns) :
    quoteUniqueKeys U (columnIndexOf columns) keys = .ok (keys.map quoted) := by
  induction keys with
  | nil => rfl
  | cons k rest ih =>
    have hk := hsub k (List.mem_cons_self k rest)
    obtain ⟨j, hj, _⟩ := lookup_columnIndexOf columns k hk
    have hq := quoteIdentifier_safe U k (hsafe k hk)
    have ih' := ih fun x hx => hsub x (List.mem_cons_of_mem k hx)
    simp only [quoteUniqueKeys, hj, hq, ih', List.map_cons]

/-! ## The index name is a safe identifier -/

theorem hexDigit_ident (n : Nat) (h : n < 16) :
    (hexDigit n).toNat < 128 ∧ asciiIdentChar (hexDigit n) = true
      ∧ asciiDigit (hexDigit n) = decide (n < 10) := by
  interval_cases n <;> decide

theorem hexString_all (U : UnicodeTables) (bytes : List Nat) :
    (hexString bytes).data.all (identRune U) = true := by
  unfold hexString
  induction bytes with
  | nil => rfl
  | cons b rest ih =>
    have h1 := hexDigit_ident (b / 16 % 16) (Nat.mod_lt _ (by decide))
    have h2 := hexDigit_ident (b % 16) (Nat.mod_lt _ (by decide))
    simp only [List.flatMap_cons, List.cons_append, List.nil_append, List.all_cons,
      identRune_ascii U _ h1.1, h1.2.1, identRune_ascii U _ h2.1, h2.2.1, Bool.true_and]
    exact ih

theorem all_take_of_all {α : Type} (p : α → Bool) (l : List α) (n : Nat)
    (h : l.all p = true) : (l.take n).all p = true := by
  rw [List.all_eq_true] at h ⊢
  exact fun x hx => h x (List.mem_of_mem_take hx)

theorem deriveIndexName_safe (U : UnicodeTables) (table : String) (uniqueKeys : List String)
    (suffix : String) : isSafeIdentifier U (deriveIndexName U table uniqueKeys suffix) = true := by
  rw [isSafeIdentifier_eq]
  have key : ∀ digest : String, digest.data.all (identRune U) = true →
      unicodeIdentifier U ("idx_" ++ (⟨digest.data.take 16⟩ : String)) = true := by
    intro digest hall
    have hd : ("idx_" ++ (⟨digest.data.take 16⟩ : String)).data
        = 'i' :: 'd' :: 'x' :: '_' :: digest.data.take 16 := by
      simp [String.data_append]
    have h1 : identRune U 'i' = true := by
      rw [identRune_ascii U _ (by decide)]; decide
    have h2 : identRune U 'd' = true := by
      rw [identRune_ascii U _ (by decide)]; decide
    have h3 : identRune U 'x' = true := by
      rw [identRune_ascii U _ (by decide)]; decide
    have h4 : identRune U '_' = true := by
      rw [identRune_ascii U _ (by decide)]; decide
    have h5 : unicodeIsDigit U 'i' = false := by
      rw [unicodeIsDigit_ascii U _ (by decide)]; decide
    unfold unicodeIdentifier
    rw [hd]
    simp [h1, h2, h3, h4, h5, all_take_of_all _ _ 16 hall]
  exact key _ (hexString_all U _)

/-! ## The loops of the Bulk strategy -/

theorem ensureUniqueIndex_eq (U : UnicodeTables) (db : Db) (tr : List Op) (table : String)
    (uniqueKeys : List String) :
    ensureUniqueIndex U db tr (quoted table) table (uniqueKeys.map quoted) uniqueKeys
      = ((match db tr.length with
          | some err => Ret.err (.wrap "create unique index" (.driver err))
          | none => Ret.ok), tr ++ [createOp U table uniqueKeys]) := by
  unfold ensureUniqueIndex createOp
  rw [quoteIdentifier_safe U _ (deriveIndexName_safe U table uniqueKeys "hash_idx")]
  cases db tr.length <;> rfl

theorem compositeKeyLoop_some (columns : List String) (row : Row)
    (hlen : row.length = columns.length) (keys : List String) (hsub : ∀ k ∈ keys, k ∈ columns) :
    ∀ i b, ∃ key, compositeKeyLoop row (columnIndexOf columns) i keys b = some key := by
  induction keys with
  | nil => intro i b; exact ⟨b, rfl⟩
  | cons k rest ih =>
    intro i b
    obtain ⟨j, hj, hlt⟩ := lookup_columnIndexOf columns k (hsub k (List.mem_cons_self k rest))
    have hget : row[j]? = some row[j] := List.getElem?_eq_getElem (by omega)
    simp only [compositeKeyLoop, hj, Option.getD_some, hget]
    exact ih (fun x hx => hsub x (List.mem_cons_of_mem k hx)) _ _

theorem batchKeys_some (columns uniqueKeys : List String) (rows : List Row)
    (hsub : ∀ k ∈ uniqueKeys, k ∈ columns) (hlen : ∀ r ∈ rows, r.length = columns.length) :
    ∃ ks : List String, batchKeys columns uniqueKeys rows = ks.map some := by
  induction rows with
  | nil => exact ⟨[], rfl⟩
  | cons r rest ih =>
    obtain ⟨ks, hks⟩ := ih fun x hx => hlen x (List.mem_cons_of_mem r hx)
    obtain ⟨key, hkey⟩ := compositeKeyLoop_some columns r (hlen r (List.mem_cons_self r rest))
      uniqueKeys hsub 0 ""
    refine ⟨key :: ks, ?_⟩
    unfold batchKeys at hks ⊢
    simp only [List.map_cons, hks]
    congr 1

theorem checkRows_eq_scan (columns uniqueKeys : List String) (rows : List Row)
    (hlen : ∀ r ∈ rows, r.length = columns.length) :
    ∀ (ks : List String) (idx : Nat) (seen : GoMap),
      batchKeys columns uniqueKeys rows = ks.map some →
      checkRows columns uniqueKeys (columnIndexOf columns) idx rows seen
        = (match scanKeys idx ks seen with
          | none => Ret.ok
          | some (p, q) => Ret.err (.new (duplicateMessage p q))) := by
  induction rows with
  | nil =>
    intro ks idx seen hks
    cases ks with
    | nil => rfl
    | cons k t => simp [batchKeys] at hks
  | cons r rest ih =>
    intro ks idx seen hks
    cases ks with
    | nil => simp [batchKeys] at hks
    | cons k t =>
      simp only [batchKeys, List.map_cons, List.cons.injEq] at hks
      obtain ⟨hk, ht⟩ := hks
      have hr : ¬ r.length ≠ columns.length := by
        simp [hlen r (List.mem_cons_self r rest)]
      simp only [checkRows, hr, if_false, hk, scanKeys]
      cases hl : seen.lookup k with
      | some prev => rfl
      | none =>
        exact ih (fun x hx => hlen x (List.mem_cons_of_mem r hx)) t (idx + 1) ((k, idx) :: seen) ht

theorem rowPlaceholders_eq (row : Row) (cols : List String) :
    ∀ j argIdx, j + cols.length ≤ row.length →
      rowPlaceholders row cols j argIdx
        = some ((List.range cols.length).map (fun t => "$" ++ fmtD (argIdx + t)),
            (row.drop j).take cols.length, argIdx + cols.length) := by
  induction cols with
  | nil => intro j argIdx _; simp [rowPlaceholders]
  | cons c rest ih =>
    intro j argIdx h
    simp only [List.length_cons] at h
    have hj : j < row.length := by omega
    have hget : row[j]? = some row[j] := List.getElem?_eq_getElem hj
    have ih' := ih (j + 1) (argIdx + 1) (by omega)
    simp only [rowPlaceholders, hget, ih', List.length_cons, List.range_succ_eq_map,
      List.map_cons, List.map_map, List.drop_eq_getElem_cons hj, List.take_succ_cons]
    refine congrArg some (Prod.ext ?_ (Prod.ext rfl ?_))
    · simp only [Nat.add_zero, List.cons.injEq, true_and]
      apply List.map_congr_left
      intro t _
      simp only [Function.comp, Nat.succ_eq_add_one]
      congr 2
      omega
    · simp only
      omega

theorem buildPlaceholders_eq (columns : List String) (rows : List Row)
    (hlen : ∀ r ∈ rows, r.length = columns.length) :
    ∀ a, buildPlaceholders columns rows a
      = some ((List.range rows.length).map (groupFrom a columns.length), rows.flatten) := by
  induction rows with
  | nil => intro a; rfl
  | cons r rest ih =>
    intro a
    have hr := hlen r (List.mem_cons_self r rest)
    have h1 := rowPlaceholders_eq r columns 0 a (by omega)
    have ih' := ih (fun x hx => hlen x (List.mem_cons_of_mem r hx)) (a + columns.length)
    have htake : (List.drop 0 r).take columns.length = r := by
      rw [List.drop_zero, ← hr, List.take_length]
    simp only [buildPlaceholders, h1, ih', htake, List.length_cons, List.range_succ_eq_map,
      List.map_cons, List.map_map, List.flatten_cons]
    refine congrArg some (Prod.ext ?_ rfl)
    simp only [List.cons.injEq]
    constructor
    · simp [groupFrom]
    · apply List.map_congr_left
      intro i _
      simp only [Function.comp, groupFrom, Nat.succ_eq_add_one]
      congr 3
      apply List.map_congr_left
      intro j _
      congr 2
      rw [Nat.add_mul]
      omega

theorem groupFrom_one (m i : Nat) : groupFrom 1 m i = placeholderGroup m i := by
  unfold groupFrom placeholderGroup
  congr 3
  apply List.map_congr_left
  intro j _
  congr 2
  omega

theorem buildSetClauses_eq (uniqueKeys : List String) (cols : List String) :
    buildSetClauses uniqueKeys cols (cols.map quoted)
      = (cols.filter fun c => !uniqueKeys.contains c).map fun c =>
          quoted c ++ " = EXCLUDED." ++ quoted c := by
  induction cols with
  | nil => rfl
  | cons c rest ih =>
    simp only [List.map_cons, buildSetClauses, List.filter_cons]
    by_cases h : uniqueKeys.contains c = true
    · simp only [h, if_true, Bool.not_true, ih]
      rfl
    · have h' : uniqueKeys.contains c = false := by simpa using h
      simp only [h', Bool.not_false, if_true, List.map_cons, ih]
      rfl

theorem filter_length_zero_iff (uniqueKeys cols : List String) :
    ((cols.filter fun c => !uniqueKeys.contains c).map fun c =>
        quoted c ++ " = EXCLUDED." ++ quoted c).length = 0
      ↔ cols.all (fun c => uniqueKeys.contains c) = true := by
  rw [List.length_map, List.length_eq_zero, List.filter_eq_nil_iff, List.all_eq_true]
  constructor
  · intro h x hx
    simpa using h x hx
  · intro h x hx
    simpa using h x hx

theorem upsertSql_eq (table : String) (columns uniqueKeys : List String) (n : Nat) :
    upsertSql (quoted table) (columns.map quoted)
        ((List.range n).map (placeholderGroup columns.length)) (uniqueKeys.map quoted)
        ((columns.filter fun c => !uniqueKeys.contains c).map fun c =>
          quoted c ++ " = EXCLUDED." ++ quoted c)
      = bulkInsertText table columns n uniqueKeys := by
  unfold upsertSql bulkInsertText bulkInsertHead conflictAction
  by_cases h : columns.all (fun c => uniqueKeys.contains c) = true
  · rw [if_pos ((filter_length_zero_iff uniqueKeys columns).mpr h), if_pos h]
    simp only [String.append_assoc]
    rfl
  · rw [if_neg (fun hc => h ((filter_length_zero_iff uniqueKeys columns).mp hc)), if_neg h]
    simp only [String.append_assoc]
    rfl

/-- The Bulk strategy on a structurally valid, non-empty batch whose composite keys are `ks`:
the index statement, then the duplicate scan, then the single insert. -/
theorem hashUpsert_valid (U : UnicodeTables) (db : Db) (tr : List Op) (table : String)
    (columns : List String) (rows : List Row) (uniqueKeys : List String)
    (hv : validCall U table columns rows uniqueKeys) (hne : rows ≠ []) (ks : List String)
    (hks : batchKeys columns uniqueKeys rows = ks.map some) :
    HashIndexedUpserter.Upsert U db tr table columns rows uniqueKeys
      = (match db tr.length with
        | some err =>
          (Ret.err (.wrap "create unique index" (.driver err)), tr ++ [createOp U table uniqueKeys])
        | none =>
          match scanKeys 0 ks [] with
          | some (p, q) =>
            (Ret.err (.new (duplicateMessage p q)), tr ++ [createOp U table uniqueKeys])
          | none =>
            match db (tr.length + 1) with
            | some err =>
              (Ret.err (.wrap "exec upsert" (.driver err)),
                tr ++ [createOp U table uniqueKeys,
                  .exec (bulkInsertText table columns rows.length uniqueKeys) rows.flatten])
            | none =>
              (Ret.ok,
                tr ++ [createOp U table uniqueKeys,
                  .exec (bulkInsertText table columns rows.length uniqueKeys) rows.flatten])) := by
  obtain ⟨hc, hu, ht, hcs, hsub, hlen⟩ := hv
  have h1 : ¬ columns.length = 0 := fun h => hc (List.length_eq_zero.mp h)
  have h2 : ¬ uniqueKeys.length = 0 := fun h => hu (List.length_eq_zero.mp h)
  have h3 : ¬ rows.length = 0 := fun h => hne (List.length_eq_zero.mp h)
  have hcols : quoteColumns U 0 columns [] = .ok (columns.map quoted, columnIndexOf columns) :=
    quoteColumns_ok U columns hcs 0 []
  unfold HashIndexedUpserter.Upsert
  simp only [h1, h2, h3, if_false, quoteIdentifier_safe U table ht, hcols,
    quoteUniqueKeys_ok U columns uniqueKeys hcs hsub, ensureUniqueIndex_eq]
  cases hdb : db tr.length with
  | some err => rfl
  | none =>
    simp only [checkRows_eq_scan columns uniqueKeys rows hlen ks 0 [] hks]
    cases hscan : scanKeys 0 ks [] with
    | some pq => rfl
    | none =>
      simp only [buildPlaceholders_eq columns rows hlen 1, buildSetClauses_eq,
        List.length_append, List.length_singleton]
      have hg : (List.range rows.length).map (groupFrom 1 columns.length)
          = (List.range rows.length).map (placeholderGroup columns.length) :=
        List.map_congr_left fun i _ => groupFrom_one columns.length i
      rw [hg, upsertSql_eq]
      cases db (tr.length + 1) <;> simp

/-! ## The duplicate scan -/

theorem lookup_cons_self (k : String) (v : Nat) (m : GoMap) :
    List.lookup k ((k, v) :: m) = some v := by
  simp [List.lookup]

theorem lookup_cons_ne (k k' : String) (v : Nat) (m : GoMap) (h : k' ≠ k) :
    List.lookup k' ((k, v) :: m) = List.lookup k' m := by
  have hb : (k' == k) = false := beq_eq_false_iff_ne.mpr h
  simp [List.lookup, hb]

theorem scanKeys_none_iff (ks : List String) :
    ∀ idx seen, scanKeys idx ks seen = none
      ↔ ks.Nodup ∧ ∀ k ∈ ks, List.lookup k seen = none := by
  induction ks with
  | nil => intro idx seen; simp [scanKeys]
  | cons k t ih =>
    intro idx seen
    simp only [scanKeys, List.nodup_cons, List.mem_cons, forall_eq_or_imp]
    cases hl : List.lookup k seen with
    | some prev => simp
    | none =>
      simp only [ih, true_and]
      constructor
      · rintro ⟨hnd, hall⟩
        have hk : k ∉ t := by
          intro hk
          have := hall k hk
          rw [lookup_cons_self] at this
          exact Option.noConfusion this
        refine ⟨⟨hk, hnd⟩, fun x hx => ?_⟩
        have hne : x ≠ k := fun h => hk (h ▸ hx)
        have := hall x hx
        rwa [lookup_cons_ne k x idx seen hne] at this
      · rintro ⟨⟨hk, hnd⟩, hall⟩
        refine ⟨hnd, fun x hx => ?_⟩
        have hne : x ≠ k := fun h => hk (h ▸ hx)
        rw [lookup_cons_ne k x idx seen hne]
        exact hall x hx

theorem scanKeys_some (ks : List String) :
    ∀ idx seen p q, scanKeys idx ks seen = some (p, q) →
      ∃ k, idx ≤ q ∧ ks[q - idx]? = some k
        ∧ (List.lookup k seen = some p ∨ (idx ≤ p ∧ p < q ∧ ks[p - idx]? = some k)) := by
  induction ks with
  | nil => intro idx seen p q h; simp [scanKeys] at h
  | cons k t ih =>
    intro idx seen p q h
    simp only [scanKeys] at h
    cases hl : List.lookup k seen with
    | some prev =>
      rw [hl] at h
      simp only [Option.some.injEq, Prod.mk.injEq] at h
      obtain ⟨h1, h2⟩ := h
      subst h1 h2
      exact ⟨k, le_refl _, by simp, Or.inl hl⟩
    | none =>
      rw [hl] at h
      obtain ⟨k', h1, h2, h3⟩ := ih (idx + 1) ((k, idx) :: seen) p q h
      have hq : q - idx = (q - (idx + 1)) + 1 := by omega
      refine ⟨k', by omega, by rw [hq, List.getElem?_cons_succ]; exact h2, ?_⟩
      rcases h3 with h3 | ⟨h4, h5, h6⟩
      · by_cases hkk : k' = k
        · subst hkk
          rw [lookup_cons_self] at h3
          have hp : idx = p := Option.some.inj h3
          subst hp
          exact Or.inr ⟨le_refl _, by omega, by simp⟩
        · rw [lookup_cons_ne k k' idx seen hkk] at h3
          exact Or.inl h3
      · have hp : p - idx = (p - (idx + 1)) + 1 := by omega
        exact Or.inr ⟨by omega, h5, by rw [hp, List.getElem?_cons_succ]; exact h6⟩

/-- A scan from the empty map reports rows `p < q` that hold the same key. -/
theorem scanKeys_zero_some (ks : List String) (p q : Nat) (h : scanKeys 0 ks [] = some (p, q)) :
    p < q ∧ ∃ k, ks[p]? = some k ∧ ks[q]? = some k := by
  obtain ⟨k, _, h2, h3⟩ := scanKeys_some ks 0 [] p q h
  rcases h3 with h3 | ⟨_, h5, h6⟩
  · simp [List.lookup] at h3
  · exact ⟨h5, k, by simpa using h6, by simpa using h2⟩

theorem scanKeys_zero_none_iff (ks : List String) : scanKeys 0 ks [] = none ↔ ks.Nodup := by
  rw [scanKeys_none_iff]
  constructor
  · exact fun h => h.1
  · exact fun h => ⟨h, fun k _ => by simp [List.lookup]⟩

theorem not_nodup_of_getElem? {α : Type} (l : List α) (i j : Nat) (a : α) (hij : i < j)
    (hi : l[i]? = some a) (hj : l[j]? = some a) : ¬ l.Nodup := by
  intro hnd
  obtain ⟨hi', hia⟩ := List.getElem?_eq_some.mp hi
  obtain ⟨hj', hja⟩ := List.getElem?_eq_some.mp hj
  have := (@List.Nodup.getElem_inj_iff _ l hnd i hi' j hj').mp (hia.trans hja.symm)
  omega

/-! ## Duplicate keys in the Bulk strategy -/

theorem batchKeys_getElem? (columns uniqueKeys : List String) (rows : List Row) (i : Nat)
    (r : Row) (h : rows[i]? = some r) :
    (batchKeys columns uniqueKeys rows)[i]? = some (compositeKey r uniqueKeys (columnIndexOf columns)) := by
  unfold batchKeys
  rw [List.getElem?_map, h]
  rfl

theorem rows_ne_nil_of_getElem? (rows : List Row) (i : Nat) (r : Row) (h : rows[i]? = some r) :
    rows ≠ [] := by
  intro hn
  rw [hn] at h
  simp at h

theorem scan_some_of_duplicate (columns uniqueKeys : List String) (rows : List Row)
    (ks : List String) (hks : batchKeys columns uniqueKeys rows = ks.map some)
    (i j : Nat) (ri rj : Row) (hij : i < j) (hi : rows[i]? = some ri) (hj : rows[j]? = some rj)
    (hkey : compositeKey ri uniqueKeys (columnIndexOf columns)
      = compositeKey rj uniqueKeys (columnIndexOf columns)) :
    ∃ p q rp rq, scanKeys 0 ks [] = some (p, q) ∧ p < q ∧ rows[p]? = some rp ∧ rows[q]? = some rq
      ∧ compositeKey rp uniqueKeys (columnIndexOf columns)
        = compositeKey rq uniqueKeys (columnIndexOf columns) := by
  have h1 := batchKeys_getElem? columns uniqueKeys rows i ri hi
  have h2 := batchKeys_getElem? columns uniqueKeys rows j rj hj
  rw [hkey] at h1
  have hnd : ¬ (batchKeys columns uniqueKeys rows).Nodup :=
    not_nodup_of_getElem? _ i j _ hij h1 h2
  have hnd' : ¬ ks.Nodup := by
    intro h
    apply hnd
    rw [hks]
    exact h.map (Option.some_injective _)
  cases hscan : scanKeys 0 ks [] with
  | none => exact absurd ((scanKeys_zero_none_iff ks).mp hscan) hnd'
  | some pq =>
    obtain ⟨p, q⟩ := pq
    obtain ⟨hpq, k, hp, hq⟩ := scanKeys_zero_some ks p q hscan
    have hbp : (batchKeys columns uniqueKeys rows)[p]? = some (some k) := by
      rw [hks, List.getElem?_map, hp]; rfl
    have hbq : (batchKeys columns uniqueKeys rows)[q]? = some (some k) := by
      rw [hks, List.getElem?_map, hq]; rfl
    unfold batchKeys at hbp hbq
    rw [List.getElem?_map] at hbp hbq
    cases hrp : rows[p]? with
    | none => rw [hrp] at hbp; simp at hbp
    | some rp =>
      cases hrq : rows[q]? with
      | none => rw [hrq] at hbq; simp at hbq
      | some rq =>
        rw [hrp] at hbp
        rw [hrq] at hbq
        simp only [Option.map_some', Option.some.injEq] at hbp hbq
        exact ⟨p, q, rp, rq, rfl, hpq, hrp, hrq, hbp.trans hbq.symm⟩

/-- C4, counterexample: with two rows sharing the key `1` and a database that refuses the
index statement, the returned error is the wrapped index-creation error; it names no rows. -/
theorem hashUpsert_duplicate_index_failure :
    HashIndexedUpserter.Upsert latin1Tables (fun _ => some (DbErr.other 1)) [] "users"
        ["id", "name"] [[.int 1, .str "John"], [.int 1, .str "Jane"]] ["id"]
      = (Ret.err (.wrap "create unique index" (.driver (.other 1))),
          [.exec "CREATE UNIQUE INDEX IF NOT EXISTS \"idx_de7ebd7b26552dfc\" ON \"users\" (\"id\")"
            []]) := by
  decide!

/-- C4, amended: on a structurally valid call in which two rows at different indices have
the same composite key and the index statement succeeds, the call returns the error whose
message names two row indices `p < q` sharing a composite key, and the only statement issued
is `CREATE UNIQUE INDEX`: no `INSERT` is sent. -/
theorem hashUpsert_duplicate_error (U : UnicodeTables) (db : Db) (table : String)
    (columns : List String) (rows : List Row) (uniqueKeys : List String)
    (hv : validCall U table columns rows uniqueKeys) (hdb : db 0 = none)
    (i j : Nat) (ri rj : Row) (hij : i < j) (hi : rows[i]? = some ri) (hj : rows[j]? = some rj)
    (hkey : compositeKey ri uniqueKeys (columnIndexOf columns)
      = compositeKey rj uniqueKeys (columnIndexOf columns)) :
    ∃ p q rp rq, p < q ∧ rows[p]? = some rp ∧ rows[q]? = some rq
      ∧ compositeKey rp uniqueKeys (columnIndexOf columns)
        = compositeKey rq uniqueKeys (columnIndexOf columns)
      ∧ HashIndexedUpserter.Upsert U db [] table columns rows uniqueKeys
        = (Ret.err (.new ("rows " ++ fmtD p ++ " and " ++ fmtD q
            ++ " share duplicate unique key values")), [createOp U table uniqueKeys]) := by
  obtain ⟨ks, hks⟩ := batchKeys_some columns uniqueKeys rows hv.2.2.2.2.1 hv.2.2.2.2.2
  obtain ⟨p, q, rp, rq, hscan, hpq, hp, hq, hk⟩ :=
    scan_some_of_duplicate columns uniqueKeys rows ks hks i j ri rj hij hi hj hkey
  refine ⟨p, q, rp, rq, hpq, hp, hq, hk, ?_⟩
  rw [hashUpsert_valid U db [] table columns rows uniqueKeys hv
    (rows_ne_nil_of_getElem? rows i ri hi) ks hks]
  simp only [List.length_nil, hdb, hscan, List.nil_append]
  rfl

/-- C4, witness: columns `[id, name]`, rows `[[1, John], [1, Jane]]`, unique key `[id]`. -/
theorem hashUpsert_duplicate_error_witness :
    validCall latin1Tables "users" ["id", "name"] [[.int 1, .str "John"], [.int 1, .str "Jane"]]
        ["id"]
      ∧ ∃ p q rp rq, p < q
        ∧ [[Value.int 1, .str "John"], [.int 1, .str "Jane"]][p]? = some rp
        ∧ [[Value.int 1, .str "John"], [.int 1, .str "Jane"]][q]? = some rq
        ∧ compositeKey rp ["id"] (columnIndexOf ["id", "name"])
          = compositeKey rq ["id"] (columnIndexOf ["id", "name"])
        ∧ HashIndexedUpserter.Upsert latin1Tables (fun _ => none) [] "users" ["id", "name"]
            [[.int 1, .str "John"], [.int 1, .str "Jane"]] ["id"]
          = (Ret.err (.new ("rows " ++ fmtD p ++ " and " ++ fmtD q
              ++ " share duplicate unique key values")), [createOp latin1Tables "users" ["id"]]) :=
  have hv : validCall latin1Tables "users" ["id", "name"]
      [[.int 1, .str "John"], [.int 1, .str "Jane"]] ["id"] := by
    unfold validCall
    decide
  ⟨hv, hashUpsert_duplicate_error latin1Tables (fun _ => none) "users" ["id", "name"]
    [[.int 1, .str "John"], [.int 1, .str "Jane"]] ["id"] hv rfl 0 1 [.int 1, .str "John"]
    [.int 1, .str "Jane"] (by decide) rfl rfl (by decide)⟩

/-- C5, counterexample: on the batch `[[1, John], [1, Jane]]` the duplicate-key error comes
back after the `CREATE UNIQUE INDEX` statement has been sent: the trace is not empty. -/
theorem hashUpsert_duplicate_trace_nonempty :
    HashIndexedUpserter.Upsert latin1Tables (fun _ => none) [] "users"
        ["id", "name"] [[.int 1, .str "John"], [.int 1, .str "Jane"]] ["id"]
      = (Ret.err (.new "rows 0 and 1 share duplicate unique key values"),
          [.exec "CREATE UNIQUE INDEX IF NOT EXISTS \"idx_de7ebd7b26552dfc\" ON \"users\" (\"id\")"
            []]) := by
  decide!

/-- C5, amended: on a structurally valid call in which two rows of the batch have the same
composite key, the call ends in an error and the trace of statements it sent is exactly the
one `CREATE UNIQUE INDEX` statement: the index is ensured before the rows are scanned, and
the error is returned before any `INSERT`. -/
theorem hashUpsert_duplicate_trace (U : UnicodeTables) (db : Db) (table : String)
    (columns : List String) (rows : List Row) (uniqueKeys : List String)
    (hv : validCall U table columns rows uniqueKeys)
    (i j : Nat) (ri rj : Row) (hij : i < j) (hi : rows[i]? = some ri) (hj : rows[j]? = some rj)
    (hkey : compositeKey ri uniqueKeys (columnIndexOf columns)
      = compositeKey rj uniqueKeys (columnIndexOf columns)) :
    (HashIndexedUpserter.Upsert U db [] table columns rows uniqueKeys).2
        = [createOp U table uniqueKeys]
      ∧ ∃ e, (HashIndexedUpserter.Upsert U db [] table columns rows uniqueKeys).1 = Ret.err e := by
  obtain ⟨ks, hks⟩ := batchKeys_some columns uniqueKeys rows hv.2.2.2.2.1 hv.2.2.2.2.2
  obtain ⟨p, q, rp, rq, hscan, -⟩ :=
    scan_some_of_duplicate columns uniqueKeys rows ks hks i j ri rj hij hi hj hkey
  rw [hashUpsert_valid U db [] table columns rows uniqueKeys hv
    (rows_ne_nil_of_getElem? rows i ri hi) ks hks]
  cases hdb : db 0 with
  | some err => exact ⟨by simp [hdb], _, by simp [hdb]; rfl⟩
  | none => exact ⟨by simp [hdb, hscan], _, by simp [hdb, hscan]; rfl⟩

/-- C5, witness: the duplicate batch of the test, with a database that accepts everything. -/
theorem hashUpsert_duplicate_trace_witness :
    validCall latin1Tables "users" ["id", "name"] [[.int 1, .str "John"], [.int 1, .str "Jane"]]
        ["id"]
      ∧ (HashIndexedUpserter.Upsert latin1Tables (fun _ => none) [] "users" ["id", "name"]
            [[.int 1, .str "John"], [.int 1, .str "Jane"]] ["id"]).2
          = [createOp latin1Tables "users" ["id"]]
      ∧ ∃ e, (HashIndexedUpserter.Upsert latin1Tables (fun _ => none) [] "users" ["id", "name"]
            [[.int 1, .str "John"], [.int 1, .str "Jane"]] ["id"]).1 = Ret.err e :=
  have hv : validCall latin1Tables "users" ["id", "name"]
      [[.int 1, .str "John"], [.int 1, .str "Jane"]] ["id"] := by
    unfold validCall
    decide
  ⟨hv, hashUpsert_duplicate_trace latin1Tables (fun _ => none) "users" ["id", "name"]
    [[.int 1, .str "John"], [.int 1, .str "Jane"]] ["id"] hv 0 1 [.int 1, .str "John"]
    [.int 1, .str "Jane"] (by decide) rfl rfl (by decide)⟩

/-! ## The single insert of the Bulk strategy -/

theorem flatten_length_of_rows (m : Nat) (rows : List Row) (h : ∀ r ∈ rows, r.length = m) :
    rows.flatten.length = rows.length * m := by
  induction rows with
  | nil => simp
  | cons r rest ih =>
    rw [List.flatten_cons, List.length_append, h r (List.mem_cons_self r rest),
      ih fun x hx => h x (List.mem_cons_of_mem r hx), List.length_cons, Nat.add_mul, Nat.one_mul,
      Nat.add_comm]

theorem scan_none_of_nodup (columns uniqueKeys : List String) (rows : List Row)
    (ks : List String) (hks : batchKeys columns uniqueKeys rows = ks.map some)
    (hnd : (batchKeys columns uniqueKeys rows).Nodup) : scanKeys 0 ks [] = none := by
  rw [scanKeys_zero_none_iff]
  rw [hks] at hnd
  exact List.Nodup.of_map _ hnd

/-- The Bulk strategy on a valid, non-empty batch with pairwise different composite keys. -/
theorem hashUpsert_nodup (U : UnicodeTables) (db : Db) (tr : List Op) (table : String)
    (columns : List String) (rows : List Row) (uniqueKeys : List String)
    (hv : validCall U table columns rows uniqueKeys) (hne : rows ≠ [])
    (hnd : (batchKeys columns uniqueKeys rows).Nodup) :
    HashIndexedUpserter.Upsert U db tr table columns rows uniqueKeys
      = (match db tr.length with
        | some err =>
          (Ret.err (.wrap "create unique index" (.driver err)), tr ++ [createOp U table uniqueKeys])
        | none =>
          match db (tr.length + 1) with
          | some err =>
            (Ret.err (.wrap "exec upsert" (.driver err)),
              tr ++ [createOp U table uniqueKeys,
                .exec (bulkInsertText table columns rows.length uniqueKeys) rows.flatten])
          | none =>
            (Ret.ok,
              tr ++ [createOp U table uniqueKeys,
                .exec (bulkInsertText table columns rows.length uniqueKeys) rows.flatten])) := by
  obtain ⟨ks, hks⟩ := batchKeys_some columns uniqueKeys rows hv.2.2.2.2.1 hv.2.2.2.2.2
  rw [hashUpsert_valid U db tr table columns rows uniqueKeys hv hne ks hks,
    scan_none_of_nodup columns uniqueKeys rows ks hks hnd]

/-- C6: on a validated, duplicate-free call with `n ≥ 1` rows and `m` columns the statements
sent are the index statement and then (when that one succeeds) the single
`INSERT INTO <table> (<columns>) VALUES <n groups> ON CONFLICT (<keys>) ...`, where group `i`
lists the placeholders `$(i*m+1)` to `$(i*m+m)`, bound to the row-major concatenation of the
rows, of length `n*m`. -/
theorem hashUpsert_insert_shape (U : UnicodeTables) (db : Db) (table : String)
    (columns : List String) (rows : List Row) (uniqueKeys : List String)
    (hv : validCall U table columns rows uniqueKeys) (hne : rows ≠ [])
    (hnd : (batchKeys columns uniqueKeys rows).Nodup) :
    (HashIndexedUpserter.Upsert U db [] table columns rows uniqueKeys).2
        = createOp U table uniqueKeys ::
          (match db 0 with
            | some _ => []
            | none =>
              [Op.exec ("INSERT INTO " ++ quoted table ++ " ("
                ++ joinStrings ", " (columns.map quoted) ++ ") VALUES "
                ++ joinStrings ", " ((List.range rows.length).map fun i =>
                    "(" ++ joinStrings ", " ((List.range columns.length).map fun j =>
                      "$" ++ fmtD (i * columns.length + j + 1)) ++ ")")
                ++ " ON CONFLICT (" ++ joinStrings ", " (uniqueKeys.map quoted) ++ ") "
                ++ conflictAction columns uniqueKeys) rows.flatten])
      ∧ rows.flatten.length = rows.length * columns.length := by
  refine ⟨?_, flatten_length_of_rows columns.length rows hv.2.2.2.2.2⟩
  rw [hashUpsert_nodup U db [] table columns rows uniqueKeys hv hne hnd]
  simp only [List.length_nil, Nat.zero_add, List.nil_append]
  cases db 0 with
  | some err => rfl
  | none => cases db 1 <;> rfl

/-- C6, witness: two rows of three columns give `VALUES ($1, $2, $3), ($4, $5, $6)` bound to
`1, John, john@example.com, 2, Jane, jane@example.com`. -/
theorem hashUpsert_insert_shape_witness :
    validCall latin1Tables "users" ["id", "name", "email"]
        [[.int 1, .str "John", .str "john@example.com"],
          [.int 2, .str "Jane", .str "jane@example.com"]] ["id"]
      ∧ (batchKeys ["id", "name", "email"] ["id"]
          [[.int 1, .str "John", .str "john@example.com"],
            [.int 2, .str "Jane", .str "jane@example.com"]]).Nodup
      ∧ (HashIndexedUpserter.Upsert latin1Tables (fun _ => none) [] "users"
          ["id", "name", "email"]
          [[.int 1, .str "John", .str "john@example.com"],
            [.int 2, .str "Jane", .str "jane@example.com"]] ["id"]).2
        = [.exec "CREATE UNIQUE INDEX IF NOT EXISTS \"idx_de7ebd7b26552dfc\" ON \"users\" (\"id\")" [],
            .exec ("INSERT INTO \"users\" (\"id\", \"name\", \"email\") VALUES ($1, $2, $3), "
              ++ "($4, $5, $6) ON CONFLICT (\"id\") DO UPDATE SET \"name\" = EXCLUDED.\"name\", "
              ++ "\"email\" = EXCLUDED.\"email\"")
              [.int 1, .str "John", .str "john@example.com", .int 2, .str "Jane",
                .str "jane@example.com"]] :=
  have hv : validCall latin1Tables "users" ["id", "name", "email"]
      [[.int 1, .str "John", .str "john@example.com"],
        [.int 2, .str "Jane", .str "jane@example.com"]] ["id"] := by
    unfold validCall
    decide
  have hnd : (batchKeys ["id", "name", "email"] ["id"]
      [[.int 1, .str "John", .str "john@example.com"],
        [.int 2, .str "Jane", .str "jane@example.com"]]).Nodup := by
    decide
  ⟨hv, hnd, (hashUpsert_insert_shape latin1Tables (fun _ => none) "users" ["id", "name", "email"]
    [[.int 1, .str "John", .str "john@example.com"],
      [.int 2, .str "Jane", .str "jane@example.com"]] ["id"] hv (by decide) hnd).1.trans
    (by decide!)⟩

/-! ## The conflict clause -/

theorem joinStrings_getLast (sep : String) (c : Char) (xs : List String) (hne : xs ≠ [])
    (h : ∀ x ∈ xs, x.data.getLast? = some c) : (joinStrings sep xs).data.getLast? = some c := by
  induction xs with
  | nil => exact absurd rfl hne
  | cons x rest ih =>
    cases rest with
    | nil => exact h x (List.mem_cons_self x [])
    | cons y t =>
      have ih' := ih (List.cons_ne_nil y t) fun z hz => h z (List.mem_cons_of_mem x hz)
      simp only [joinStrings, String.data_append, List.getLast?_append, ih']
      rfl

theorem assignment_getLast (c : String) :
    (quoted c ++ " = EXCLUDED." ++ quoted c).data.getLast? = some dq := by
  have h : (quoted c ++ " = EXCLUDED." ++ quoted c).data
      = ((quoted c).data ++ " = EXCLUDED.".data ++ dq :: c.data) ++ [dq] := by
    simp [quoted, String.data_append]
    rfl
  rw [h, List.getLast?_append]
  rfl

theorem all_contains_iff (columns uniqueKeys : List String) :
    columns.all (fun c => uniqueKeys.contains c) = true ↔ ∀ c ∈ columns, c ∈ uniqueKeys := by
  simp [List.all_eq_true]

theorem filter_contains_eq (columns uniqueKeys : List String) :
    (columns.filter fun c => !uniqueKeys.contains c)
      = columns.filter fun c => decide (c ∉ uniqueKeys) := by
  apply List.filter_congr
  intro c _
  simp

/-- C7: on a validated call that reaches its `INSERT`, the statement ends with `DO NOTHING`
if and only if every column is a unique key; otherwise it ends with `DO UPDATE SET` followed
by one assignment `<c> = EXCLUDED.<c>` for each column that is not a unique key, in column
order, and none for a unique-key column. -/
theorem hashUpsert_conflict_clause (U : UnicodeTables) (db : Db) (table : String)
    (columns : List String) (rows : List Row) (uniqueKeys : List String)
    (hv : validCall U table columns rows uniqueKeys) (hne : rows ≠ [])
    (hnd : (batchKeys columns uniqueKeys rows).Nodup) (hdb : db 0 = none) :
    ∃ sql, (HashIndexedUpserter.Upsert U db [] table columns rows uniqueKeys).2
          = [createOp U table uniqueKeys, .exec sql rows.flatten]
      ∧ ("DO NOTHING".data <:+ sql.data ↔ ∀ c ∈ columns, c ∈ uniqueKeys)
      ∧ ((∀ c ∈ columns, c ∈ uniqueKeys) →
          sql = bulkInsertHead table columns rows.length uniqueKeys ++ "DO NOTHING")
      ∧ (¬ (∀ c ∈ columns, c ∈ uniqueKeys) →
          sql = bulkInsertHead table columns rows.length uniqueKeys ++ ("DO UPDATE SET "
            ++ joinStrings ", " ((columns.filter fun c => decide (c ∉ uniqueKeys)).map fun c =>
                quoted c ++ " = EXCLUDED." ++ quoted c))) := by
  refine ⟨bulkInsertText table columns rows.length uniqueKeys, ?_, ?_, ?_, ?_⟩
  · rw [hashUpsert_nodup U db [] table columns rows uniqueKeys hv hne hnd]
    simp only [List.length_nil, Nat.zero_add, List.nil_append, hdb]
    cases db 1 <;> rfl
  · constructor
    · intro hsuf
      by_contra hnot
      have hno : ¬ columns.all (fun c => uniqueKeys.contains c) = true :=
        fun h => hnot ((all_contains_iff columns uniqueKeys).mp h)
      have hlist : (columns.filter fun c => !uniqueKeys.contains c).map
          (fun c => quoted c ++ " = EXCLUDED." ++ quoted c) ≠ [] := by
        intro hnil
        exact hno ((filter_length_zero_iff uniqueKeys columns).mp (by rw [hnil]; rfl))
      have hlast : (bulkInsertText table columns rows.length uniqueKeys).data.getLast? = some dq := by
        unfold bulkInsertText conflictAction
        rw [if_neg hno]
        simp only [String.data_append, List.getLast?_append]
        rw [joinStrings_getLast ", " dq _ hlist]
        · rfl
        · intro x hx
          obtain ⟨c, _, hc⟩ := List.mem_map.mp hx
          rw [← hc]
          exact assignment_getLast c
      obtain ⟨t, ht⟩ := hsuf
      rw [← ht, List.getLast?_append] at hlast
      have hg : ("DO NOTHING".data.getLast?).or t.getLast? = some 'G' := rfl
      rw [hg] at hlast
      exact absurd (Option.some.inj hlast) (by decide)
    · intro hall
      unfold bulkInsertText conflictAction
      rw [if_pos ((all_contains_iff columns uniqueKeys).mpr hall), String.data_append]
      exact List.suffix_append _ _
  · intro hall
    unfold bulkInsertText conflictAction
    rw [if_pos ((all_contains_iff columns uniqueKeys).mpr hall)]
  · intro hnot
    unfold bulkInsertText conflictAction
    rw [if_neg fun h => hnot ((all_contains_iff columns uniqueKeys).mp h), filter_contains_eq]

/-- C7, witness: the single column `id`, itself the unique key, gives `DO NOTHING`. -/
theorem hashUpsert_conflict_clause_witness :
    validCall latin1Tables "users" ["id"] [[.int 1]] ["id"]
      ∧ (batchKeys ["id"] ["id"] [[.int 1]]).Nodup
      ∧ ∃ sql, (HashIndexedUpserter.Upsert latin1Tables (fun _ => none) [] "users" ["id"]
            [[.int 1]] ["id"]).2
          = [createOp latin1Tables "users" ["id"], .exec sql [[Value.int 1]].flatten]
        ∧ ("DO NOTHING".data <:+ sql.data ↔ ∀ c ∈ ["id"], c ∈ ["id"])
        ∧ ((∀ c ∈ ["id"], c ∈ ["id"]) →
            sql = bulkInsertHead "users" ["id"] [[Value.int 1]].length ["id"] ++ "DO NOTHING")
        ∧ (¬ (∀ c ∈ ["id"], c ∈ ["id"]) →
            sql = bulkInsertHead "users" ["id"] [[Value.int 1]].length ["id"] ++ ("DO UPDATE SET "
              ++ joinStrings ", " ((["id"].filter fun c => decide (c ∉ ["id"])).map fun c =>
                  quoted c ++ " = EXCLUDED." ++ quoted c))) :=
  have hv : validCall latin1Tables "users" ["id"] [[.int 1]] ["id"] := by
    unfold validCall
    decide
  have hnd : (batchKeys ["id"] ["id"] [[.int 1]]).Nodup := by decide
  ⟨hv, hnd, hashUpsert_conflict_clause latin1Tables (fun _ => none) "users" ["id"] [[.int 1]]
    ["id"] hv (by decide) hnd rfl⟩

/-! ## Chunking -/

theorem chunkCount_succ (n s start : Nat) (hs : 0 < s) (h : start < n) :
    (n - start + s - 1) / s = (n - (start + s) + s - 1) / s + 1 := by
  by_cases hle : start + s ≤ n
  · have h1 : n - start + s - 1 = (n - (start + s) + s - 1) + s := by omega
    rw [h1, Nat.add_div_right _ hs]
  · have h1 : n - start + s - 1 = (n - start - 1) + s := by omega
    have h2 : n - (start + s) + s - 1 = s - 1 := by omega
    rw [h1, h2, Nat.add_div_right _ hs, Nat.div_eq_of_lt (by omega : n - start - 1 < s),
      Nat.div_eq_of_lt (by omega : s - 1 < s)]

theorem chunkCount_zero (n s start : Nat) (hs : 0 < s) (h : ¬ start < n) :
    (n - start + s - 1) / s = 0 := by
  have h1 : n - start + s - 1 = s - 1 := by omega
  rw [h1, Nat.div_eq_of_lt (by omega : s - 1 < s)]

theorem chunkCount_le (n s : Nat) (hs : 0 < s) : (n + s - 1) / s ≤ n := by
  rcases Nat.eq_zero_or_pos n with h | h
  · subst h
    rw [Nat.zero_add, Nat.div_eq_of_lt (by omega : s - 1 < s)]
  · have h1 : n + s - 1 < (n + 1) * s := by
      have : n ≤ n * s := Nat.le_mul_of_pos_right n hs
      rw [Nat.add_mul, Nat.one_mul]
      omega
    have := (Nat.div_lt_iff_lt_mul hs).mpr h1
    omega

theorem chunksFrom_eq_map (s : Nat) (rows : List Row) :
    ∀ c start, chunksFrom s rows c start
      = (List.range c).map fun t =>
          sliceRows rows (start + t * s) (min (start + (t + 1) * s) rows.length) := by
  intro c
  induction c with
  | zero => intro start; rfl
  | succ c ih =>
    intro start
    rw [chunksFrom, ih, List.range_succ_eq_map, List.map_cons, List.map_map]
    simp only [Nat.zero_mul, Nat.add_zero, Nat.zero_add, Nat.one_mul, List.cons.injEq, true_and]
    apply List.map_congr_left
    intro t _
    simp only [Function.comp, Nat.succ_eq_add_one]
    have h1 : start + s + t * s = start + (t + 1) * s := by rw [Nat.add_mul]; omega
    have h2 : start + s + (t + 1) * s = start + (t + 1 + 1) * s := by
      rw [Nat.add_mul (t + 1) 1 s]; omega
    rw [h1, h2]

theorem chunksOf_eq_chunksFrom (s : Nat) (rows : List Row) :
    chunksOf s rows = chunksFrom s rows ((rows.length - 0 + s - 1) / s) 0 := by
  rw [chunksFrom_eq_map]
  unfold chunksOf
  simp only [Nat.sub_zero, Nat.zero_add]

theorem sliceRows_length (rows : List Row) (a b : Nat) :
    (sliceRows rows a b).length = min b rows.length - a := by
  simp [sliceRows, List.length_drop, List.length_take]

theorem mem_sliceRows (rows : List Row) (a b : Nat) (r : Row) (h : r ∈ sliceRows rows a b) :
    r ∈ rows :=
  List.mem_of_mem_take (List.mem_of_mem_drop h)

theorem chunksFrom_forall (s : Nat) (rows : List Row) (hs : 0 < s) :
    ∀ c start, c = (rows.length - start + s - 1) / s →
      ∀ ch ∈ chunksFrom s rows c start, ch ≠ [] ∧ ch.length ≤ s ∧ ∀ r ∈ ch, r ∈ rows := by
  intro c
  induction c with
  | zero => intro start _ ch h; simp [chunksFrom] at h
  | succ c ih =>
    intro start hc ch hmem
    have hlt : start < rows.length := by
      by_contra hge
      rw [chunkCount_zero rows.length s start hs hge] at hc
      omega
    rw [chunkCount_succ rows.length s start hs hlt] at hc
    rw [chunksFrom, List.mem_cons] at hmem
    rcases hmem with h | h
    · subst h
      have hl := sliceRows_length rows start (min (start + s) rows.length)
      have hmin : min (min (start + s) rows.length) rows.length = min (start + s) rows.length :=
        Nat.min_eq_left (Nat.min_le_right _ _)
      rw [hmin] at hl
      have hpos : 0 < (sliceRows rows start (min (start + s) rows.length)).length := by
        rw [hl]
        omega
      exact ⟨List.length_pos.mp hpos, by rw [hl]; omega,
        fun r hr => mem_sliceRows rows _ _ r hr⟩
    · exact ih (start + s) (by omega) ch h

theorem chunksFrom_flatten (s : Nat) (rows : List Row) (hs : 0 < s) :
    ∀ c start, c = (rows.length - start + s - 1) / s →
      (chunksFrom s rows c start).flatten = rows.drop start := by
  intro c
  induction c with
  | zero =>
    intro start hc
    have hge : rows.length ≤ start := by
      by_contra hlt
      rw [chunkCount_succ rows.length s start hs (by omega)] at hc
      exact Nat.succ_ne_zero _ hc.symm
    rw [chunksFrom, List.flatten_nil, List.drop_eq_nil_of_le hge]
  | succ c ih =>
    intro start hc
    have hlt : start < rows.length := by
      by_contra hge
      rw [chunkCount_zero rows.length s start hs hge] at hc
      omega
    rw [chunkCount_succ rows.length s start hs hlt] at hc
    rw [chunksFrom, List.flatten_cons, ih (start + s) (by omega)]
    have htake : rows.take (min (start + s) rows.length) = rows.take (start + s) := by
      rcases Nat.le_total (start + s) rows.length with h | h
      · rw [Nat.min_eq_left h]
      · rw [Nat.min_eq_right h, List.take_of_length_le (le_refl _), List.take_of_length_le h]
    unfold sliceRows
    rw [htake, List.drop_take, ← List.drop_drop, Nat.add_sub_cancel_left, List.take_append_drop]

theorem chunksOf_getElem_length (s : Nat) (rows : List Row) (k : Nat)
    (hk : k + 1 < (chunksOf s rows).length) :
    ((chunksOf s rows)[k]?).map List.length = some s := by
  unfold chunksOf at hk ⊢
  rw [List.length_map, List.length_range] at hk
  have hs : 0 < s := by
    rcases Nat.eq_zero_or_pos s with h | h
    · subst h
      simp at hk
    · exact h
  have h1 : (k + 1 + 1) * s ≤ rows.length + s - 1 := (Nat.le_div_iff_mul_le hs).mp hk
  have h2 : (k + 1 + 1) * s = (k + 1) * s + s := by rw [Nat.add_mul (k + 1) 1 s, Nat.one_mul]
  have h3 : (k + 1) * s = k * s + s := by rw [Nat.add_mul k 1 s, Nat.one_mul]
  rw [List.getElem?_map, List.getElem?_range (by omega)]
  simp only [Option.map_some', sliceRows_length, Option.some.injEq]
  omega

/-! ## The Chunked strategy as a run over the chunks -/

theorem batchLoop_eq_run (U : UnicodeTables) (db : Db) (table : String)
    (columns : List String) (rows : List Row) (uniqueKeys : List String) (s : Nat) (hs : 0 < s) :
    ∀ fuel start tr calls, (rows.length - start + s - 1) / s < fuel →
      batchLoop U db table columns rows uniqueKeys s fuel start tr calls
        = some (runChunks U db table columns uniqueKeys
            (chunksFrom s rows ((rows.length - start + s - 1) / s) start) tr calls) := by
  intro fuel
  induction fuel with
  | zero => intro start tr calls h; exact absurd h (Nat.not_lt_zero _)
  | succ fuel ih =>
    intro start tr calls hfuel
    by_cases hlt : start < rows.length
    · have hc := chunkCount_succ rows.length s start hs hlt
      rw [hc] at hfuel ⊢
      have ih' := fun tr1 calls1 => ih (start + s) tr1 calls1 (by omega)
      rw [batchLoop, if_pos hlt, chunksFrom, runChunks]
      simp only []
      rcases hU : HashIndexedUpserter.Upsert U db tr table columns
        (sliceRows rows start (min (start + s) rows.length)) uniqueKeys with ⟨r, tr1⟩
      cases r with
      | ok => exact ih' tr1 _
      | err e => rfl
      | panic => rfl
    · rw [chunkCount_zero rows.length s start hs hlt, batchLoop, if_neg hlt, chunksFrom, runChunks]

/-- With a positive batch size and non-empty column and key lists, the Chunked strategy is
the Bulk strategy run over the chunks in order: the loop never runs out of iterations. -/
theorem batched_eq_run (U : UnicodeTables) (db : Db) (s : Nat) (hs : 0 < s) (tr : List Op)
    (table : String) (columns : List String) (rows : List Row) (uniqueKeys : List String)
    (hc : columns ≠ []) (hu : uniqueKeys ≠ []) :
    BatchedHashIndexedUpserter.Upsert U db (s : Int) tr table columns rows uniqueKeys
      = some (runChunks U db table columns uniqueKeys (chunksOf s rows) tr []) := by
  have h1 : ¬ columns.length = 0 := fun h => hc (List.length_eq_zero.mp h)
  have h2 : ¬ uniqueKeys.length = 0 := fun h => hu (List.length_eq_zero.mp h)
  have h4 : ¬ ((s : Int) ≤ 0) := by omega
  unfold BatchedHashIndexedUpserter.Upsert
  by_cases h3 : rows.length = 0
  · have hr : rows = [] := List.length_eq_zero.mp h3
    subst hr
    have hz : chunksOf s [] = [] := by
      unfold chunksOf
      rw [List.length_nil, Nat.zero_add, Nat.div_eq_of_lt (by omega : s - 1 < s)]
      rfl
    simp only [h1, h2, if_false, List.length_nil, if_true, hz, runChunks]
  · simp only [h1, h2, h3, h4, if_false, Int.toNat_ofNat]
    rw [chunksOf_eq_chunksFrom]
    exact batchLoop_eq_run U db table columns rows uniqueKeys s hs (rows.length + 1) 0 tr []
      (by have := chunkCount_le rows.length s hs; simp only [Nat.sub_zero]; omega)

theorem runChunks_ok (U : UnicodeTables) (db : Db) (table : String)
    (columns uniqueKeys : List String) (hdb : ∀ k, db k = none) :
    ∀ chunks tr calls,
      (∀ c ∈ chunks, c ≠ [] ∧ validCall U table columns c uniqueKeys
        ∧ (batchKeys columns uniqueKeys c).Nodup) →
      runChunks U db table columns uniqueKeys chunks tr calls
        = (Ret.ok, tr ++ chunks.flatMap (chunkOps U table columns uniqueKeys), calls ++ chunks) := by
  intro chunks
  induction chunks with
  | nil => intro tr calls _; simp [runChunks]
  | cons c cs ih =>
    intro tr calls h
    obtain ⟨hne, hv, hnd⟩ := h c (List.mem_cons_self c cs)
    have hU := hashUpsert_nodup U db tr table columns c uniqueKeys hv hne hnd
    simp only [hdb] at hU
    rw [runChunks, hU]
    simp only []
    rw [ih _ _ fun x hx => h x (List.mem_cons_of_mem c hx)]
    simp [chunkOps, List.flatMap_cons]

theorem runChunks_first_error (U : UnicodeTables) (db : Db) (table : String)
    (columns uniqueKeys : List String) :
    ∀ chunks tr calls k c r,
      chunks[k]? = some c →
      (∀ j cj, j < k → chunks[j]? = some cj →
        (HashIndexedUpserter.Upsert U db (traceBefore U db table columns uniqueKeys chunks tr j)
          table columns cj uniqueKeys).1 = Ret.ok) →
      (HashIndexedUpserter.Upsert U db (traceBefore U db table columns uniqueKeys chunks tr k)
          table columns c uniqueKeys).1 = r → r ≠ Ret.ok →
      runChunks U db table columns uniqueKeys chunks tr calls
        = (r, (HashIndexedUpserter.Upsert U db
              (traceBefore U db table columns uniqueKeys chunks tr k) table columns c uniqueKeys).2,
            calls ++ chunks.take (k + 1)) := by
  intro chunks
  induction chunks with
  | nil => intro tr calls k c r hk; simp at hk
  | cons c0 cs ih =>
    intro tr calls k c r hk hprev herr hr
    cases k with
    | zero =>
      simp only [List.getElem?_cons_zero, Option.some.injEq] at hk
      subst hk
      simp only [traceBefore] at herr ⊢
      rw [runChunks]
      rcases hU : HashIndexedUpserter.Upsert U db tr table columns c0 uniqueKeys with ⟨r0, tr1⟩
      rw [hU] at herr
      simp only at herr
      subst herr
      cases r0 with
      | ok => exact absurd rfl hr
      | err e => simp
      | panic => simp
    | succ k =>
      have h0 := hprev 0 c0 (Nat.succ_pos k) (by simp)
      simp only [traceBefore] at h0 herr ⊢
      rw [runChunks]
      rcases hU : HashIndexedUpserter.Upsert U db tr table columns c0 uniqueKeys with ⟨r0, tr1⟩
      rw [hU] at h0 herr
      simp only at h0 herr ⊢
      subst h0
      simp only []
      rw [List.getElem?_cons_succ] at hk
      have := ih tr1 (calls ++ [c0]) k c r hk
        (fun j cj hj hcj => by
          have := hprev (j + 1) cj (by omega) (by rw [List.getElem?_cons_succ]; exact hcj)
          simpa only [traceBefore, hU] using this)
        herr hr
      rw [this]
      simp [List.take_succ_cons, List.append_assoc]

theorem ensureUniqueIndex_prefix (U : UnicodeTables) (db : Db) (tr : List Op)
    (tableIdent rawTable : String) (quotedUniqueKeys uniqueKeys : List String) :
    tr <+: (ensureUniqueIndex U db tr tableIdent rawTable quotedUniqueKeys uniqueKeys).2 := by
  unfold ensureUniqueIndex
  split
  · exact List.prefix_refl _
  · split
    · exact List.prefix_append _ _
    · exact List.prefix_append _ _

/-- The Bulk strategy only appends to the trace. -/
theorem hashUpsert_prefix (U : UnicodeTables) (db : Db) (tr : List Op) (table : String)
    (columns : List String) (rows : List Row) (uniqueKeys : List String) :
    tr <+: (HashIndexedUpserter.Upsert U db tr table columns rows uniqueKeys).2 := by
  unfold HashIndexedUpserter.Upsert
  split_ifs
  · exact List.prefix_refl _
  · exact List.prefix_refl _
  · exact List.prefix_refl _
  · split
    · exact List.prefix_refl _
    · split
      · exact List.prefix_refl _
      · split
        · exact List.prefix_refl _
        · have hp := ensureUniqueIndex_prefix U db tr ‹String› table ‹List String› uniqueKeys
          split
          · rename_i h
            rw [h] at hp
            exact hp
          · rename_i h
            rw [h] at hp
            exact hp
          · rename_i h
            rw [h] at hp
            simp only at hp
            split
            · exact hp
            · exact hp
            · split
              · exact hp
              · split
                · exact hp.trans (List.prefix_append _ _)
                · exact hp.trans (List.prefix_append _ _)

theorem validCall_of_subset (U : UnicodeTables) (table : String) (columns : List String)
    (rows c : List Row) (uniqueKeys : List String)
    (hv : validCall U table columns rows uniqueKeys) (hsub : ∀ r ∈ c, r ∈ rows) :
    validCall U table columns c uniqueKeys :=
  ⟨hv.1, hv.2.1, hv.2.2.1, hv.2.2.2.1, hv.2.2.2.2.1, fun r hr => hv.2.2.2.2.2 r (hsub r hr)⟩

theorem chunksOf_forall (s : Nat) (rows : List Row) (hs : 0 < s) :
    ∀ ch ∈ chunksOf s rows, ch ≠ [] ∧ ch.length ≤ s ∧ ∀ r ∈ ch, r ∈ rows := by
  rw [chunksOf_eq_chunksFrom]
  exact chunksFrom_forall s rows hs _ 0 rfl

/-- C8: for a batch size `s > 0` and a valid batch of `n` rows (each chunk free of duplicate
keys) on which every database statement succeeds, the Chunked strategy calls the Bulk strategy on exactly `ceil(n/s)` chunks
in order, chunk `k` being `rows[k*s : min((k+1)*s, n)]`; every chunk is non-empty and has at
most `s` rows, every chunk but the last has exactly `s`, their concatenation is the batch, and
each call sends its `CREATE UNIQUE INDEX` followed by its `INSERT`. -/
theorem batched_chunks (U : UnicodeTables) (db : Db) (s : Nat) (table : String)
    (columns : List String) (rows : List Row) (uniqueKeys : List String) (hs : 0 < s)
    (hv : validCall U table columns rows uniqueKeys)
    (hnd : ∀ c ∈ chunksOf s rows, (batchKeys columns uniqueKeys c).Nodup)
    (hdb : ∀ k, db k = none) :
    BatchedHashIndexedUpserter.Upsert U db (s : Int) [] table columns rows uniqueKeys
        = some (Ret.ok,
            (chunksOf s rows).flatMap (fun c =>
              [createOp U table uniqueKeys,
                Op.exec (bulkInsertText table columns c.length uniqueKeys) c.flatten]),
            chunksOf s rows)
      ∧ (chunksOf s rows).length = (rows.length + s - 1) / s
      ∧ (∀ k, k < (rows.length + s - 1) / s →
          (chunksOf s rows)[k]? = some (sliceRows rows (k * s) (min ((k + 1) * s) rows.length)))
      ∧ (∀ c ∈ chunksOf s rows, c ≠ [] ∧ c.length ≤ s)
      ∧ (∀ k, k + 1 < (chunksOf s rows).length → ((chunksOf s rows)[k]?).map List.length = some s)
      ∧ (chunksOf s rows).flatten = rows := by
  have hall := chunksOf_forall s rows hs
  refine ⟨?_, ?_, ?_, fun c hc => ⟨(hall c hc).1, (hall c hc).2.1⟩,
    fun k hk => chunksOf_getElem_length s rows k hk, ?_⟩
  · rw [batched_eq_run U db s hs [] table columns rows uniqueKeys hv.1 hv.2.1,
      runChunks_ok U db table columns uniqueKeys hdb (chunksOf s rows) [] []
        fun c hc => ⟨(hall c hc).1,
          validCall_of_subset U table columns rows c uniqueKeys hv (hall c hc).2.2, hnd c hc⟩]
    simp only [List.nil_append]
    rfl
  · unfold chunksOf
    rw [List.length_map, List.length_range]
  · intro k hk
    unfold chunksOf
    rw [List.getElem?_map, List.getElem?_range hk]
    rfl
  · rw [chunksOf_eq_chunksFrom, chunksFrom_flatten s rows hs _ 0 rfl, List.drop_zero]

/-- C8, witness: three rows with `s = 2` give the chunks of rows 1-2 and of row 3, and the
trace `CREATE`, `INSERT`, `CREATE`, `INSERT`. -/
theorem batched_chunks_witness :
    validCall latin1Tables "users" ["id", "name"]
        [[.int 1, .str "a"], [.int 2, .str "b"], [.int 3, .str "c"]] ["id"]
      ∧ (∀ c ∈ chunksOf 2 [[.int 1, .str "a"], [.int 2, .str "b"], [.int 3, .str "c"]],
          (batchKeys ["id", "name"] ["id"] c).Nodup)
      ∧ BatchedHashIndexedUpserter.Upsert latin1Tables (fun _ => none) 2 [] "users" ["id", "name"]
          [[.int 1, .str "a"], [.int 2, .str "b"], [.int 3, .str "c"]] ["id"]
        = some (Ret.ok,
            [.exec "CREATE UNIQUE INDEX IF NOT EXISTS \"idx_de7ebd7b26552dfc\" ON \"users\" (\"id\")" [],
              .exec ("INSERT INTO \"users\" (\"id\", \"name\") VALUES ($1, $2), ($3, $4) "
                ++ "ON CONFLICT (\"id\") DO UPDATE SET \"name\" = EXCLUDED.\"name\"")
                [.int 1, .str "a", .int 2, .str "b"],
              .exec "CREATE UNIQUE INDEX IF NOT EXISTS \"idx_de7ebd7b26552dfc\" ON \"users\" (\"id\")" [],
              .exec ("INSERT INTO \"users\" (\"id\", \"name\") VALUES ($1, $2) "
                ++ "ON CONFLICT (\"id\") DO UPDATE SET \"name\" = EXCLUDED.\"name\"")
                [.int 3, .str "c"]],
            [[[.int 1, .str "a"], [.int 2, .str "b"]], [[.int 3, .str "c"]]]) :=
  have hv : validCall latin1Tables "users" ["id", "name"]
      [[.int 1, .str "a"], [.int 2, .str "b"], [.int 3, .str "c"]] ["id"] := by
    unfold validCall
    decide
  have hnd : ∀ c ∈ chunksOf 2 [[.int 1, .str "a"], [.int 2, .str "b"], [.int 3, .str "c"]],
      (batchKeys ["id", "name"] ["id"] c).Nodup := by
    decide
  ⟨hv, hnd, (batched_chunks latin1Tables (fun _ => none) 2 "users" ["id", "name"]
    [[.int 1, .str "a"], [.int 2, .str "b"], [.int 3, .str "c"]] ["id"] (by decide) hv
    hnd (fun _ => rfl)).1.trans (by decide!)⟩

/-- C9, counterexample: with batch size 0 and an empty row batch the call returns success,
not an error. -/
theorem batched_zero_size_empty_batch :
    BatchedHashIndexedUpserter.Upsert latin1Tables (fun _ => none) 0 [] "users" ["id"] [] ["id"]
      = some (Ret.ok, [], []) := by
  decide

/-- C9, amended: with a batch size that is zero or negative the Chunked strategy never calls
the Bulk strategy and sends nothing to the database; on every non-empty row batch it returns
an error (the batch-size error when the column and key lists are non-empty), while an empty
row batch with non-empty column and key lists returns success before the size is looked at. -/
theorem batched_nonpositive_size (U : UnicodeTables) (db : Db) (batchSize : Int) (tr : List Op)
    (table : String) (columns : List String) (rows : List Row) (uniqueKeys : List String)
    (hs : batchSize ≤ 0) :
    ∃ r, BatchedHashIndexedUpserter.Upsert U db batchSize tr table columns rows uniqueKeys
          = some (r, tr, [])
      ∧ (rows ≠ [] → ∃ e, r = Ret.err e)
      ∧ (columns ≠ [] → uniqueKeys ≠ [] → rows ≠ [] →
          r = Ret.err (.new "batch size must be positive"))
      ∧ (columns ≠ [] → uniqueKeys ≠ [] → rows = [] → r = Ret.ok) := by
  unfold BatchedHashIndexedUpserter.Upsert
  by_cases h1 : columns.length = 0
  · exact ⟨Ret.err (.new "at least one column is required"), by simp only [h1, if_true],
      fun _ => ⟨_, rfl⟩, fun hc => absurd (List.length_eq_zero.mp h1) hc,
      fun hc => absurd (List.length_eq_zero.mp h1) hc⟩
  · by_cases h2 : uniqueKeys.length = 0
    · exact ⟨Ret.err (.new "at least one unique key is required"),
        by simp only [h1, h2, if_false, if_true], fun _ => ⟨_, rfl⟩,
        fun _ hu => absurd (List.length_eq_zero.mp h2) hu,
        fun _ hu => absurd (List.length_eq_zero.mp h2) hu⟩
    · by_cases h3 : rows.length = 0
      · exact ⟨Ret.ok, by simp only [h1, h2, h3, if_false, if_true],
          fun hr => absurd (List.length_eq_zero.mp h3) hr,
          fun _ _ hr => absurd (List.length_eq_zero.mp h3) hr, fun _ _ _ => rfl⟩
      · exact ⟨Ret.err (.new "batch size must be positive"),
          by simp only [h1, h2, h3, hs, if_false, if_true], fun _ => ⟨_, rfl⟩,
          fun _ _ _ => rfl, fun _ _ hr => absurd (by rw [hr]; rfl) h3⟩

/-- C9, witness: batch size 0, columns `[id]`, rows `[[1]]`, unique key `[id]`. -/
theorem batched_nonpositive_size_witness :
    ∃ r, BatchedHashIndexedUpserter.Upsert latin1Tables (fun _ => none) 0 [] "users" ["id"]
          [[.int 1]] ["id"] = some (r, [], [])
      ∧ (([[.int 1]] : List Row) ≠ [] → ∃ e, r = Ret.err e)
      ∧ ((["id"] : List String) ≠ [] → (["id"] : List String) ≠ [] → ([[.int 1]] : List Row) ≠ [] →
          r = Ret.err (.new "batch size must be positive"))
      ∧ ((["id"] : List String) ≠ [] → (["id"] : List String) ≠ [] → ([[.int 1]] : List Row) = [] →
          r = Ret.ok) :=
  batched_nonpositive_size latin1Tables (fun _ => none) 0 [] "users" ["id"] [[.int 1]] ["id"]
    (by decide)

/-- C10: with a positive batch size (and non-empty column and key lists, so that Bulk calls
are made), if the Bulk call for chunk `k` is the first to return an error `e`, the Chunked
strategy returns exactly `e`; the chunks handed to the Bulk strategy are chunks `0..k` and no
later one; and the trace is the trace of chunk `k`'s call, which extends the trace built by
the calls for chunks `0..k-1`. -/
theorem batched_first_error (U : UnicodeTables) (db : Db) (s : Nat) (table : String)
    (columns : List String) (rows : List Row) (uniqueKeys : List String) (hs : 0 < s)
    (hc : columns ≠ []) (hu : uniqueKeys ≠ []) (k : Nat) (c : List Row) (e : Err)
    (hk : (chunksOf s rows)[k]? = some c)
    (hprev : ∀ j cj, j < k → (chunksOf s rows)[j]? = some cj →
      (HashIndexedUpserter.Upsert U db
        (traceBefore U db table columns uniqueKeys (chunksOf s rows) [] j)
        table columns cj uniqueKeys).1 = Ret.ok)
    (herr : (HashIndexedUpserter.Upsert U db
        (traceBefore U db table columns uniqueKeys (chunksOf s rows) [] k)
        table columns c uniqueKeys).1 = Ret.err e) :
    BatchedHashIndexedUpserter.Upsert U db (s : Int) [] table columns rows uniqueKeys
        = some (Ret.err e,
            (HashIndexedUpserter.Upsert U db
              (traceBefore U db table columns uniqueKeys (chunksOf s rows) [] k)
              table columns c uniqueKeys).2,
            (chunksOf s rows).take (k + 1))
      ∧ traceBefore U db table columns uniqueKeys (chunksOf s rows) [] k
          <+: (HashIndexedUpserter.Upsert U db
              (traceBefore U db table columns uniqueKeys (chunksOf s rows) [] k)
              table columns c uniqueKeys).2 := by
  refine ⟨?_, hashUpsert_prefix U db _ table columns c uniqueKeys⟩
  rw [batched_eq_run U db s hs [] table columns rows uniqueKeys hc hu,
    runChunks_first_error U db table columns uniqueKeys (chunksOf s rows) [] [] k c (Ret.err e)
      hk hprev herr (fun h => Ret.noConfusion h)]
  simp only [List.nil_append]

/-- C10, witness: three rows, batch size 2, and a database refusing the third operation, which
is the index statement of the second chunk: the call returns that chunk's error unchanged. -/
theorem batched_first_error_witness :
    (chunksOf 2 [[.int 1, .str "a"], [.int 2, .str "b"], [.int 3, .str "c"]])[1]?
        = some [[.int 3, .str "c"]]
      ∧ BatchedHashIndexedUpserter.Upsert latin1Tables failsThirdOp 2 [] "users" ["id", "name"]
          [[.int 1, .str "a"], [.int 2, .str "b"], [.int 3, .str "c"]] ["id"]
        = some (Ret.err (.wrap "create unique index" (.driver (.other 7))),
            (HashIndexedUpserter.Upsert latin1Tables failsThirdOp
              (traceBefore latin1Tables failsThirdOp "users" ["id", "name"] ["id"]
                (chunksOf 2 [[.int 1, .str "a"], [.int 2, .str "b"], [.int 3, .str "c"]]) [] 1)
              "users" ["id", "name"] [[.int 3, .str "c"]] ["id"]).2,
            (chunksOf 2 [[.int 1, .str "a"], [.int 2, .str "b"], [.int 3, .str "c"]]).take (1 + 1))
      ∧ traceBefore latin1Tables failsThirdOp "users" ["id", "name"] ["id"]
            (chunksOf 2 [[.int 1, .str "a"], [.int 2, .str "b"], [.int 3, .str "c"]]) [] 1
          <+: (HashIndexedUpserter.Upsert latin1Tables failsThirdOp
              (traceBefore latin1Tables failsThirdOp "users" ["id", "name"] ["id"]
                (chunksOf 2 [[.int 1, .str "a"], [.int 2, .str "b"], [.int 3, .str "c"]]) [] 1)
              "users" ["id", "name"] [[.int 3, .str "c"]] ["id"]).2 := by
  have hk : (chunksOf 2 [[.int 1, .str "a"], [.int 2, .str "b"], [.int 3, .str "c"]])[1]?
      = some [[.int 3, .str "c"]] := by decide
  have h0 : (chunksOf 2 [[.int 1, .str "a"], [.int 2, .str "b"], [.int 3, .str "c"]])[0]?
      = some [[.int 1, .str "a"], [.int 2, .str "b"]] := by decide
  refine ⟨hk, batched_first_error latin1Tables failsThirdOp 2 "users" ["id", "name"]
    [[.int 1, .str "a"], [.int 2, .str "b"], [.int 3, .str "c"]] ["id"] (by decide) (by decide)
    (by decide) 1 [[.int 3, .str "c"]] (.wrap "create unique index" (.driver (.other 7))) hk
    ?_ (by decide!)⟩
  intro j cj hj hcj
  have hj0 : j = 0 := by omega
  subst hj0
  rw [h0] at hcj
  cases hcj
  decide!

/-! ## The loops of the row-by-row strategy -/

theorem quoteWhereKeys_ok (U : UnicodeTables) (columns keys : List String)
    (hsafe : ∀ c ∈ columns, isSafeIdentifier U c = true) (hsub : ∀ k ∈ keys, k ∈ columns) :
    ∀ i, quoteWhereKeys U (columnIndexOf columns) i keys
      = .ok (whereClauseTexts keys (i + 1), keys.map quoted) := by
  induction keys with
  | nil => intro i; rfl
  | cons k rest ih =>
    intro i
    have hk := hsub k (List.mem_cons_self k rest)
    obtain ⟨j, hj, _⟩ := lookup_columnIndexOf columns k hk
    have hq := quoteIdentifier_safe U k (hsafe k hk)
    have ih' := ih (fun x hx => hsub x (List.mem_cons_of_mem k hx)) (i + 1)
    simp only [quoteWhereKeys, hj, hq, ih', List.map_cons, whereClauseTexts]

theorem whereArgs_eq (columns keys : List String) (row : Row)
    (hlen : row.length = columns.length) (hsub : ∀ k ∈ keys, k ∈ columns) :
    whereArgs row (columnIndexOf columns) keys = some (keyValues columns keys row) := by
  induction keys with
  | nil => rfl
  | cons k rest ih =>
    obtain ⟨j, hj, hlt⟩ := lookup_columnIndexOf columns k (hsub k (List.mem_cons_self k rest))
    have hget : row[j]? = some row[j] := List.getElem?_eq_getElem (by omega)
    have hgetD : row.getD j Value.null = row[j] := by
      rw [List.getD_eq_getElem?_getD, hget]
      rfl
    have ih' := ih fun x hx => hsub x (List.mem_cons_of_mem k hx)
    unfold keyValues at ih' ⊢
    simp only [whereArgs, hj, Option.getD_some, hget, ih', List.map_cons, hgetD]

theorem updateSetClauses_eq (quotedColumns : List String) (row : Row) (cols : List String) :
    ∀ i idx, i + cols.length ≤ row.length → i + cols.length ≤ quotedColumns.length →
      updateSetClauses quotedColumns row cols i idx
        = some (setClauseTexts quotedColumns cols i idx, (row.drop i).take cols.length,
            idx + cols.length) := by
  induction cols with
  | nil => intro i idx _ _; simp [updateSetClauses, setClauseTexts]
  | cons c rest ih =>
    intro i idx h1 h2
    simp only [List.length_cons] at h1 h2
    have hi : i < row.length := by omega
    have hq : i < quotedColumns.length := by omega
    have hget : row[i]? = some row[i] := List.getElem?_eq_getElem hi
    have hgetq : quotedColumns[i]? = some quotedColumns[i] := List.getElem?_eq_getElem hq
    have hgetD : quotedColumns.getD i "" = quotedColumns[i] := by
      rw [List.getD_eq_getElem?_getD, hgetq]
      rfl
    have ih' := ih (i + 1) (idx + 1) (by omega) (by omega)
    simp only [updateSetClauses, hget, hgetq, ih', setClauseTexts, hgetD, List.length_cons,
      List.drop_eq_getElem_cons hi, List.take_succ_cons]
    refine congrArg some (Prod.ext rfl (Prod.ext rfl ?_))
    simp only
    omega

theorem quoted_ne_empty (k : String) : quoted k ≠ "" := by
  intro h
  have := congrArg String.data h
  simp [quoted, String.data_append] at this

theorem updateWhereClauses_eq (columns : List String) (row : Row)
    (hlen : row.length = columns.length) :
    ∀ (rest pre : List String) (idx : Nat), (∀ k ∈ rest, k ∈ columns) →
      updateWhereClauses ((pre ++ rest).map quoted) row (columnIndexOf columns) rest pre.length idx
        = .ok (whereClauseTexts rest idx, keyValues columns rest row) := by
  intro rest
  induction rest with
  | nil => intro pre idx _; rfl
  | cons k t ih =>
    intro pre idx hsub
    obtain ⟨j, hj, hlt⟩ := lookup_columnIndexOf columns k (hsub k (List.mem_cons_self k t))
    have hget : row[j]? = some row[j] := List.getElem?_eq_getElem (by omega)
    have hgetD : row.getD j Value.null = row[j] := by
      rw [List.getD_eq_getElem?_getD, hget]
      rfl
    have hq : ((pre ++ k :: t).map quoted)[pre.length]? = some (quoted k) := by
      rw [List.getElem?_map, List.getElem?_append_right (le_refl _), Nat.sub_self,
        List.getElem?_cons_zero]
      rfl
    have ih' := ih (pre ++ [k]) (idx + 1) fun x hx => hsub x (List.mem_cons_of_mem k hx)
    rw [List.append_assoc, List.length_append, List.length_singleton] at ih'
    simp only [List.singleton_append] at ih'
    unfold keyValues at ih' ⊢
    simp only [updateWhereClauses, hq, quoted_ne_empty, if_false, hj, Option.getD_some, hget,
      ih', whereClauseTexts, List.map_cons, hgetD]

theorem executeUpdate_eq (db : Db) (tr : List Op) (table : String) (columns : List String)
    (row : Row) (uniqueKeys : List String) (hlen : row.length = columns.length)
    (hsub : ∀ k ∈ uniqueKeys, k ∈ columns) :
    executeUpdate db tr (quoted table) (columns.map quoted) columns (columnIndexOf columns) row
        uniqueKeys (uniqueKeys.map quoted)
      = ((match db tr.length with
          | some err => Ret.err (.wrap "update row" (.driver err))
          | none => Ret.ok),
          tr ++ [.exec (naiveUpdateText table columns uniqueKeys)
            (row ++ keyValues columns uniqueKeys row)]) := by
  have h1 := updateSetClauses_eq (columns.map quoted) row columns 0 1 (by omega)
    (by rw [List.length_map]; omega)
  have h2 := updateWhereClauses_eq columns row hlen uniqueKeys [] (1 + columns.length) hsub
  have htake : (List.drop 0 row).take columns.length = row := by
    rw [List.drop_zero, ← hlen, List.take_length]
  simp only [List.nil_append, List.length_nil] at h2
  unfold executeUpdate naiveUpdateText
  simp only [h1, h2, htake]
  cases db tr.length <;> rfl

/-! ## Row values and statement texts -/

theorem text_snoc (tr1 tr2 : List Op) (a1 a2 : Op) (h : tr1.map Op.text = tr2.map Op.text)
    (ha : a1.text = a2.text) : (tr1 ++ [a1]).map Op.text = (tr2 ++ [a2]).map Op.text := by
  rw [List.map_append, List.map_append, h, List.map_singleton, List.map_singleton, ha]

theorem length_eq_of_text (tr1 tr2 : List Op) (h : tr1.map Op.text = tr2.map Op.text) :
    tr1.length = tr2.length := by
  have := congrArg List.length h
  simpa using this

theorem insertSql_congr (table : String) (quotedColumns : List String) (r1 r2 : Row)
    (h : r1.length = r2.length) :
    insertSql table quotedColumns r1 = insertSql table quotedColumns r2 := by
  unfold insertSql
  rw [h]

theorem naiveRows_congr (db : Db) (table check : String) (columns uniqueKeys : List String)
    (hsub : ∀ k ∈ uniqueKeys, k ∈ columns) :
    ∀ (rows1 rows2 : List Row) (idx : Nat) (tr1 tr2 : List Op),
      rows1.length = rows2.length →
      (∀ r ∈ rows1, r.length = columns.length) → (∀ r ∈ rows2, r.length = columns.length) →
      tr1.map Op.text = tr2.map Op.text →
      (naiveRows db (quoted table) check (columns.map quoted) columns (columnIndexOf columns)
          uniqueKeys (uniqueKeys.map quoted) idx rows1 tr1).1
        = (naiveRows db (quoted table) check (columns.map quoted) columns (columnIndexOf columns)
          uniqueKeys (uniqueKeys.map quoted) idx rows2 tr2).1
      ∧ (naiveRows db (quoted table) check (columns.map quoted) columns (columnIndexOf columns)
          uniqueKeys (uniqueKeys.map quoted) idx rows1 tr1).2.map Op.text
        = (naiveRows db (quoted table) check (columns.map quoted) columns (columnIndexOf columns)
          uniqueKeys (uniqueKeys.map quoted) idx rows2 tr2).2.map Op.text := by
  intro rows1
  induction rows1 with
  | nil =>
    intro rows2 idx tr1 tr2 hlen _ _ htr
    cases rows2 with
    | nil => exact ⟨rfl, htr⟩
    | cons r t => simp at hlen
  | cons r1 t1 ih =>
    intro rows2 idx tr1 tr2 hlen h1 h2 htr
    cases rows2 with
    | nil => simp at hlen
    | cons r2 t2 =>
      have hr1 := h1 r1 (List.mem_cons_self r1 t1)
      have hr2 := h2 r2 (List.mem_cons_self r2 t2)
      have hn1 : ¬ r1.length ≠ columns.length := by simp [hr1]
      have hn2 : ¬ r2.length ≠ columns.length := by simp [hr2]
      have hl := length_eq_of_text tr1 tr2 htr
      have hq : (tr1 ++ [Op.queryRow check (keyValues columns uniqueKeys r1)]).map Op.text
          = (tr2 ++ [Op.queryRow check (keyValues columns uniqueKeys r2)]).map Op.text :=
        text_snoc _ _ _ _ htr rfl
      have hlq := length_eq_of_text _ _ hq
      have ih' := fun tr1' tr2' (h : tr1'.map Op.text = tr2'.map Op.text) =>
        ih t2 (idx + 1) tr1' tr2' (by simpa using hlen)
          (fun x hx => h1 x (List.mem_cons_of_mem r1 hx))
          (fun x hx => h2 x (List.mem_cons_of_mem r2 hx)) h
      simp only [naiveRows, hn1, hn2, if_false, whereArgs_eq columns uniqueKeys r1 hr1 hsub,
        whereArgs_eq columns uniqueKeys r2 hr2 hsub, executeUpdate_eq db _ table columns r1
        uniqueKeys hr1 hsub, executeUpdate_eq db _ table columns r2 uniqueKeys hr2 hsub,
        executeInsert, hl, hlq, insertSql_congr (quoted table) (columns.map quoted) r1 r2
          (hr1.trans hr2.symm)]
      cases hdb : db tr2.length with
      | none =>
        simp only []
        cases hdb2 : db (tr2 ++ [Op.queryRow check (keyValues columns uniqueKeys r2)]).length with
        | none =>
          simp only []
          exact ih' _ _ (text_snoc _ _ _ _ hq rfl)
        | some err => exact ⟨rfl, text_snoc _ _ _ _ hq rfl⟩
      | some e =>
        cases e with
        | other code => exact ⟨rfl, hq⟩
        | noRows =>
          simp only []
          cases hdb2 : db (tr2 ++ [Op.queryRow check (keyValues columns uniqueKeys r2)]).length with
          | none =>
            simp only []
            exact ih' _ _ (text_snoc _ _ _ _ hq rfl)
          | some err => exact ⟨rfl, text_snoc _ _ _ _ hq rfl⟩

theorem naiveUpsert_congr (U : UnicodeTables) (db : Db) (table : String)
    (columns uniqueKeys : List String) (rows1 rows2 : List Row)
    (hlen : rows1.length = rows2.length)
    (hv1 : validCall U table columns rows1 uniqueKeys)
    (hv2 : validCall U table columns rows2 uniqueKeys) :
    (NaiveUpserter.Upsert U db [] table columns rows1 uniqueKeys).1
        = (NaiveUpserter.Upsert U db [] table columns rows2 uniqueKeys).1
      ∧ (NaiveUpserter.Upsert U db [] table columns rows1 uniqueKeys).2.map Op.text
        = (NaiveUpserter.Upsert U db [] table columns rows2 uniqueKeys).2.map Op.text := by
  obtain ⟨hc, hu, ht, hcs, hsub, hl1⟩ := hv1
  have hl2 := hv2.2.2.2.2.2
  have h1 : ¬ columns.length = 0 := fun h => hc (List.length_eq_zero.mp h)
  have h2 : ¬ uniqueKeys.length = 0 := fun h => hu (List.length_eq_zero.mp h)
  have hcols : quoteColumns U 0 columns [] = .ok (columns.map quoted, columnIndexOf columns) :=
    quoteColumns_ok U columns hcs 0 []
  unfold NaiveUpserter.Upsert
  by_cases h3 : rows2.length = 0
  · have h3' : rows1.length = 0 := hlen.trans h3
    simp only [h1, h2, h3, h3', if_false, if_true, and_self]
  · have h3' : ¬ rows1.length = 0 := fun h => h3 (hlen.symm.trans h)
    simp only [h1, h2, h3, h3', if_false, quoteIdentifier_safe U table ht, hcols,
      quoteWhereKeys_ok U columns uniqueKeys hcs hsub 0, List.length_nil, List.nil_append]
    cases db 0 with
    | some err => exact ⟨rfl, rfl⟩
    | none =>
      simp only []
      obtain ⟨hr, htx⟩ := naiveRows_congr db table
        ("SELECT 1 FROM " ++ quoted table ++ " WHERE "
          ++ joinStrings " AND " (whereClauseTexts uniqueKeys (0 + 1)) ++ " LIMIT 1")
        columns uniqueKeys hsub rows1 rows2 0 [Op.begin] [Op.begin] hlen hl1 hl2 rfl
      rcases hn1 : naiveRows db (quoted table)
        ("SELECT 1 FROM " ++ quoted table ++ " WHERE "
          ++ joinStrings " AND " (whereClauseTexts uniqueKeys (0 + 1)) ++ " LIMIT 1")
        (columns.map quoted) columns (columnIndexOf columns) uniqueKeys (uniqueKeys.map quoted)
        0 rows1 [Op.begin] with ⟨ret1, t1⟩
      rcases hn2 : naiveRows db (quoted table)
        ("SELECT 1 FROM " ++ quoted table ++ " WHERE "
          ++ joinStrings " AND " (whereClauseTexts uniqueKeys (0 + 1)) ++ " LIMIT 1")
        (columns.map quoted) columns (columnIndexOf columns) uniqueKeys (uniqueKeys.map quoted)
        0 rows2 [Op.begin] with ⟨ret2, t2⟩
      rw [hn1, hn2] at hr htx
      simp only at hr htx
      subst hr
      have hl := length_eq_of_text t1 t2 htx
      cases ret1 with
      | ok =>
        simp only [hl]
        cases db t2.length with
        | none => exact ⟨rfl, text_snoc _ _ _ _ htx rfl⟩
        | some err =>
          refine ⟨rfl, ?_⟩
          simp only [List.map_append, htx]
      | err e => exact ⟨rfl, text_snoc _ _ _ _ htx rfl⟩
      | panic => exact ⟨rfl, text_snoc _ _ _ _ htx rfl⟩

theorem hashUpsert_congr (U : UnicodeTables) (db : Db) (table : String)
    (columns uniqueKeys : List String) (rows1 rows2 : List Row) (tr1 tr2 : List Op)
    (hlen : rows1.length = rows2.length)
    (hv1 : validCall U table columns rows1 uniqueKeys)
    (hv2 : validCall U table columns rows2 uniqueKeys)
    (hnd1 : (batchKeys columns uniqueKeys rows1).Nodup)
    (hnd2 : (batchKeys columns uniqueKeys rows2).Nodup)
    (htr : tr1.map Op.text = tr2.map Op.text) :
    (HashIndexedUpserter.Upsert U db tr1 table columns rows1 uniqueKeys).1
        = (HashIndexedUpserter.Upsert U db tr2 table columns rows2 uniqueKeys).1
      ∧ (HashIndexedUpserter.Upsert U db tr1 table columns rows1 uniqueKeys).2.map Op.text
        = (HashIndexedUpserter.Upsert U db tr2 table columns rows2 uniqueKeys).2.map Op.text := by
  have hl := length_eq_of_text tr1 tr2 htr
  by_cases h3 : rows2 = []
  · have h3' : rows1 = [] := List.length_eq_zero.mp (by rw [hlen, h3]; rfl)
    subst h3 h3'
    have h1 : ¬ columns.length = 0 := fun h => hv1.1 (List.length_eq_zero.mp h)
    have h2 : ¬ uniqueKeys.length = 0 := fun h => hv1.2.1 (List.length_eq_zero.mp h)
    unfold HashIndexedUpserter.Upsert
    simp only [h1, h2, if_false, List.length_nil, if_true]
    exact ⟨trivial, htr⟩
  · have h3' : rows1 ≠ [] := fun h => h3 (List.length_eq_zero.mp (by rw [← hlen, h]; rfl))
    rw [hashUpsert_nodup U db tr1 table columns rows1 uniqueKeys hv1 h3' hnd1,
      hashUpsert_nodup U db tr2 table columns rows2 uniqueKeys hv2 h3 hnd2, hl, hlen]
    cases db tr2.length with
    | some err => exact ⟨rfl, text_snoc _ _ _ _ htr rfl⟩
    | none =>
      cases db (tr2.length + 1) with
      | some err =>
        refine ⟨rfl, ?_⟩
        simp only [List.map_append, htr, List.map_cons, Op.text, List.map_nil]
      | none =>
        refine ⟨rfl, ?_⟩
        simp only [List.map_append, htr, List.map_cons, Op.text, List.map_nil]

theorem runChunks_congr (U : UnicodeTables) (db : Db) (table : String)
    (columns uniqueKeys : List String) (s : Nat) (hs : 0 < s) (rows1 rows2 : List Row)
    (hlen : rows1.length = rows2.length)
    (hv1 : validCall U table columns rows1 uniqueKeys)
    (hv2 : validCall U table columns rows2 uniqueKeys) :
    ∀ c start tr1 tr2 calls1 calls2, c = (rows1.length - start + s - 1) / s →
      (∀ ch ∈ chunksFrom s rows1 c start, (batchKeys columns uniqueKeys ch).Nodup) →
      (∀ ch ∈ chunksFrom s rows2 c start, (batchKeys columns uniqueKeys ch).Nodup) →
      tr1.map Op.text = tr2.map Op.text →
      (runChunks U db table columns uniqueKeys (chunksFrom s rows1 c start) tr1 calls1).1
        = (runChunks U db table columns uniqueKeys (chunksFrom s rows2 c start) tr2 calls2).1
      ∧ (runChunks U db table columns uniqueKeys (chunksFrom s rows1 c start) tr1 calls1).2.1.map
          Op.text
        = (runChunks U db table columns uniqueKeys (chunksFrom s rows2 c start) tr2 calls2).2.1.map
          Op.text := by
  intro c
  induction c with
  | zero => intro start tr1 tr2 calls1 calls2 _ _ _ htr; exact ⟨rfl, htr⟩
  | succ c ih =>
    intro start tr1 tr2 calls1 calls2 hc hnd1 hnd2 htr
    have hlt : start < rows1.length := by
      by_contra hge
      rw [chunkCount_zero rows1.length s start hs hge] at hc
      omega
    have hc' := hc
    rw [chunkCount_succ rows1.length s start hs hlt] at hc'
    have hsl : (sliceRows rows1 start (min (start + s) rows1.length)).length
        = (sliceRows rows2 start (min (start + s) rows2.length)).length := by
      rw [sliceRows_length, sliceRows_length, hlen]
    obtain ⟨hr, htx⟩ := hashUpsert_congr U db table columns uniqueKeys
      (sliceRows rows1 start (min (start + s) rows1.length))
      (sliceRows rows2 start (min (start + s) rows2.length)) tr1 tr2 hsl
      (validCall_of_subset U table columns rows1 _ uniqueKeys hv1
        fun r hr => mem_sliceRows rows1 _ _ r hr)
      (validCall_of_subset U table columns rows2 _ uniqueKeys hv2
        fun r hr => mem_sliceRows rows2 _ _ r hr)
      (hnd1 _ (List.mem_cons_self _ _)) (hnd2 _ (List.mem_cons_self _ _)) htr
    simp only [chunksFrom, runChunks]
    rcases h1 : HashIndexedUpserter.Upsert U db tr1 table columns
      (sliceRows rows1 start (min (start + s) rows1.length)) uniqueKeys with ⟨ret1, t1⟩
    rcases h2 : HashIndexedUpserter.Upsert U db tr2 table columns
      (sliceRows rows2 start (min (start + s) rows2.length)) uniqueKeys with ⟨ret2, t2⟩
    rw [h1, h2] at hr htx
    simp only at hr htx
    subst hr
    cases ret1 with
    | ok =>
      exact ih (start + s) t1 t2 _ _ (by omega)
        (fun ch hch => hnd1 ch (List.mem_cons_of_mem _ hch))
        (fun ch hch => hnd2 ch (List.mem_cons_of_mem _ hch)) htx
    | err e => exact ⟨rfl, htx⟩
    | panic => exact ⟨rfl, htx⟩

theorem batched_congr (U : UnicodeTables) (db : Db) (batchSize : Int) (table : String)
    (columns uniqueKeys : List String) (rows1 rows2 : List Row)
    (hlen : rows1.length = rows2.length)
    (hv1 : validCall U table columns rows1 uniqueKeys)
    (hv2 : validCall U table columns rows2 uniqueKeys)
    (hnd1 : ∀ ch ∈ chunksOf batchSize.toNat rows1, (batchKeys columns uniqueKeys ch).Nodup)
    (hnd2 : ∀ ch ∈ chunksOf batchSize.toNat rows2, (batchKeys columns uniqueKeys ch).Nodup) :
    (BatchedHashIndexedUpserter.Upsert U db batchSize [] table columns rows1 uniqueKeys).map
        (fun x => (x.1, x.2.1.map Op.text))
      = (BatchedHashIndexedUpserter.Upsert U db batchSize [] table columns rows2 uniqueKeys).map
        (fun x => (x.1, x.2.1.map Op.text)) := by
  by_cases hs : batchSize ≤ 0
  · have h1 : ¬ columns.length = 0 := fun h => hv1.1 (List.length_eq_zero.mp h)
    have h2 : ¬ uniqueKeys.length = 0 := fun h => hv1.2.1 (List.length_eq_zero.mp h)
    unfold BatchedHashIndexedUpserter.Upsert
    simp only [h1, h2, hs, hlen, if_false, if_true]
  · have hpos : 0 < batchSize.toNat := by omega
    have hcast : ((batchSize.toNat : Nat) : Int) = batchSize := Int.toNat_of_nonneg (by omega)
    rw [← hcast, batched_eq_run U db _ hpos [] table columns rows1 uniqueKeys hv1.1 hv1.2.1,
      batched_eq_run U db _ hpos [] table columns rows2 uniqueKeys hv2.1 hv2.2.1]
    rw [chunksOf_eq_chunksFrom] at hnd1 hnd2 ⊢
    rw [chunksOf_eq_chunksFrom]
    rw [← hlen] at hnd2 ⊢
    obtain ⟨hr, htx⟩ := runChunks_congr U db table columns uniqueKeys _ hpos rows1 rows2 hlen hv1
      hv2 _ 0 [] [] [] [] rfl hnd1 hnd2 rfl
    simp only [Option.map_some', hr, htx]

/-- C3: row values never influence SQL text. For each strategy, any two row batches with the
same number of rows that both pass validation (for the Bulk and Chunked strategies this
includes the duplicate scan, per call) and meet the same database answers give the same
result and the same sequence of statement texts: the runs differ only in the bound
arguments. -/
theorem row_values_never_in_sql (U : UnicodeTables) (db : Db) (table : String)
    (columns uniqueKeys : List String) (rows1 rows2 : List Row)
    (hlen : rows1.length = rows2.length)
    (hv1 : validCall U table columns rows1 uniqueKeys)
    (hv2 : validCall U table columns rows2 uniqueKeys) :
    ((NaiveUpserter.Upsert U db [] table columns rows1 uniqueKeys).1
          = (NaiveUpserter.Upsert U db [] table columns rows2 uniqueKeys).1
        ∧ (NaiveUpserter.Upsert U db [] table columns rows1 uniqueKeys).2.map Op.text
          = (NaiveUpserter.Upsert U db [] table columns rows2 uniqueKeys).2.map Op.text)
      ∧ ((batchKeys columns uniqueKeys rows1).Nodup → (batchKeys columns uniqueKeys rows2).Nodup →
          (HashIndexedUpserter.Upsert U db [] table columns rows1 uniqueKeys).1
            = (HashIndexedUpserter.Upsert U db [] table columns rows2 uniqueKeys).1
          ∧ (HashIndexedUpserter.Upsert U db [] table columns rows1 uniqueKeys).2.map Op.text
            = (HashIndexedUpserter.Upsert U db [] table columns rows2 uniqueKeys).2.map Op.text)
      ∧ (∀ batchSize : Int,
          (∀ ch ∈ chunksOf batchSize.toNat rows1, (batchKeys columns uniqueKeys ch).Nodup) →
          (∀ ch ∈ chunksOf batchSize.toNat rows2, (batchKeys columns uniqueKeys ch).Nodup) →
          (BatchedHashIndexedUpserter.Upsert U db batchSize [] table columns rows1 uniqueKeys).map
              (fun x => (x.1, x.2.1.map Op.text))
            = (BatchedHashIndexedUpserter.Upsert U db batchSize [] table columns rows2
                uniqueKeys).map (fun x => (x.1, x.2.1.map Op.text))) :=
  ⟨naiveUpsert_congr U db table columns uniqueKeys rows1 rows2 hlen hv1 hv2,
    fun hnd1 hnd2 =>
      hashUpsert_congr U db table columns uniqueKeys rows1 rows2 [] [] hlen hv1 hv2 hnd1 hnd2 rfl,
    fun batchSize hnd1 hnd2 =>
      batched_congr U db batchSize table columns uniqueKeys rows1 rows2 hlen hv1 hv2 hnd1 hnd2⟩

/-- C3, witness: two batches of two rows with different values send the same texts through
the row-by-row strategy. -/
theorem row_values_never_in_sql_witness :
    validCall latin1Tables "users" ["id", "name"] [[.int 1, .str "a"], [.int 2, .str "b"]] ["id"]
      ∧ validCall latin1Tables "users" ["id", "name"] [[.int 7, .str "x"], [.int 8, .str "y"]]
          ["id"]
      ∧ (NaiveUpserter.Upsert latin1Tables (fun _ => none) [] "users" ["id", "name"]
            [[.int 1, .str "a"], [.int 2, .str "b"]] ["id"]).2.map Op.text
          = (NaiveUpserter.Upsert latin1Tables (fun _ => none) [] "users" ["id", "name"]
            [[.int 7, .str "x"], [.int 8, .str "y"]] ["id"]).2.map Op.text :=
  have hv1 : validCall latin1Tables "users" ["id", "name"]
      [[.int 1, .str "a"], [.int 2, .str "b"]] ["id"] := by
    unfold validCall
    decide
  have hv2 : validCall latin1Tables "users" ["id", "name"]
      [[.int 7, .str "x"], [.int 8, .str "y"]] ["id"] := by
    unfold validCall
    decide
  ⟨hv1, hv2, (row_values_never_in_sql latin1Tables (fun _ => none) "users" ["id", "name"] ["id"]
    [[.int 1, .str "a"], [.int 2, .str "b"]] [[.int 7, .str "x"], [.int 8, .str "y"]] rfl
    hv1 hv2).1.2⟩

/-! ## The empty batch -/

/-- C15: with non-empty column and key lists and an empty row batch every strategy returns
success and sends nothing to the database, whatever the table name (and, for the Chunked
strategy, whatever the batch size). -/
theorem empty_batch_noop (U : UnicodeTables) (db : Db) (tr : List Op) (table : String)
    (columns uniqueKeys : List String) (hc : columns ≠ []) (hu : uniqueKeys ≠ []) :
    NaiveUpserter.Upsert U db tr table columns [] uniqueKeys = (Ret.ok, tr)
      ∧ HashIndexedUpserter.Upsert U db tr table columns [] uniqueKeys = (Ret.ok, tr)
      ∧ ∀ batchSize : Int,
          BatchedHashIndexedUpserter.Upsert U db batchSize tr table columns [] uniqueKeys
            = some (Ret.ok, tr, []) := by
  have h1 : ¬ columns.length = 0 := fun h => hc (List.length_eq_zero.mp h)
  have h2 : ¬ uniqueKeys.length = 0 := fun h => hu (List.length_eq_zero.mp h)
  refine ⟨?_, ?_, fun batchSize => ?_⟩
  · unfold NaiveUpserter.Upsert
    simp only [h1, h2, if_false, List.length_nil, if_true]
  · unfold HashIndexedUpserter.Upsert
    simp only [h1, h2, if_false, List.length_nil, if_true]
  · unfold BatchedHashIndexedUpserter.Upsert
    simp only [h1, h2, if_false, List.length_nil, if_true]

/-- C15, witness: columns `[id]`, unique key `[id]`, no rows, and a table name that is not
even a safe identifier. -/
theorem empty_batch_noop_witness :
    NaiveUpserter.Upsert latin1Tables (fun _ => none) [] "no table" ["id"] [] ["id"] = (Ret.ok, [])
      ∧ HashIndexedUpserter.Upsert latin1Tables (fun _ => none) [] "no table" ["id"] [] ["id"]
        = (Ret.ok, [])
      ∧ ∀ batchSize : Int,
          BatchedHashIndexedUpserter.Upsert latin1Tables (fun _ => none) batchSize [] "no table"
            ["id"] [] ["id"] = some (Ret.ok, [], []) :=
  empty_batch_noop latin1Tables (fun _ => none) [] "no table" ["id"] ["id"] (by decide) (by decide)

/-! ## The shape of the index name -/

theorem beBytes_length (k x : Nat) : (beBytes k x).length = k := by
  induction k with
  | zero => rfl
  | succ k ih => simp [beBytes, ih]

theorem sha1_length (msg : List Nat) : (sha1 msg).length = 20 := by
  unfold sha1
  simp only [List.length_append, beBytes_length]

theorem hexString_length (bytes : List Nat) : (hexString bytes).data.length = 2 * bytes.length := by
  unfold hexString
  induction bytes with
  | nil => rfl
  | cons b rest ih =>
    simp only [List.flatMap_cons, List.length_append, List.length_cons, List.length_nil] at ih ⊢
    omega

theorem hexDigit_mem (n : Nat) (h : n < 16) : hexDigit n ∈ "0123456789abcdef".data := by
  interval_cases n <;> decide

theorem hexString_mem (bytes : List Nat) :
    ∀ c ∈ (hexString bytes).data, c ∈ "0123456789abcdef".data := by
  unfold hexString
  induction bytes with
  | nil => intro c hc; simp at hc
  | cons b rest ih =>
    intro c hc
    simp only [List.flatMap_cons, List.mem_append, List.mem_cons, List.mem_singleton,
      List.not_mem_nil, or_false] at hc
    rcases hc with (h | h) | h
    · rw [h]; exact hexDigit_mem _ (Nat.mod_lt _ (by decide))
    · rw [h]; exact hexDigit_mem _ (Nat.mod_lt _ (by decide))
    · exact ih c h

theorem deriveIndexName_eq (U : UnicodeTables) (table : String) (uniqueKeys : List String)
    (suffix : String) :
    deriveIndexName U table uniqueKeys suffix
      = "idx_" ++ (⟨(hexString (sha1 (digestInput U table uniqueKeys suffix))).data.take 16⟩ : String) :=
  rfl

theorem deriveIndexName_data (U : UnicodeTables) (table : String) (uniqueKeys : List String)
    (suffix : String) :
    (deriveIndexName U table uniqueKeys suffix).data
      = "idx_".data ++ (hexString (sha1 (digestInput U table uniqueKeys suffix))).data.take 16 := by
  rw [deriveIndexName_eq, String.data_append]

theorem ensureUniqueIndex_general (U : UnicodeTables) (db : Db) (tr : List Op)
    (tableIdent rawTable : String) (quotedUniqueKeys uniqueKeys : List String) :
    ensureUniqueIndex U db tr tableIdent rawTable quotedUniqueKeys uniqueKeys
      = ((match db tr.length with
          | some err => Ret.err (.wrap "create unique index" (.driver err))
          | none => Ret.ok),
          tr ++ [.exec (createIndexSql (quoted (deriveIndexName U rawTable uniqueKeys "hash_idx"))
            tableIdent quotedUniqueKeys) []]) := by
  unfold ensureUniqueIndex
  rw [quoteIdentifier_safe U _ (deriveIndexName_safe U rawTable uniqueKeys "hash_idx")]
  cases db tr.length <;> rfl

/-- C20: for every table, key list and suffix the derived name has exactly 20 characters,
`idx_` followed by 16 characters among `0-9a-f`; it is a safe identifier, and
`ensureUniqueIndex` never returns the "index name" error. -/
theorem deriveIndexName_shape (U : UnicodeTables) (table : String) (uniqueKeys : List String)
    (suffix : String) :
    (deriveIndexName U table uniqueKeys suffix).data.length = 20
      ∧ (deriveIndexName U table uniqueKeys suffix).data.take 4 = "idx_".data
      ∧ (∀ c ∈ (deriveIndexName U table uniqueKeys suffix).data.drop 4,
          c ∈ "0123456789abcdef".data)
      ∧ isSafeIdentifier U (deriveIndexName U table uniqueKeys suffix) = true
      ∧ (∀ (db : Db) (tr : List Op) (tableIdent : String) (quotedUniqueKeys : List String)
          (e : Err),
          (ensureUniqueIndex U db tr tableIdent table quotedUniqueKeys uniqueKeys).1
            ≠ Ret.err (.wrap "index name" e)) := by
  have hlen : ((hexString (sha1 (digestInput U table uniqueKeys suffix))).data.take 16).length
      = 16 := by
    rw [List.length_take, hexString_length, sha1_length]
    rfl
  have h4 : "idx_".data.length = 4 := rfl
  refine ⟨?_, ?_, ?_, deriveIndexName_safe U table uniqueKeys suffix, ?_⟩
  · rw [deriveIndexName_data, List.length_append, hlen]
    rfl
  · rw [deriveIndexName_data, List.take_append_of_le_length (by rw [h4]), ← h4, List.take_length]
  · rw [deriveIndexName_data, List.drop_append_of_le_length (by rw [h4]), ← h4, List.drop_length,
      List.nil_append]
    exact fun c hc => hexString_mem _ c (List.mem_of_mem_take hc)
  · intro db tr tableIdent quotedUniqueKeys e
    rw [ensureUniqueIndex_general]
    cases db tr.length with
    | none => exact fun h => Ret.noConfusion h
    | some err =>
      intro h
      have h1 : Err.wrap "create unique index" (Err.driver err) = Err.wrap "index name" e :=
        Ret.err.inj h
      have h2 : "create unique index" = "index name" := (Err.wrap.inj h1).1
      exact absurd h2 (by decide)

/-! ## UTF-8 and the byte order of strings -/

theorem char_eq_of_toNat_eq (c d : Char) (h : c.toNat = d.toNat) : c = d := by
  rw [← Char.ofNat_toNat c, ← Char.ofNat_toNat d, h]

theorem utf8Rune_append_inj (c d : Char) (r t : List Nat)
    (h : utf8Rune c ++ r = utf8Rune d ++ t) : c = d ∧ r = t := by
  unfold utf8Rune at h
  simp only at h
  split_ifs at h <;>
    simp only [List.cons_append, List.nil_append, List.cons.injEq] at h <;>
    first
      | (exfalso; omega)
      | (refine ⟨char_eq_of_toNat_eq c d ?_, ?_⟩
         · omega
         · first | exact h.2 | exact h.2.2 | exact h.2.2.2 | exact h.2.2.2.2)

theorem flatMap_utf8Rune_inj : ∀ l1 l2 : List Char,
    l1.flatMap utf8Rune = l2.flatMap utf8Rune → l1 = l2 := by
  have hne : ∀ (c : Char) (r : List Nat), utf8Rune c ++ r ≠ [] := by
    intro c r h
    unfold utf8Rune at h
    simp only at h
    split_ifs at h <;> simp at h
  intro l1
  induction l1 with
  | nil =>
    intro l2 h
    cases l2 with
    | nil => rfl
    | cons d t => exact absurd h.symm (by rw [List.flatMap_cons]; exact hne d _)
  | cons c rest ih =>
    intro l2 h
    cases l2 with
    | nil => exact absurd h (by rw [List.flatMap_cons]; exact hne c _)
    | cons d t =>
      rw [List.flatMap_cons, List.flatMap_cons] at h
      obtain ⟨h1, h2⟩ := utf8Rune_append_inj c d _ _ h
      rw [h1, ih t h2]

theorem stringBytes_inj (a b : String) (h : stringBytes a = stringBytes b) : a = b := by
  obtain ⟨x⟩ := a
  obtain ⟨y⟩ := b
  have := flatMap_utf8Rune_inj x y h
  rw [this]

theorem bytesLt_iff : ∀ a b : List Nat, bytesLt a b = true ↔ a < b := by
  intro a
  induction a with
  | nil =>
    intro b
    cases b with
    | nil => simp [bytesLt]
    | cons y t =>
      simp only [bytesLt, true_iff]
      exact List.Lex.nil
  | cons x s ih =>
    intro b
    cases b with
    | nil => simp [bytesLt]
    | cons y t =>
      unfold bytesLt
      by_cases h1 : x < y
      · simp only [h1, if_true, true_iff]
        exact List.Lex.rel h1
      · by_cases h2 : y < x
        · simp only [h1, h2, if_false, if_true, Bool.false_eq_true, false_iff]
          intro hlt
          have : (x :: s) < (y :: t) := hlt
          cases this with
          | cons h => exact absurd h2 (lt_irrefl _)
          | rel h => exact h1 h
        · have hxy : x = y := by omega
          subst hxy
          simp only [h1, if_false, ih t]
          exact (List.Lex.cons_iff).symm

theorem mem_insertSorted (x : String) (l : List String) (z : String) :
    z ∈ insertSorted x l ↔ z = x ∨ z ∈ l := by
  induction l with
  | nil => simp [insertSorted]
  | cons y ys ih =>
    unfold insertSorted
    split_ifs
    · simp only [List.mem_cons, ih]
      tauto
    · simp only [List.mem_cons]

theorem perm_insertSorted (x : String) (l : List String) : (insertSorted x l).Perm (x :: l) := by
  induction l with
  | nil => exact List.Perm.refl _
  | cons y ys ih =>
    unfold insertSorted
    split_ifs
    · exact (List.Perm.cons y ih).trans (List.Perm.swap x y ys)
    · exact List.Perm.refl _

theorem perm_sortStrings (l : List String) : (sortStrings l).Perm l := by
  induction l with
  | nil => exact List.Perm.refl _
  | cons x xs ih =>
    unfold sortStrings
    exact (perm_insertSorted x _).trans (List.Perm.cons x ih)

theorem sorted_insertSorted (x : String) (l : List String)
    (h : l.Pairwise fun a b => stringBytes a ≤ stringBytes b) :
    (insertSorted x l).Pairwise fun a b => stringBytes a ≤ stringBytes b := by
  induction l with
  | nil => simp [insertSorted]
  | cons y ys ih =>
    rw [List.pairwise_cons] at h
    unfold insertSorted
    split_ifs with hlt
    · have hyx : stringBytes y < stringBytes x := (bytesLt_iff _ _).mp hlt
      rw [List.pairwise_cons]
      refine ⟨fun z hz => ?_, ih h.2⟩
      rcases (mem_insertSorted x ys z).mp hz with hz | hz
      · rw [hz]; exact le_of_lt hyx
      · exact h.1 z hz
    · have hxy : stringBytes x ≤ stringBytes y :=
        not_lt.mp fun hc => hlt ((bytesLt_iff _ _).mpr hc)
      rw [List.pairwise_cons, List.pairwise_cons]
      refine ⟨fun z hz => ?_, h⟩
      rcases List.mem_cons.mp hz with hz | hz
      · rw [hz]; exact hxy
      · exact le_trans hxy (h.1 z hz)

theorem sorted_sortStrings (l : List String) :
    (sortStrings l).Pairwise fun a b => stringBytes a ≤ stringBytes b := by
  induction l with
  | nil => simp [sortStrings]
  | cons x xs ih =>
    unfold sortStrings
    exact sorted_insertSorted x _ ih

theorem sortStrings_perm_eq (l1 l2 : List String) (h : l1.Perm l2) :
    sortStrings l1 = sortStrings l2 :=
  @List.eq_of_perm_of_sorted String (fun a b => stringBytes a ≤ stringBytes b)
    ⟨fun a b h1 h2 => stringBytes_inj a b (le_antisymm h1 h2)⟩ _ _
    ((perm_sortStrings l1).trans (h.trans (perm_sortStrings l2).symm))
    (sorted_sortStrings l1) (sorted_sortStrings l2)

/-! ## The derived index name -/

/-- C16: the derived name does not depend on the order of the key list: a permutation of
the keys gives the same name (the name is a function of its arguments, so equal inputs give
equal names). -/
theorem deriveIndexName_perm (U : UnicodeTables) (table suffix : String)
    (ks ks' : List String) (h : ks'.Perm ks) :
    deriveIndexName U table ks' suffix = deriveIndexName U table ks suffix := by
  rw [deriveIndexName_eq, deriveIndexName_eq]
  unfold digestInput
  rw [sortStrings_perm_eq ks' ks h]

/-- C16, witness: the key lists `[email, id]` and `[id, email]`. -/
theorem deriveIndexName_perm_witness :
    (["email", "id"] : List String).Perm ["id", "email"]
      ∧ deriveIndexName latin1Tables "users" ["email", "id"] "hash_idx"
        = deriveIndexName latin1Tables "users" ["id", "email"] "hash_idx" :=
  ⟨List.Perm.swap "id" "email" [],
    deriveIndexName_perm latin1Tables "users" "hash_idx" ["id", "email"] ["email", "id"]
      (List.Perm.swap "id" "email" [])⟩

/-- C17: the derived name is `idx_` followed by the first 16 characters of the lower-case
hexadecimal rendering of the SHA-1 digest of `lower(table) | lower(k1) | ... | lower(suffix) |`,
the keys being taken in byte-wise ascending order (a rearrangement of the key list). -/
theorem deriveIndexName_digest (U : UnicodeTables) (table : String) (keys : List String)
    (suffix : String) :
    deriveIndexName U table keys suffix
        = "idx_" ++ (⟨(hexString (sha1
            (stringBytes (stringsToLower U table) ++ [0x7C]
              ++ (sortStrings keys).flatMap (fun k => stringBytes (stringsToLower U k) ++ [0x7C])
              ++ (stringBytes (stringsToLower U suffix) ++ [0x7C])))).data.take 16⟩ : String)
      ∧ (sortStrings keys).Perm keys
      ∧ (sortStrings keys).Pairwise (fun a b => stringBytes a ≤ stringBytes b)
      ∧ (∀ bytes : List Nat, ∀ c ∈ (hexString bytes).data, c ∈ "0123456789abcdef".data) :=
  ⟨rfl, perm_sortStrings keys, sorted_sortStrings keys, hexString_mem⟩

/-- C17, witness: the three names expected by the tests of the repository. -/
theorem deriveIndexName_digest_witness :
    deriveIndexName latin1Tables "users" ["id"] "hash_idx" = "idx_de7ebd7b26552dfc"
      ∧ deriveIndexName latin1Tables "User Accounts" ["Email-Address"] "uniq"
        = "idx_2f4db383e4924ea8"
      ∧ deriveIndexName latin1Tables "123table" ["id"] "hash_idx" = "idx_a61bdf0a335a4148" :=
  ⟨(deriveIndexName_digest latin1Tables "users" ["id"] "hash_idx").1.trans (by decide!),
    (deriveIndexName_digest latin1Tables "User Accounts" ["Email-Address"] "uniq").1.trans
      (by decide!),
    (deriveIndexName_digest latin1Tables "123table" ["id"] "hash_idx").1.trans (by decide!)⟩

theorem writePart_inj (a b : String) (h : writePart a = writePart b) : a = b :=
  stringBytes_inj a b (List.append_inj' h rfl).1

theorem writePart_append_inj (a b : String) (r : List Nat)
    (h : writePart a ++ r = writePart b ++ r) : a = b :=
  writePart_inj a b (List.append_inj' h rfl).1

/-- C19, counterexample: the table names `Users` and `users` differ, and so do the suffixes
`Hash_Idx` and `hash_idx`, yet each pair gives the same byte string to the digest and the
same index name. -/
theorem digestInput_ignores_case :
    "Users" ≠ "users"
      ∧ digestInput latin1Tables "Users" ["id"] "hash_idx"
        = digestInput latin1Tables "users" ["id"] "hash_idx"
      ∧ deriveIndexName latin1Tables "Users" ["id"] "hash_idx"
        = deriveIndexName latin1Tables "users" ["id"] "hash_idx"
      ∧ "Hash_Idx" ≠ "hash_idx"
      ∧ digestInput latin1Tables "users" ["id"] "Hash_Idx"
        = digestInput latin1Tables "users" ["id"] "hash_idx"
      ∧ deriveIndexName latin1Tables "users" ["id"] "Hash_Idx"
        = deriveIndexName latin1Tables "users" ["id"] "hash_idx" := by
  decide!

/-- C19, amended: for every key list and suffix, two table names that differ after
lower-casing (and, for every table and key list, two suffixes that differ after lower-casing)
give different byte strings to the digest; the two names are then equal only if the two
digests agree on their first 16 hexadecimal characters, that is on their first 64 bits. -/
theorem digestInput_distinct (U : UnicodeTables) (keys : List String) :
    (∀ suffix t1 t2, stringsToLower U t1 ≠ stringsToLower U t2 →
        digestInput U t1 keys suffix ≠ digestInput U t2 keys suffix)
      ∧ (∀ table s1 s2, stringsToLower U s1 ≠ stringsToLower U s2 →
        digestInput U table keys s1 ≠ digestInput U table keys s2)
      ∧ (∀ t1 t2 s1 s2, deriveIndexName U t1 keys s1 = deriveIndexName U t2 keys s2 →
        (hexString (sha1 (digestInput U t1 keys s1))).data.take 16
          = (hexString (sha1 (digestInput U t2 keys s2))).data.take 16) := by
  refine ⟨?_, ?_, ?_⟩
  · intro suffix t1 t2 hne heq
    apply hne
    unfold digestInput at heq
    rw [List.append_assoc, List.append_assoc] at heq
    exact writePart_append_inj _ _ _ heq
  · intro table s1 s2 hne heq
    apply hne
    unfold digestInput at heq
    exact writePart_inj _ _ (List.append_cancel_left heq)
  · intro t1 t2 s1 s2 h
    have h' := congrArg String.data h
    rw [deriveIndexName_data, deriveIndexName_data] at h'
    exact List.append_cancel_left h'

/-- C19, witness: the tables `users` and `orders`, the suffixes `hash_idx` and `uniq`. -/
theorem digestInput_distinct_witness :
    stringsToLower latin1Tables "users" ≠ stringsToLower latin1Tables "orders"
      ∧ digestInput latin1Tables "users" ["id"] "hash_idx"
        ≠ digestInput latin1Tables "orders" ["id"] "hash_idx"
      ∧ stringsToLower latin1Tables "hash_idx" ≠ stringsToLower latin1Tables "uniq"
      ∧ digestInput latin1Tables "users" ["id"] "hash_idx"
        ≠ digestInput latin1Tables "users" ["id"] "uniq" :=
  ⟨by decide,
    (digestInput_distinct latin1Tables ["id"]).1 "hash_idx" "users" "orders" (by decide),
    by decide,
    (digestInput_distinct latin1Tables ["id"]).2.1 "users" "hash_idx" "uniq" (by decide)⟩

/-! ## Lower-casing and the key order -/

theorem latin1_lower_idem (c : Char) :
    unicodeToLower latin1Tables (unicodeToLower latin1Tables c) = unicodeToLower latin1Tables c := by
  unfold unicodeToLower
  by_cases h : c.toNat ≤ 0x7F
  · by_cases hu : 0x41 ≤ c.toNat ∧ c.toNat ≤ 0x5A
    · simp only [h, hu, if_true, and_self]
      obtain ⟨n, hn⟩ : ∃ n, c.toNat = n := ⟨_, rfl⟩
      rw [hn] at hu ⊢
      obtain ⟨h1, h2⟩ := hu
      interval_cases n <;> decide
    · simp only [h, hu, if_true, if_false]
  · simp only [h, if_false, latin1Tables]

theorem stringsToLower_idem (U : UnicodeTables)
    (hidem : ∀ c, unicodeToLower U (unicodeToLower U c) = unicodeToLower U c) (s : String) :
    stringsToLower U (stringsToLower U s) = stringsToLower U s := by
  unfold stringsToLower
  simp only [List.map_map]
  congr 1
  apply List.map_congr_left
  intro c _
  exact hidem c

theorem digestInput_lower (U : UnicodeTables)
    (hidem : ∀ c, unicodeToLower U (unicodeToLower U c) = unicodeToLower U c)
    (table : String) (ks : List String) (suffix : String)
    (hord : (sortStrings ks).map (stringsToLower U) = sortStrings (ks.map (stringsToLower U))) :
    digestInput U (stringsToLower U table) (ks.map (stringsToLower U)) suffix
      = digestInput U table ks suffix := by
  unfold digestInput
  rw [← hord, List.flatMap_map, stringsToLower_idem U hidem]
  congr 2
  apply List.flatMap_congr
  intro k _
  rw [stringsToLower_idem U hidem]

theorem digestInput_of_lowered (U : UnicodeTables) (table : String) (ks : List String)
    (suffix : String)
    (hord : (sortStrings ks).map (stringsToLower U) = sortStrings (ks.map (stringsToLower U))) :
    digestInput U table ks suffix
      = writePart (stringsToLower U table)
        ++ (sortStrings (ks.map (stringsToLower U))).flatMap writePart
        ++ writePart (stringsToLower U suffix) := by
  unfold digestInput
  rw [← hord, List.flatMap_map]

/-- C18, counterexample: lower-casing the key list `[B, a]` changes the name, because the
keys are sorted before they are lower-cased; and the key lists `[id, id]` and `[id]`, equal
as sets, give different names. -/
theorem deriveIndexName_not_case_invariant :
    deriveIndexName latin1Tables "t" ["B", "a"] "hash_idx" = "idx_e235ed6ac5585662"
      ∧ deriveIndexName latin1Tables (stringsToLower latin1Tables "t")
          (["B", "a"].map (stringsToLower latin1Tables)) "hash_idx" = "idx_a476c1fc67117dc0"
      ∧ deriveIndexName latin1Tables "t" ["id", "id"] "hash_idx" = "idx_e2debe4726ba9724"
      ∧ deriveIndexName latin1Tables "t" ["id"] "hash_idx" = "idx_aba992992f77b710" := by
  decide!

/-- C18, amended: when lower-casing the keys does not change their byte-wise sorted order
(and `ToLower` is idempotent, as Go's is), the name of `(table, ks, suffix)` is the name of
`(lower(table), map lower ks, suffix)`; and two such key lists whose lower-cased lists are
rearrangements of each other, repetitions counted, yield the same name. -/
theorem deriveIndexName_lower (U : UnicodeTables)
    (hidem : ∀ c, unicodeToLower U (unicodeToLower U c) = unicodeToLower U c)
    (table : String) (ks : List String) (suffix : String)
    (hord : (sortStrings ks).map (stringsToLower U) = sortStrings (ks.map (stringsToLower U))) :
    deriveIndexName U table ks suffix
        = deriveIndexName U (stringsToLower U table) (ks.map (stringsToLower U)) suffix
      ∧ ∀ ks' : List String,
          (sortStrings ks').map (stringsToLower U) = sortStrings (ks'.map (stringsToLower U)) →
          (ks'.map (stringsToLower U)).Perm (ks.map (stringsToLower U)) →
          deriveIndexName U table ks' suffix = deriveIndexName U table ks suffix := by
  constructor
  · rw [deriveIndexName_eq, deriveIndexName_eq, digestInput_lower U hidem table ks suffix hord]
  · intro ks' hord' hperm
    rw [deriveIndexName_eq, deriveIndexName_eq, digestInput_of_lowered U table ks' suffix hord',
      digestInput_of_lowered U table ks suffix hord, sortStrings_perm_eq _ _ hperm]

/-- C18, witness: the table `Users` with the single key `Id`. -/
theorem deriveIndexName_lower_witness :
    (sortStrings ["Id"]).map (stringsToLower latin1Tables)
        = sortStrings (["Id"].map (stringsToLower latin1Tables))
      ∧ deriveIndexName latin1Tables "Users" ["Id"] "hash_idx"
        = deriveIndexName latin1Tables (stringsToLower latin1Tables "Users")
          (["Id"].map (stringsToLower latin1Tables)) "hash_idx" :=
  ⟨by decide,
    (deriveIndexName_lower latin1Tables latin1_lower_idem "Users" ["Id"] "hash_idx"
      (by decide)).1⟩

/-! ## The statement texts of the row-by-row strategy -/

theorem whereClauseTexts_eq (ks : List String) :
    ∀ a, whereClauseTexts ks a
      = (List.enumFrom a ks).map fun p => quoted p.2 ++ " = $" ++ fmtD p.1 := by
  induction ks with
  | nil => intro a; rfl
  | cons k rest ih =>
    intro a
    simp only [whereClauseTexts, List.enumFrom_cons, List.map_cons, ih]

theorem setClauseTexts_eq (cols : List String) :
    ∀ (pre : List String) (idx : Nat),
      setClauseTexts ((pre ++ cols).map quoted) cols pre.length idx
        = (List.enumFrom idx cols).map fun p => quoted p.2 ++ " = $" ++ fmtD p.1 := by
  induction cols with
  | nil => intro pre idx; rfl
  | cons c rest ih =>
    intro pre idx
    have hq : ((pre ++ c :: rest).map quoted)[pre.length]? = some (quoted c) := by
      rw [List.getElem?_map, List.getElem?_append_right (le_refl _), Nat.sub_self,
        List.getElem?_cons_zero]
      rfl
    have hgetD : ((pre ++ c :: rest).map quoted).getD pre.length "" = quoted c := by
      rw [List.getD_eq_getElem?_getD, hq]
      rfl
    have ih' := ih (pre ++ [c]) (idx + 1)
    rw [List.append_assoc, List.length_append, List.length_singleton] at ih'
    simp only [List.singleton_append] at ih'
    simp only [setClauseTexts, hgetD, ih', List.enumFrom_cons, List.map_cons]

theorem insertPlaceholders_eq (k : Nat) :
    ∀ i, insertPlaceholders k i = (List.range k).map fun j => "$" ++ fmtD (i + j + 1) := by
  induction k with
  | zero => intro i; rfl
  | succ k ih =>
    intro i
    rw [insertPlaceholders, ih, List.range_succ_eq_map, List.map_cons, List.map_map]
    simp only [Nat.add_zero, List.cons.injEq, true_and]
    apply List.map_congr_left
    intro j _
    simp only [Function.comp, Nat.succ_eq_add_one]
    congr 2
    omega

theorem naiveCheckText_eq (table : String) (uniqueKeys : List String) :
    naiveCheckText table uniqueKeys = probeText table uniqueKeys := by
  unfold naiveCheckText probeText
  rw [whereClauseTexts_eq]

theorem naiveUpdateText_eq (table : String) (columns uniqueKeys : List String) :
    naiveUpdateText table columns uniqueKeys = updateText table columns uniqueKeys := by
  unfold naiveUpdateText updateText
  have h := setClauseTexts_eq columns [] 1
  simp only [List.nil_append, List.length_nil] at h
  rw [whereClauseTexts_eq, h, Nat.add_comm 1 columns.length]

theorem insertSql_eq (table : String) (columns : List String) (row : Row)
    (h : row.length = columns.length) :
    insertSql (quoted table) (columns.map quoted) row = insertText table columns := by
  unfold insertSql insertText
  rw [h, insertPlaceholders_eq]
  simp only [Nat.zero_add]

/-- One turn of the row loop on a row of the right length. -/
theorem naiveRows_step (db : Db) (table : String) (columns uniqueKeys : List String)
    (hsub : ∀ k ∈ uniqueKeys, k ∈ columns) (idx : Nat) (r : Row) (rest : List Row)
    (tr : List Op) (hr : r.length = columns.length) :
    naiveRows db (quoted table) (probeText table uniqueKeys) (columns.map quoted) columns
        (columnIndexOf columns) uniqueKeys (uniqueKeys.map quoted) idx (r :: rest) tr
      = (match db tr.length with
        | some (.other code) =>
          (Ret.err (.wrap ("row " ++ fmtD idx ++ ": check existing row") (.driver (.other code))),
            tr ++ [.queryRow (probeText table uniqueKeys) (keyValues columns uniqueKeys r)])
        | none =>
          match db (tr.length + 1) with
          | some e =>
            (Ret.err (.wrap ("row " ++ fmtD idx) (.wrap "update row" (.driver e))),
              tr ++ [.queryRow (probeText table uniqueKeys) (keyValues columns uniqueKeys r),
                .exec (updateText table columns uniqueKeys) (r ++ keyValues columns uniqueKeys r)])
          | none =>
            naiveRows db (quoted table) (probeText table uniqueKeys) (columns.map quoted) columns
              (columnIndexOf columns) uniqueKeys (uniqueKeys.map quoted) (idx + 1) rest
              (tr ++ [.queryRow (probeText table uniqueKeys) (keyValues columns uniqueKeys r),
                .exec (updateText table columns uniqueKeys) (r ++ keyValues columns uniqueKeys r)])
        | some .noRows =>
          match db (tr.length + 1) with
          | some e =>
            (Ret.err (.wrap ("row " ++ fmtD idx) (.wrap "insert row" (.driver e))),
              tr ++ [.queryRow (probeText table uniqueKeys) (keyValues columns uniqueKeys r),
                .exec (insertText table columns) r])
          | none =>
            naiveRows db (quoted table) (probeText table uniqueKeys) (columns.map quoted) columns
              (columnIndexOf columns) uniqueKeys (uniqueKeys.map quoted) (idx + 1) rest
              (tr ++ [.queryRow (probeText table uniqueKeys) (keyValues columns uniqueKeys r),
                .exec (insertText table columns) r])) := by
  have hn : ¬ r.length ≠ columns.length := by simp [hr]
  have hl : (tr ++ [Op.queryRow (probeText table uniqueKeys)
      (keyValues columns uniqueKeys r)]).length = tr.length + 1 := by simp
  rw [naiveRows]
  simp only [hn, if_false, whereArgs_eq columns uniqueKeys r hr hsub,
    executeUpdate_eq db _ table columns r uniqueKeys hr hsub, executeInsert, hl,
    insertSql_eq table columns r hr, naiveUpdateText_eq, List.append_assoc, List.singleton_append]
  cases db tr.length with
  | none =>
    simp only []
    cases db (tr.length + 1) <;> rfl
  | some e =>
    cases e with
    | other code => rfl
    | noRows =>
      simp only []
      cases db (tr.length + 1) <;> rfl

/-! ## The trace of the row-by-row strategy -/

theorem naiveRowOps_length (db : Db) (table : String) (columns uniqueKeys : List String)
    (rows : List Row) : ∀ pos, (naiveRowOps db table columns uniqueKeys pos rows).length
      = 2 * rows.length := by
  induction rows with
  | nil => intro pos; rfl
  | cons r rest ih =>
    intro pos
    simp only [naiveRowOps, List.length_cons, ih]
    omega

theorem rowsSucceed_tail (db : Db) (pos n : Nat) (h : rowsSucceed db pos (n + 1)) :
    rowsSucceed db (pos + 2) n := by
  intro j hj
  have := h (j + 1) (by omega)
  have e1 : pos + 2 * (j + 1) = pos + 2 + 2 * j := by omega
  rw [e1] at this
  exact this

/-- The row loop over a prefix of rows of the right length whose probes and writes succeed. -/
theorem naiveRows_good (db : Db) (table : String) (columns uniqueKeys : List String)
    (hsub : ∀ k ∈ uniqueKeys, k ∈ columns) (rest : List Row) :
    ∀ (good : List Row) (idx : Nat) (tr : List Op),
      (∀ r ∈ good, r.length = columns.length) → rowsSucceed db tr.length good.length →
      naiveRows db (quoted table) (probeText table uniqueKeys) (columns.map quoted) columns
          (columnIndexOf columns) uniqueKeys (uniqueKeys.map quoted) idx (good ++ rest) tr
        = naiveRows db (quoted table) (probeText table uniqueKeys) (columns.map quoted) columns
          (columnIndexOf columns) uniqueKeys (uniqueKeys.map quoted) (idx + good.length) rest
          (tr ++ naiveRowOps db table columns uniqueKeys tr.length good) := by
  intro good
  induction good with
  | nil => intro idx tr _ _; simp [naiveRowOps]
  | cons r g ih =>
    intro idx tr hlen hok
    have hr := hlen r (List.mem_cons_self r g)
    have h0 := hok 0 (by simp)
    simp only [Nat.mul_zero, Nat.add_zero] at h0
    have hl2 : ∀ a b : Op, (tr ++ [a, b]).length = tr.length + 2 := by intro a b; simp
    have ih' := fun tr' (h : tr'.length = tr.length + 2) =>
      ih (idx + 1) tr' (fun x hx => hlen x (List.mem_cons_of_mem r hx))
        (by rw [h]; exact rowsSucceed_tail db tr.length g.length hok)
    rw [List.cons_append, naiveRows_step db table columns uniqueKeys hsub idx r (g ++ rest) tr hr]
    rcases h0.1 with hp | hp
    · simp only [hp, h0.2]
      rw [ih' _ (hl2 _ _), hl2]
      simp only [naiveRowOps, hp, List.length_cons, List.append_assoc, List.cons_append,
        List.nil_append]
      congr 1
      omega
    · simp only [hp, h0.2]
      rw [ih' _ (hl2 _ _), hl2]
      simp only [naiveRowOps, hp, List.length_cons, List.append_assoc, List.cons_append,
        List.nil_append]
      congr 1
      omega

/-- The row-by-row strategy once the names have passed validation and the transaction has
begun: the row loop, then commit or the deferred rollback. -/
theorem naiveUpsert_begun (U : UnicodeTables) (db : Db) (table : String)
    (columns : List String) (rows : List Row) (uniqueKeys : List String)
    (hn : validNames U table columns uniqueKeys) (hne : rows ≠ []) (hbegin : db 0 = none) :
    NaiveUpserter.Upsert U db [] table columns rows uniqueKeys
      = (match naiveRows db (quoted table) (probeText table uniqueKeys) (columns.map quoted)
            columns (columnIndexOf columns) uniqueKeys (uniqueKeys.map quoted) 0 rows [.begin] with
        | (.ok, t) =>
          match db t.length with
          | some e => (Ret.err (.wrap "commit tx" (.driver e)), t ++ [.commit, .rollback])
          | none => (Ret.ok, t ++ [.commit])
        | (r, t) => (r, t ++ [.rollback])) := by
  obtain ⟨hc, hu, ht, hcs, hsub⟩ := hn
  have h1 : ¬ columns.length = 0 := fun h => hc (List.length_eq_zero.mp h)
  have h2 : ¬ uniqueKeys.length = 0 := fun h => hu (List.length_eq_zero.mp h)
  have h3 : ¬ rows.length = 0 := fun h => hne (List.length_eq_zero.mp h)
  have hcols : quoteColumns U 0 columns [] = .ok (columns.map quoted, columnIndexOf columns) :=
    quoteColumns_ok U columns hcs 0 []
  have hq : "SELECT 1 FROM " ++ quoted table ++ " WHERE "
      ++ joinStrings " AND " (whereClauseTexts uniqueKeys (0 + 1)) ++ " LIMIT 1"
      = probeText table uniqueKeys := naiveCheckText_eq table uniqueKeys
  unfold NaiveUpserter.Upsert
  simp only [h1, h2, h3, if_false, quoteIdentifier_safe U table ht, hcols,
    quoteWhereKeys_ok U columns uniqueKeys hcs hsub 0, List.length_nil, List.nil_append, hbegin,
    hq]

theorem validNames_of_validCall (U : UnicodeTables) (table : String) (columns : List String)
    (rows : List Row) (uniqueKeys : List String) (hv : validCall U table columns rows uniqueKeys) :
    validNames U table columns uniqueKeys :=
  ⟨hv.1, hv.2.1, hv.2.2.1, hv.2.2.2.1, hv.2.2.2.2.1⟩

theorem lookup_columnIndexFrom_nodup (key : String) (cols : List String) :
    ∀ i m, cols.Nodup → key ∈ cols →
      List.lookup key (columnIndexFrom i cols m) = some (i + cols.indexOf key) := by
  induction cols with
  | nil => intro i m _ h; exact absurd h (List.not_mem_nil key)
  | cons c rest ih =>
    intro i m hnd hmem
    rw [List.nodup_cons] at hnd
    by_cases hr : key ∈ rest
    · have hne : c ≠ key := fun h => hnd.1 (h ▸ hr)
      rw [columnIndexFrom, ih (i + 1) _ hnd.2 hr, List.indexOf_cons_ne _ hne]
      congr 1
      omega
    · have hkc : key = c := by
        rcases List.mem_cons.mp hmem with h | h
        · exact h
        · exact absurd h hr
      rw [columnIndexFrom, (lookup_columnIndexFrom key rest (i + 1) ((c, i) :: m)).2 hr, hkc,
        lookup_cons_self, List.indexOf_cons_self]
      rfl

theorem keyValues_nodup (columns uniqueKeys : List String) (hnd : columns.Nodup)
    (hsub : ∀ k ∈ uniqueKeys, k ∈ columns) (r : Row) :
    keyValues columns uniqueKeys r
      = uniqueKeys.map fun k => r.getD (columns.indexOf k) Value.null := by
  unfold keyValues
  apply List.map_congr_left
  intro k hk
  unfold columnIndexOf
  rw [lookup_columnIndexFrom_nodup k columns 0 [] hnd (hsub k hk)]
  simp

/-- C11: on a validated call with `n ≥ 1` rows of the column-list length on which every
database operation succeeds, the trace is `BEGIN`, then for each row in batch order the probe
`SELECT 1 FROM t WHERE k1 = $1 AND ... LIMIT 1` bound to the row's unique-key values followed
by one write (the `UPDATE` of every column bound to the row's values and then its key values
when the probe found a row, the `INSERT` bound to the row's values when it found none), then
`COMMIT`; with distinct column names the key values are the row's entries at the positions
of the key columns. -/
theorem naiveUpsert_trace (U : UnicodeTables) (db : Db) (table : String)
    (columns : List String) (rows : List Row) (uniqueKeys : List String)
    (hv : validCall U table columns rows uniqueKeys) (hne : rows ≠ [])
    (hbegin : db 0 = none) (hrows : rowsSucceed db 1 rows.length)
    (hcommit : db (1 + 2 * rows.length) = none) :
    NaiveUpserter.Upsert U db [] table columns rows uniqueKeys
        = (Ret.ok, Op.begin :: (naiveRowOps db table columns uniqueKeys 1 rows ++ [Op.commit]))
      ∧ (columns.Nodup → ∀ r : Row,
          keyValues columns uniqueKeys r
            = uniqueKeys.map fun k => r.getD (columns.indexOf k) Value.null) := by
  refine ⟨?_, fun hnd r => keyValues_nodup columns uniqueKeys hnd hv.2.2.2.2.1 r⟩
  have hgood := naiveRows_good db table columns uniqueKeys hv.2.2.2.2.1 [] rows 0 [Op.begin]
    hv.2.2.2.2.2 hrows
  rw [List.append_nil] at hgood
  rw [naiveUpsert_begun U db table columns rows uniqueKeys
    (validNames_of_validCall U table columns rows uniqueKeys hv) hne hbegin, hgood, naiveRows]
  have hl : ([Op.begin] ++ naiveRowOps db table columns uniqueKeys [Op.begin].length rows).length
      = 1 + 2 * rows.length := by
    rw [List.length_append, naiveRowOps_length]
    rfl
  simp only [hl, hcommit]
  rfl

/-- C11, witness: the two-row batch of the test; the first row exists, the second does not. -/
theorem naiveUpsert_trace_witness :
    validCall latin1Tables "users" ["id", "name", "email"]
        [[.int 1, .str "John", .str "john@example.com"],
          [.int 2, .str "Jane", .str "jane@example.com"]] ["id"]
      ∧ rowsSucceed secondRowIsNew 1 2
      ∧ NaiveUpserter.Upsert latin1Tables secondRowIsNew [] "users" ["id", "name", "email"]
          [[.int 1, .str "John", .str "john@example.com"],
            [.int 2, .str "Jane", .str "jane@example.com"]] ["id"]
        = (Ret.ok,
            [.begin,
              .queryRow "SELECT 1 FROM \"users\" WHERE \"id\" = $1 LIMIT 1" [.int 1],
              .exec ("UPDATE \"users\" SET \"id\" = $1, \"name\" = $2, \"email\" = $3 "
                ++ "WHERE \"id\" = $4")
                [.int 1, .str "John", .str "john@example.com", .int 1],
              .queryRow "SELECT 1 FROM \"users\" WHERE \"id\" = $1 LIMIT 1" [.int 2],
              .exec "INSERT INTO \"users\" (\"id\", \"name\", \"email\") VALUES ($1, $2, $3)"
                [.int 2, .str "Jane", .str "jane@example.com"],
              .commit]) :=
  have hv : validCall latin1Tables "users" ["id", "name", "email"]
      [[.int 1, .str "John", .str "john@example.com"],
        [.int 2, .str "Jane", .str "jane@example.com"]] ["id"] := by
    unfold validCall
    decide
  have hrows : rowsSucceed secondRowIsNew 1 2 := by
    unfold rowsSucceed
    decide
  ⟨hv, hrows, (naiveUpsert_trace latin1Tables secondRowIsNew "users" ["id", "name", "email"]
    [[.int 1, .str "John", .str "john@example.com"],
      [.int 2, .str "Jane", .str "jane@example.com"]] ["id"] hv (by decide) rfl hrows rfl).1.trans
    (by decide!)⟩

/-- C14, counterexample: with three columns and the single row `[1, John]`, a database that
refuses `BEGIN` makes the call return the wrapped begin error; no `ROLLBACK` is sent and the
message is not the length-mismatch message. -/
theorem naiveUpsert_mismatch_begin_refused :
    NaiveUpserter.Upsert latin1Tables refusesAll [] "users" ["id", "name", "email"]
        [[.int 1, .str "John"]] ["id"]
      = (Ret.err (.wrap "begin tx" (.driver (.other 1))), [.begin]) := by
  decide!

/-- C14, amended: on an otherwise valid call with `m` columns whose transaction has begun, if
row `i` is the first whose length `v` differs from `m` and all operations for the rows before
it succeed, the call returns the error `row i: columns (m) and values (v) length mismatch`;
the trace is `BEGIN`, the probes and writes of rows `0..i-1`, then `ROLLBACK`: nothing is sent
for row `i` or a later row and `COMMIT` is never sent. -/
theorem naiveUpsert_length_mismatch (U : UnicodeTables) (db : Db) (table : String)
    (columns uniqueKeys : List String) (good : List Row) (bad : Row) (rest : List Row)
    (hn : validNames U table columns uniqueKeys)
    (hgood : ∀ r ∈ good, r.length = columns.length) (hbad : bad.length ≠ columns.length)
    (hbegin : db 0 = none) (hrows : rowsSucceed db 1 good.length) :
    NaiveUpserter.Upsert U db [] table columns (good ++ bad :: rest) uniqueKeys
      = (Ret.err (.new ("row " ++ fmtD good.length ++ ": columns (" ++ fmtD columns.length
          ++ ") and values (" ++ fmtD bad.length ++ ") length mismatch")),
          Op.begin :: (naiveRowOps db table columns uniqueKeys 1 good ++ [Op.rollback])) := by
  rw [naiveUpsert_begun U db table columns _ uniqueKeys hn (by simp) hbegin,
    naiveRows_good db table columns uniqueKeys hn.2.2.2.2 (bad :: rest) good 0 [Op.begin] hgood
      hrows, naiveRows]
  simp only [hbad, if_true, ne_eq, not_false_eq_true, Nat.zero_add]
  rfl

/-- C14, witness: three columns and the single row `[1, John]` give the error
`row 0: columns (3) and values (2) length mismatch` and the trace `BEGIN`, `ROLLBACK`. -/
theorem naiveUpsert_length_mismatch_witness :
    validNames latin1Tables "users" ["id", "name", "email"] ["id"]
      ∧ NaiveUpserter.Upsert latin1Tables (fun _ => none) [] "users" ["id", "name", "email"]
          [[.int 1, .str "John"]] ["id"]
        = (Ret.err (.new "row 0: columns (3) and values (2) length mismatch"),
            [.begin, .rollback]) :=
  have hn : validNames latin1Tables "users" ["id", "name", "email"] ["id"] := by
    unfold validNames
    decide
  ⟨hn, (naiveUpsert_length_mismatch latin1Tables (fun _ => none) "users" ["id", "name", "email"]
    ["id"] [] [.int 1, .str "John"] [] hn (by decide) (by decide) rfl
    (fun j hj => absurd hj (Nat.not_lt_zero j))).trans (by decide!)⟩

/-! ## Commit and rollback -/

theorem executeUpdate_trace (db : Db) (tr : List Op) (table : String)
    (quotedColumns columns : List String) (columnIndex : GoMap) (row : Row)
    (uniqueKeys quotedUniqueKeys : List String) :
    ∃ ops, (executeUpdate db tr table quotedColumns columns columnIndex row uniqueKeys
        quotedUniqueKeys).2 = tr ++ ops ∧ ∀ op ∈ ops, op.isStatement = true := by
  unfold executeUpdate
  split
  · exact ⟨[], by simp, by simp⟩
  · split
    · exact ⟨[], by simp, by simp⟩
    · simp only []
      split
      · exact ⟨[_], rfl, by simp [Op.isStatement]⟩
      · exact ⟨[_], rfl, by simp [Op.isStatement]⟩

theorem executeInsert_trace (db : Db) (tr : List Op) (table : String)
    (quotedColumns : List String) (row : Row) :
    ∃ ops, (executeInsert db tr table quotedColumns row).2 = tr ++ ops
      ∧ ∀ op ∈ ops, op.isStatement = true := by
  unfold executeInsert
  split
  · exact ⟨[_], rfl, by simp [Op.isStatement]⟩
  · exact ⟨[_], rfl, by simp [Op.isStatement]⟩

/-- The row loop only appends statements to the trace. -/
theorem naiveRows_body (db : Db) (tableIdent checkQuery : String)
    (quotedColumns columns : List String) (columnIndex : GoMap)
    (uniqueKeys quotedUniqueKeys : List String) :
    ∀ (rows : List Row) (idx : Nat) (tr : List Op),
      ∃ body, (naiveRows db tableIdent checkQuery quotedColumns columns columnIndex uniqueKeys
          quotedUniqueKeys idx rows tr).2 = tr ++ body
        ∧ ∀ op ∈ body, op.isStatement = true := by
  intro rows
  induction rows with
  | nil => intro idx tr; exact ⟨[], by simp [naiveRows], by simp⟩
  | cons r rest ih =>
    intro idx tr
    rw [naiveRows]
    split_ifs with hlen
    · exact ⟨[], by simp, by simp⟩
    · cases hw : whereArgs r columnIndex uniqueKeys with
      | none => exact ⟨[], by simp, by simp⟩
      | some wargs =>
        simp only []
        cases hdb : db tr.length with
        | some e =>
          cases e with
          | other code => exact ⟨[_], rfl, by simp [Op.isStatement]⟩
          | noRows =>
            simp only []
            obtain ⟨ops, hops, hst⟩ := executeInsert_trace db
              (tr ++ [Op.queryRow checkQuery wargs]) tableIdent quotedColumns r
            rcases hU : executeInsert db (tr ++ [Op.queryRow checkQuery wargs]) tableIdent
              quotedColumns r with ⟨ret, t2⟩
            rw [hU] at hops
            simp only at hops
            have hall : ∀ op ∈ Op.queryRow checkQuery wargs :: ops, op.isStatement = true := by
              intro op hop
              rcases List.mem_cons.mp hop with h | h
              · rw [h]; rfl
              · exact hst op h
            cases ret with
            | err e2 => exact ⟨_ :: ops, by simp [hops], hall⟩
            | panic => exact ⟨_ :: ops, by simp [hops], hall⟩
            | ok =>
              simp only []
              obtain ⟨body, hbody, hb⟩ := ih (idx + 1) t2
              refine ⟨(Op.queryRow checkQuery wargs :: ops) ++ body, ?_, ?_⟩
              · rw [hbody, hops]
                simp
              · intro op hop
                rcases List.mem_append.mp hop with h | h
                · exact hall op h
                · exact hb op h
        | none =>
          simp only []
          obtain ⟨ops, hops, hst⟩ := executeUpdate_trace db
            (tr ++ [Op.queryRow checkQuery wargs]) tableIdent quotedColumns columns columnIndex r
            uniqueKeys quotedUniqueKeys
          rcases hU : executeUpdate db (tr ++ [Op.queryRow checkQuery wargs]) tableIdent
            quotedColumns columns columnIndex r uniqueKeys quotedUniqueKeys with ⟨ret, t2⟩
          rw [hU] at hops
          simp only at hops
          have hall : ∀ op ∈ Op.queryRow checkQuery wargs :: ops, op.isStatement = true := by
            intro op hop
            rcases List.mem_cons.mp hop with h | h
            · rw [h]; rfl
            · exact hst op h
          cases ret with
          | err e2 => exact ⟨_ :: ops, by simp [hops], hall⟩
          | panic => exact ⟨_ :: ops, by simp [hops], hall⟩
          | ok =>
            simp only []
            obtain ⟨body, hbody, hb⟩ := ih (idx + 1) t2
            refine ⟨(Op.queryRow checkQuery wargs :: ops) ++ body, ?_, ?_⟩
            · rw [hbody, hops]
              simp
            · intro op hop
              rcases List.mem_append.mp hop with h | h
              · exact hall op h
              · exact hb op h

theorem naiveRowOps_statements (db : Db) (table : String) (columns uniqueKeys : List String)
    (rows : List Row) :
    ∀ pos, ∀ op ∈ naiveRowOps db table columns uniqueKeys pos rows, op.isStatement = true := by
  induction rows with
  | nil => intro pos op h; simp [naiveRowOps] at h
  | cons r rest ih =>
    intro pos op h
    simp only [naiveRowOps, List.mem_cons] at h
    rcases h with h | h | h
    · rw [h]; rfl
    · rw [h]
      cases db pos <;> rfl
    · exact ih (pos + 2) op h

theorem naiveRowOps_append (db : Db) (table : String) (columns uniqueKeys : List String)
    (a b : List Row) :
    ∀ pos, naiveRowOps db table columns uniqueKeys pos (a ++ b)
      = naiveRowOps db table columns uniqueKeys pos a
        ++ naiveRowOps db table columns uniqueKeys (pos + 2 * a.length) b := by
  induction a with
  | nil => intro pos; simp [naiveRowOps]
  | cons r rest ih =>
    intro pos
    have e : pos + 2 + 2 * rest.length = pos + 2 * (rest.length + 1) := by omega
    rw [List.cons_append, naiveRowOps, naiveRowOps, ih (pos + 2), List.length_cons, e]
    rfl

theorem message_row_prefix (q : String → String) (d : DbErr → String) (i : Nat) (inner : Err) :
    ("row " ++ fmtD i ++ ":").data
      <+: (Err.message q d (.wrap ("row " ++ fmtD i) inner)).data := by
  simp only [Err.message, String.data_append]
  exact ⟨' ' :: (Err.message q d inner).data, by simp⟩

theorem message_probe_prefix (q : String → String) (d : DbErr → String) (i : Nat) (inner : Err) :
    ("row " ++ fmtD i ++ ":").data
      <+: (Err.message q d (.wrap ("row " ++ fmtD i ++ ": check existing row") inner)).data := by
  simp only [Err.message, String.data_append]
  exact ⟨" check existing row".data ++ (':' :: ' ' :: (Err.message q d inner).data),
    by simp⟩

/-- The end of the row-by-row strategy after `BEGIN`: the loop has only sent statements; a
loop that ends well is followed by `COMMIT` (and by `ROLLBACK` when the commit fails), any
other loop by `ROLLBACK` alone. -/
theorem naiveUpsert_tail (U : UnicodeTables) (db : Db) (table : String)
    (columns : List String) (rows : List Row) (uniqueKeys : List String)
    (hn : validNames U table columns uniqueKeys) (hne : rows ≠ []) (hbegin : db 0 = none) :
    ∃ body, (∀ op ∈ body, op.isStatement = true)
      ∧ (((naiveRows db (quoted table) (probeText table uniqueKeys) (columns.map quoted) columns
            (columnIndexOf columns) uniqueKeys (uniqueKeys.map quoted) 0 rows [.begin]).1 = Ret.ok
          ∧ ((NaiveUpserter.Upsert U db [] table columns rows uniqueKeys).2
              = Op.begin :: (body ++ [Op.commit])
            ∨ (NaiveUpserter.Upsert U db [] table columns rows uniqueKeys).2
              = Op.begin :: (body ++ [Op.commit, Op.rollback])))
        ∨ ((naiveRows db (quoted table) (probeText table uniqueKeys) (columns.map quoted) columns
            (columnIndexOf columns) uniqueKeys (uniqueKeys.map quoted) 0 rows [.begin]).1 ≠ Ret.ok
          ∧ (NaiveUpserter.Upsert U db [] table columns rows uniqueKeys).2
              = Op.begin :: (body ++ [Op.rollback]))) := by
  obtain ⟨body, hbody, hst⟩ := naiveRows_body db (quoted table) (probeText table uniqueKeys)
    (columns.map quoted) columns (columnIndexOf columns) uniqueKeys (uniqueKeys.map quoted)
    rows 0 [.begin]
  refine ⟨body, hst, ?_⟩
  rw [naiveUpsert_begun U db table columns rows uniqueKeys hn hne hbegin]
  rcases hL : naiveRows db (quoted table) (probeText table uniqueKeys) (columns.map quoted)
    columns (columnIndexOf columns) uniqueKeys (uniqueKeys.map quoted) 0 rows [.begin]
    with ⟨ret, t⟩
  rw [hL] at hbody
  simp only at hbody
  subst hbody
  cases ret with
  | ok =>
    left
    refine ⟨rfl, ?_⟩
    simp only []
    cases db ([Op.begin] ++ body).length with
    | none => left; simp
    | some e => right; simp
  | err e => right; exact ⟨fun h => Ret.noConfusion h, by simp⟩
  | panic => right; exact ⟨fun h => Ret.noConfusion h, by simp⟩

theorem not_mem_statements (body : List Op) (hst : ∀ op ∈ body, op.isStatement = true)
    (o : Op) (ho : o.isStatement = false) : o ∉ body := by
  intro h
  rw [hst o h] at ho
  exact Bool.noConfusion ho

theorem naiveUpsert_probe_fails (U : UnicodeTables) (db : Db) (table : String)
    (columns uniqueKeys : List String) (good : List Row) (bad : Row) (rest : List Row)
    (code : Nat) (hn : validNames U table columns uniqueKeys) (hbegin : db 0 = none)
    (hgood : ∀ r ∈ good, r.length = columns.length) (hbad : bad.length = columns.length)
    (hrows : rowsSucceed db 1 good.length)
    (hdb : db (1 + 2 * good.length) = some (.other code)) :
    NaiveUpserter.Upsert U db [] table columns (good ++ bad :: rest) uniqueKeys
      = (Ret.err (.wrap ("row " ++ fmtD good.length ++ ": check existing row")
            (.driver (.other code))),
          Op.begin :: (naiveRowOps db table columns uniqueKeys 1 good
            ++ [Op.queryRow (probeText table uniqueKeys) (keyValues columns uniqueKeys bad),
              Op.rollback])) := by
  have hl : ([Op.begin] ++ naiveRowOps db table columns uniqueKeys [Op.begin].length good).length
      = 1 + 2 * good.length := by
    rw [List.length_append, naiveRowOps_length]
    rfl
  rw [naiveUpsert_begun U db table columns _ uniqueKeys hn (by simp) hbegin,
    naiveRows_good db table columns uniqueKeys hn.2.2.2.2 (bad :: rest) good 0 [Op.begin] hgood
      hrows,
    naiveRows_step db table columns uniqueKeys hn.2.2.2.2 _ bad rest _ hbad]
  simp only [hl, hdb, Nat.zero_add]
  simp [List.length_singleton]

theorem naiveUpsert_write_fails (U : UnicodeTables) (db : Db) (table : String)
    (columns uniqueKeys : List String) (good : List Row) (bad : Row) (rest : List Row)
    (e : DbErr) (hn : validNames U table columns uniqueKeys) (hbegin : db 0 = none)
    (hgood : ∀ r ∈ good, r.length = columns.length) (hbad : bad.length = columns.length)
    (hrows : rowsSucceed db 1 good.length)
    (hprobe : db (1 + 2 * good.length) = none ∨ db (1 + 2 * good.length) = some .noRows)
    (hdb : db (1 + 2 * good.length + 1) = some e) :
    NaiveUpserter.Upsert U db [] table columns (good ++ bad :: rest) uniqueKeys
      = (Ret.err (.wrap ("row " ++ fmtD good.length)
            (.wrap (match db (1 + 2 * good.length) with
              | none => "update row"
              | some _ => "insert row") (.driver e))),
          Op.begin :: (naiveRowOps db table columns uniqueKeys 1 (good ++ [bad])
            ++ [Op.rollback])) := by
  have hl : ([Op.begin] ++ naiveRowOps db table columns uniqueKeys [Op.begin].length good).length
      = 1 + 2 * good.length := by
    rw [List.length_append, naiveRowOps_length]
    rfl
  rw [naiveUpsert_begun U db table columns _ uniqueKeys hn (by simp) hbegin,
    naiveRows_good db table columns uniqueKeys hn.2.2.2.2 (bad :: rest) good 0 [Op.begin] hgood
      hrows,
    naiveRows_step db table columns uniqueKeys hn.2.2.2.2 _ bad rest _ hbad,
    naiveRowOps_append]
  rcases hprobe with hp | hp
  · simp only [hl, hp, hdb, Nat.zero_add]
    simp [List.length_singleton, naiveRowOps, hp]
  · simp only [hl, hp, hdb, Nat.zero_add]
    simp [List.length_singleton, naiveRowOps, hp]

/-- C12: once the names have passed validation and `BEGIN` has succeeded, `COMMIT` is sent if
and only if the row loop processed every row without error, and `COMMIT` or `ROLLBACK` has
been sent on every return. If the probe or the write of row `i` fails after the rows before
it succeeded, the trace is `BEGIN`, the statements of rows `0..i-1`, the statements of row `i`
up to the failing one, then `ROLLBACK`: nothing is sent for a later row, `COMMIT` is not sent,
and the returned error wraps the database error under a message that begins `row i:`. -/
theorem naiveUpsert_transaction (U : UnicodeTables) (db : Db) (table : String)
    (columns : List String) (rows : List Row) (uniqueKeys : List String)
    (hn : validNames U table columns uniqueKeys) (hne : rows ≠ []) (hbegin : db 0 = none) :
    (Op.commit ∈ (NaiveUpserter.Upsert U db [] table columns rows uniqueKeys).2
        ↔ (naiveRows db (quoted table) (probeText table uniqueKeys) (columns.map quoted) columns
            (columnIndexOf columns) uniqueKeys (uniqueKeys.map quoted) 0 rows [.begin]).1 = Ret.ok)
      ∧ (Op.commit ∈ (NaiveUpserter.Upsert U db [] table columns rows uniqueKeys).2
        ∨ Op.rollback ∈ (NaiveUpserter.Upsert U db [] table columns rows uniqueKeys).2)
      ∧ (∀ (good : List Row) (bad : Row) (rest : List Row) (code : Nat),
          rows = good ++ bad :: rest → (∀ r ∈ good, r.length = columns.length) →
          bad.length = columns.length → rowsSucceed db 1 good.length →
          db (1 + 2 * good.length) = some (.other code) →
          ∃ err, NaiveUpserter.Upsert U db [] table columns rows uniqueKeys
              = (Ret.err err,
                  Op.begin :: (naiveRowOps db table columns uniqueKeys 1 good
                    ++ [Op.queryRow (probeText table uniqueKeys)
                        (keyValues columns uniqueKeys bad), Op.rollback]))
            ∧ err.cause = some (.other code)
            ∧ (∀ q d, ("row " ++ fmtD good.length ++ ":").data <+: (err.message q d).data)
            ∧ Op.commit ∉ (NaiveUpserter.Upsert U db [] table columns rows uniqueKeys).2)
      ∧ (∀ (good : List Row) (bad : Row) (rest : List Row) (e : DbErr),
          rows = good ++ bad :: rest → (∀ r ∈ good, r.length = columns.length) →
          bad.length = columns.length → rowsSucceed db 1 good.length →
          (db (1 + 2 * good.length) = none ∨ db (1 + 2 * good.length) = some .noRows) →
          db (1 + 2 * good.length + 1) = some e →
          ∃ err, NaiveUpserter.Upsert U db [] table columns rows uniqueKeys
              = (Ret.err err,
                  Op.begin :: (naiveRowOps db table columns uniqueKeys 1 (good ++ [bad])
                    ++ [Op.rollback]))
            ∧ err.cause = some e
            ∧ (∀ q d, ("row " ++ fmtD good.length ++ ":").data <+: (err.message q d).data)
            ∧ Op.commit ∉ (NaiveUpserter.Upsert U db [] table columns rows uniqueKeys).2) := by
  have hnc : ∀ l : List Row, ∀ pos, ∀ extra : List Op, (∀ op ∈ extra, op ≠ Op.commit) →
      Op.commit ∉ Op.begin :: (naiveRowOps db table columns uniqueKeys pos l ++ extra) := by
    intro l pos extra hex hmem
    rcases List.mem_cons.mp hmem with h | h
    · exact Op.noConfusion h
    · rcases List.mem_append.mp h with h | h
      · exact not_mem_statements _ (naiveRowOps_statements db table columns uniqueKeys l pos)
          Op.commit rfl h
      · exact hex _ h rfl
  obtain ⟨body, hst, htail⟩ := naiveUpsert_tail U db table columns rows uniqueKeys hn hne hbegin
  have hcb : Op.commit ∉ body := not_mem_statements body hst Op.commit rfl
  refine ⟨?_, ?_, ?_, ?_⟩
  · rcases htail with ⟨hok, htr | htr⟩ | ⟨hnok, htr⟩
    · exact ⟨fun _ => hok, fun _ => by rw [htr]; simp⟩
    · exact ⟨fun _ => hok, fun _ => by rw [htr]; simp⟩
    · refine ⟨fun h => ?_, fun h => absurd h hnok⟩
      rw [htr] at h
      simp only [List.mem_cons, List.mem_append, List.mem_singleton, List.not_mem_nil,
        or_false] at h
      rcases h with h | h | h
      · exact Op.noConfusion h
      · exact absurd h hcb
      · exact Op.noConfusion h
  · rcases htail with ⟨_, htr | htr⟩ | ⟨_, htr⟩
    · left; rw [htr]; simp
    · left; rw [htr]; simp
    · right; rw [htr]; simp
  · intro good bad rest code hrows hgood hbad hsucc hdb
    subst hrows
    have hU := naiveUpsert_probe_fails U db table columns uniqueKeys good bad rest code hn hbegin
      hgood hbad hsucc hdb
    refine ⟨_, hU, rfl, fun q d => message_probe_prefix q d good.length _, ?_⟩
    rw [hU]
    apply hnc
    intro op hop
    simp only [List.mem_cons, List.mem_singleton, List.not_mem_nil, or_false] at hop
    rcases hop with h | h <;> rw [h] <;> exact fun hc => Op.noConfusion hc
  · intro good bad rest e hrows hgood hbad hsucc hprobe hdb
    subst hrows
    have hU := naiveUpsert_write_fails U db table columns uniqueKeys good bad rest e hn hbegin
      hgood hbad hsucc hprobe hdb
    refine ⟨_, hU, rfl, fun q d => message_row_prefix q d good.length _, ?_⟩
    rw [hU]
    apply hnc
    intro op hop
    simp only [List.mem_singleton] at hop
    rw [hop]
    exact fun hc => Op.noConfusion hc

/-- C12, witness: the two-row batch of the test with a database refusing operation 4, the
write of the second row: `BEGIN`, both probes and both writes, `ROLLBACK`, no `COMMIT`. -/
theorem naiveUpsert_transaction_witness :
    validNames latin1Tables "users" ["id", "name", "email"] ["id"]
      ∧ rowsSucceed failsFifthOp 1 [[Value.int 1, .str "John", .str "john@example.com"]].length
      ∧ ∃ err, NaiveUpserter.Upsert latin1Tables failsFifthOp [] "users" ["id", "name", "email"]
            [[.int 1, .str "John", .str "john@example.com"],
              [.int 2, .str "Jane", .str "jane@example.com"]] ["id"]
          = (Ret.err err,
              Op.begin :: (naiveRowOps failsFifthOp "users" ["id", "name", "email"] ["id"] 1
                ([[.int 1, .str "John", .str "john@example.com"]]
                  ++ [[.int 2, .str "Jane", .str "jane@example.com"]]) ++ [Op.rollback]))
        ∧ err.cause = some (.other 9)
        ∧ (∀ q d, ("row "
            ++ fmtD [[Value.int 1, .str "John", .str "john@example.com"]].length ++ ":").data
            <+: (err.message q d).data)
        ∧ Op.commit ∉ (NaiveUpserter.Upsert latin1Tables failsFifthOp [] "users"
            ["id", "name", "email"]
            [[.int 1, .str "John", .str "john@example.com"],
              [.int 2, .str "Jane", .str "jane@example.com"]] ["id"]).2 :=
  have hn : validNames latin1Tables "users" ["id", "name", "email"] ["id"] := by
    unfold validNames
    decide
  have hs : rowsSucceed failsFifthOp 1
      [[Value.int 1, .str "John", .str "john@example.com"]].length := by
    unfold rowsSucceed
    decide
  ⟨hn, hs, (naiveUpsert_transaction latin1Tables failsFifthOp "users" ["id", "name", "email"]
    [[.int 1, .str "John", .str "john@example.com"],
      [.int 2, .str "Jane", .str "jane@example.com"]] ["id"] hn (by decide) rfl).2.2.2
    [[.int 1, .str "John", .str "john@example.com"]]
    [.int 2, .str "Jane", .str "jane@example.com"] [] (.other 9) rfl (by decide) rfl hs
    (Or.inl rfl) rfl⟩

/-! ## Validation and the first database operation -/

theorem quoteColumns_error (U : UnicodeTables) (cols : List String)
    (h : ¬ ∀ c ∈ cols, isSafeIdentifier U c = true) :
    ∀ i m, ∃ e, quoteColumns U i cols m = .error e := by
  induction cols with
  | nil => exact absurd (fun c hc => absurd hc (List.not_mem_nil c)) h
  | cons c rest ih =>
    intro i m
    by_cases hc : isSafeIdentifier U c = true
    · have hrest : ¬ ∀ x ∈ rest, isSafeIdentifier U x = true := by
        intro hall
        apply h
        intro x hx
        rcases List.mem_cons.mp hx with hx | hx
        · rw [hx]; exact hc
        · exact hall x hx
      obtain ⟨e, he⟩ := ih hrest (i + 1) ((c, i) :: m)
      exact ⟨e, by simp only [quoteColumns, quoteIdentifier_safe U c hc, he]⟩
    · have hc' : isSafeIdentifier U c = false := by simpa using hc
      exact ⟨Err.wrap ("column[" ++ fmtD i ++ "]") (Err.invalidIdentifier c),
        by simp only [quoteColumns, quoteIdentifier, hc', Bool.not_false, if_true]⟩

theorem quoteUniqueKeys_error (U : UnicodeTables) (columns keys : List String)
    (h : ¬ ∀ k ∈ keys, k ∈ columns) :
    ∃ e, quoteUniqueKeys U (columnIndexOf columns) keys = .error e := by
  induction keys with
  | nil => exact absurd (fun k hk => absurd hk (List.not_mem_nil k)) h
  | cons k rest ih =>
    by_cases hk : k ∈ columns
    · have hrest : ¬ ∀ x ∈ rest, x ∈ columns := by
        intro hall
        apply h
        intro x hx
        rcases List.mem_cons.mp hx with hx | hx
        · rw [hx]; exact hk
        · exact hall x hx
      obtain ⟨e, he⟩ := ih hrest
      obtain ⟨j, hj, _⟩ := lookup_columnIndexOf columns k hk
      cases hq : quoteIdentifier U k with
      | error e2 => exact ⟨Err.wrapKey k e2, by simp only [quoteUniqueKeys, hj, hq]⟩
      | ok quotedKey => exact ⟨e, by simp only [quoteUniqueKeys, hj, hq, he]⟩
    · have hl : List.lookup k (columnIndexOf columns) = none :=
        (lookup_columnIndexFrom k columns 0 []).2 hk
      exact ⟨Err.keyNotFound k, by simp only [quoteUniqueKeys, hl]⟩

theorem quoteWhereKeys_error (U : UnicodeTables) (columns keys : List String)
    (h : ¬ ∀ k ∈ keys, k ∈ columns) :
    ∀ i, ∃ e, quoteWhereKeys U (columnIndexOf columns) i keys = .error e := by
  induction keys with
  | nil => exact absurd (fun k hk => absurd hk (List.not_mem_nil k)) h
  | cons k rest ih =>
    intro i
    by_cases hk : k ∈ columns
    · have hrest : ¬ ∀ x ∈ rest, x ∈ columns := by
        intro hall
        apply h
        intro x hx
        rcases List.mem_cons.mp hx with hx | hx
        · rw [hx]; exact hk
        · exact hall x hx
      obtain ⟨e, he⟩ := ih hrest (i + 1)
      obtain ⟨j, hj, _⟩ := lookup_columnIndexOf columns k hk
      cases hq : quoteIdentifier U k with
      | error e2 => exact ⟨Err.wrapKey k e2, by simp only [quoteWhereKeys, hj, hq]⟩
      | ok quotedKey => exact ⟨e, by simp only [quoteWhereKeys, hj, hq, he]⟩
    · have hl : List.lookup k (columnIndexOf columns) = none :=
        (lookup_columnIndexFrom k columns 0 []).2 hk
      exact ⟨Err.keyNotFound k, by simp only [quoteWhereKeys, hl]⟩

theorem not_validNames_cases (U : UnicodeTables) (table : String)
    (columns uniqueKeys : List String) (h : ¬ validNames U table columns uniqueKeys)
    (hc : ¬ columns.length = 0) (hu : ¬ uniqueKeys.length = 0) :
    isSafeIdentifier U table = false
      ∨ (isSafeIdentifier U table = true ∧ ¬ ∀ c ∈ columns, isSafeIdentifier U c = true)
      ∨ (isSafeIdentifier U table = true ∧ (∀ c ∈ columns, isSafeIdentifier U c = true)
          ∧ ¬ ∀ k ∈ uniqueKeys, k ∈ columns) := by
  by_cases ht : isSafeIdentifier U table = true
  · by_cases hcs : ∀ c ∈ columns, isSafeIdentifier U c = true
    · right; right
      refine ⟨ht, hcs, fun hsub => h ⟨?_, ?_, ht, hcs, hsub⟩⟩
      · exact fun hn => hc (by rw [hn]; rfl)
      · exact fun hn => hu (by rw [hn]; rfl)
    · right; left
      exact ⟨ht, hcs⟩
  · left
    simpa using ht

/-- When the names of a call fail validation the Bulk strategy sends nothing. -/
theorem hashUpsert_invalid_names (U : UnicodeTables) (db : Db) (tr : List Op) (table : String)
    (columns : List String) (rows : List Row) (uniqueKeys : List String)
    (h : ¬ validNames U table columns uniqueKeys) :
    ∃ r, HashIndexedUpserter.Upsert U db tr table columns rows uniqueKeys = (r, tr)
      ∧ (rows ≠ [] → ∃ e, r = Ret.err e) := by
  unfold HashIndexedUpserter.Upsert
  by_cases h1 : columns.length = 0
  · simp only [h1, if_true]
    exact ⟨_, rfl, fun _ => ⟨_, rfl⟩⟩
  · by_cases h2 : uniqueKeys.length = 0
    · simp only [h1, h2, if_false, if_true]
      exact ⟨_, rfl, fun _ => ⟨_, rfl⟩⟩
    · by_cases h3 : rows.length = 0
      · simp only [h1, h2, h3, if_false, if_true]
        exact ⟨_, rfl, fun hr => absurd (List.length_eq_zero.mp h3) hr⟩
      · simp only [h1, h2, h3, if_false]
        rcases not_validNames_cases U table columns uniqueKeys h h1 h2 with
          ht | ⟨ht, hcs⟩ | ⟨ht, hcs, hsub⟩
        · simp only [quoteIdentifier, ht, Bool.not_false, if_true]
          exact ⟨_, rfl, fun _ => ⟨_, rfl⟩⟩
        · obtain ⟨e, he⟩ := quoteColumns_error U columns hcs 0 []
          simp only [quoteIdentifier_safe U table ht, he]
          exact ⟨_, rfl, fun _ => ⟨_, rfl⟩⟩
        · obtain ⟨e, he⟩ := quoteUniqueKeys_error U columns uniqueKeys hsub
          have hcols : quoteColumns U 0 columns []
              = .ok (columns.map quoted, columnIndexOf columns) := quoteColumns_ok U columns hcs 0 []
          simp only [quoteIdentifier_safe U table ht, hcols, he]
          exact ⟨_, rfl, fun _ => ⟨_, rfl⟩⟩

/-- When the names of a call fail validation the row-by-row strategy sends nothing. -/
theorem naiveUpsert_invalid_names (U : UnicodeTables) (db : Db) (tr : List Op) (table : String)
    (columns : List String) (rows : List Row) (uniqueKeys : List String)
    (h : ¬ validNames U table columns uniqueKeys) :
    ∃ r, NaiveUpserter.Upsert U db tr table columns rows uniqueKeys = (r, tr)
      ∧ (rows ≠ [] → ∃ e, r = Ret.err e) := by
  unfold NaiveUpserter.Upsert
  by_cases h1 : columns.length = 0
  · simp only [h1, if_true]
    exact ⟨_, rfl, fun _ => ⟨_, rfl⟩⟩
  · by_cases h2 : uniqueKeys.length = 0
    · simp only [h1, h2, if_false, if_true]
      exact ⟨_, rfl, fun _ => ⟨_, rfl⟩⟩
    · by_cases h3 : rows.length = 0
      · simp only [h1, h2, h3, if_false, if_true]
        exact ⟨_, rfl, fun hr => absurd (List.length_eq_zero.mp h3) hr⟩
      · simp only [h1, h2, h3, if_false]
        rcases not_validNames_cases U table columns uniqueKeys h h1 h2 with
          ht | ⟨ht, hcs⟩ | ⟨ht, hcs, hsub⟩
        · simp only [quoteIdentifier, ht, Bool.not_false, if_true]
          exact ⟨_, rfl, fun _ => ⟨_, rfl⟩⟩
        · obtain ⟨e, he⟩ := quoteColumns_error U columns hcs 0 []
          simp only [quoteIdentifier_safe U table ht, he]
          exact ⟨_, rfl, fun _ => ⟨_, rfl⟩⟩
        · obtain ⟨e, he⟩ := quoteWhereKeys_error U columns uniqueKeys hsub 0
          have hcols : quoteColumns U 0 columns []
              = .ok (columns.map quoted, columnIndexOf columns) := quoteColumns_ok U columns hcs 0 []
          simp only [quoteIdentifier_safe U table ht, hcols, he]
          exact ⟨_, rfl, fun _ => ⟨_, rfl⟩⟩

theorem chunksOf_cons (s : Nat) (hs : 0 < s) (rows : List Row) (hne : rows ≠ []) :
    ∃ c0 cs, chunksOf s rows = c0 :: cs ∧ c0 ≠ [] := by
  have hlt : 0 < rows.length := List.length_pos.mpr hne
  have hall := chunksOf_forall s rows hs
  rw [chunksOf_eq_chunksFrom] at hall ⊢
  rw [chunkCount_succ rows.length s 0 hs hlt, chunksFrom] at hall ⊢
  exact ⟨_, _, rfl, (hall _ (List.mem_cons_self _ _)).1⟩

theorem batched_nonpositive_trace (U : UnicodeTables) (db : Db) (batchSize : Int)
    (tr : List Op) (table : String) (columns : List String) (rows : List Row)
    (uniqueKeys : List String) (hs : batchSize ≤ 0) :
    ∃ r, BatchedHashIndexedUpserter.Upsert U db batchSize tr table columns rows uniqueKeys
        = some (r, tr, [])
      ∧ (rows ≠ [] → ∃ e, r = Ret.err e) := by
  unfold BatchedHashIndexedUpserter.Upsert
  by_cases h1 : columns.length = 0
  · simp only [h1, if_true]
    exact ⟨_, rfl, fun _ => ⟨_, rfl⟩⟩
  · by_cases h2 : uniqueKeys.length = 0
    · simp only [h1, h2, if_false, if_true]
      exact ⟨_, rfl, fun _ => ⟨_, rfl⟩⟩
    · by_cases h3 : rows.length = 0
      · simp only [h1, h2, h3, if_false, if_true]
        exact ⟨_, rfl, fun hr => absurd (List.length_eq_zero.mp h3) hr⟩
      · simp only [h1, h2, h3, hs, if_false, if_true]
        exact ⟨_, rfl, fun _ => ⟨_, rfl⟩⟩

/-- When the names of a call fail validation the Chunked strategy sends nothing. -/
theorem batched_invalid_names (U : UnicodeTables) (db : Db) (batchSize : Int) (tr : List Op)
    (table : String) (columns : List String) (rows : List Row) (uniqueKeys : List String)
    (h : ¬ validNames U table columns uniqueKeys) :
    ∃ r calls, BatchedHashIndexedUpserter.Upsert U db batchSize tr table columns rows uniqueKeys
        = some (r, tr, calls)
      ∧ (rows ≠ [] → ∃ e, r = Ret.err e) := by
  by_cases hs : batchSize ≤ 0
  · obtain ⟨r, hr, he⟩ := batched_nonpositive_trace U db batchSize tr table columns rows
      uniqueKeys hs
    exact ⟨r, [], hr, he⟩
  · by_cases h1 : columns.length = 0
    · unfold BatchedHashIndexedUpserter.Upsert
      simp only [h1, if_true]
      exact ⟨_, _, rfl, fun _ => ⟨_, rfl⟩⟩
    · by_cases h2 : uniqueKeys.length = 0
      · unfold BatchedHashIndexedUpserter.Upsert
        simp only [h1, h2, if_false, if_true]
        exact ⟨_, _, rfl, fun _ => ⟨_, rfl⟩⟩
      · by_cases h3 : rows = []
        · subst h3
          unfold BatchedHashIndexedUpserter.Upsert
          simp only [h1, h2, if_false, List.length_nil, if_true]
          exact ⟨_, _, rfl, fun hr => absurd rfl hr⟩
        · have hpos : 0 < batchSize.toNat := by omega
          have hcast : ((batchSize.toNat : Nat) : Int) = batchSize :=
            Int.toNat_of_nonneg (by omega)
          obtain ⟨c0, cs, hch, hc0⟩ := chunksOf_cons batchSize.toNat hpos rows h3
          obtain ⟨r, hr, he⟩ := hashUpsert_invalid_names U db tr table columns c0 uniqueKeys h
          obtain ⟨e, hre⟩ := he hc0
          subst hre
          rw [← hcast, batched_eq_run U db _ hpos tr table columns rows uniqueKeys
            (fun hn => h1 (by rw [hn]; rfl)) (fun hn => h2 (by rw [hn]; rfl)), hch, runChunks, hr]
          exact ⟨_, _, rfl, fun _ => ⟨_, rfl⟩⟩

theorem runChunks_prefix (U : UnicodeTables) (db : Db) (table : String)
    (columns uniqueKeys : List String) :
    ∀ chunks tr calls, tr <+: (runChunks U db table columns uniqueKeys chunks tr calls).2.1 := by
  intro chunks
  induction chunks with
  | nil => intro tr calls; exact List.prefix_refl _
  | cons c cs ih =>
    intro tr calls
    have hp := hashUpsert_prefix U db tr table columns c uniqueKeys
    rw [runChunks]
    rcases hU : HashIndexedUpserter.Upsert U db tr table columns c uniqueKeys with ⟨ret, t1⟩
    rw [hU] at hp
    cases ret with
    | ok => exact hp.trans (ih t1 _)
    | err e => exact hp
    | panic => exact hp

/-- With valid names and a non-empty batch the Bulk strategy sends `CREATE UNIQUE INDEX`
before it looks at any row. -/
theorem hashUpsert_first_op (U : UnicodeTables) (db : Db) (tr : List Op) (table : String)
    (columns : List String) (rows : List Row) (uniqueKeys : List String)
    (hn : validNames U table columns uniqueKeys) (hne : rows ≠ []) :
    ∃ rest, (HashIndexedUpserter.Upsert U db tr table columns rows uniqueKeys).2
      = tr ++ createOp U table uniqueKeys :: rest := by
  obtain ⟨hc, hu, ht, hcs, hsub⟩ := hn
  have h1 : ¬ columns.length = 0 := fun h => hc (List.length_eq_zero.mp h)
  have h2 : ¬ uniqueKeys.length = 0 := fun h => hu (List.length_eq_zero.mp h)
  have h3 : ¬ rows.length = 0 := fun h => hne (List.length_eq_zero.mp h)
  have hcols : quoteColumns U 0 columns [] = .ok (columns.map quoted, columnIndexOf columns) :=
    quoteColumns_ok U columns hcs 0 []
  unfold HashIndexedUpserter.Upsert
  simp only [h1, h2, h3, if_false, quoteIdentifier_safe U table ht, hcols,
    quoteUniqueKeys_ok U columns uniqueKeys hcs hsub, ensureUniqueIndex_eq]
  cases db tr.length with
  | some e => exact ⟨[], rfl⟩
  | none =>
    simp only []
    split
    · exact ⟨[], rfl⟩
    · exact ⟨[], rfl⟩
    · split
      · exact ⟨[], rfl⟩
      · split
        · exact ⟨_, List.append_assoc _ _ _⟩
        · exact ⟨_, List.append_assoc _ _ _⟩

/-- With valid names and a non-empty batch the row-by-row strategy sends `BEGIN` before it
looks at any row. -/
theorem naiveUpsert_first_op (U : UnicodeTables) (db : Db) (table : String)
    (columns : List String) (rows : List Row) (uniqueKeys : List String)
    (hn : validNames U table columns uniqueKeys) (hne : rows ≠ []) :
    ∃ rest, (NaiveUpserter.Upsert U db [] table columns rows uniqueKeys).2 = Op.begin :: rest := by
  cases hb : db 0 with
  | none =>
    obtain ⟨body, _, h⟩ := naiveUpsert_tail U db table columns rows uniqueKeys hn hne hb
    rcases h with ⟨_, h | h⟩ | ⟨_, h⟩
    · exact ⟨_, h⟩
    · exact ⟨_, h⟩
    · exact ⟨_, h⟩
  | some e =>
    obtain ⟨hc, hu, ht, hcs, hsub⟩ := hn
    have h1 : ¬ columns.length = 0 := fun h => hc (List.length_eq_zero.mp h)
    have h2 : ¬ uniqueKeys.length = 0 := fun h => hu (List.length_eq_zero.mp h)
    have h3 : ¬ rows.length = 0 := fun h => hne (List.length_eq_zero.mp h)
    have hcols : quoteColumns U 0 columns [] = .ok (columns.map quoted, columnIndexOf columns) :=
      quoteColumns_ok U columns hcs 0 []
    unfold NaiveUpserter.Upsert
    simp only [h1, h2, h3, if_false, quoteIdentifier_safe U table ht, hcols,
      quoteWhereKeys_ok U columns uniqueKeys hcs hsub 0, List.length_nil, hb]
    exact ⟨[], rfl⟩

/-- With valid names, a non-empty batch and a positive batch size the Chunked strategy sends
`CREATE UNIQUE INDEX` before it looks at any row. -/
theorem batched_first_op (U : UnicodeTables) (db : Db) (s : Nat) (hs : 0 < s) (table : String)
    (columns : List String) (rows : List Row) (uniqueKeys : List String)
    (hn : validNames U table columns uniqueKeys) (hne : rows ≠ []) :
    ∃ r rest calls,
      BatchedHashIndexedUpserter.Upsert U db (s : Int) [] table columns rows uniqueKeys
        = some (r, createOp U table uniqueKeys :: rest, calls) := by
  obtain ⟨c0, cs, hch, hc0⟩ := chunksOf_cons s hs rows hne
  obtain ⟨rest0, h0⟩ := hashUpsert_first_op U db [] table columns c0 uniqueKeys hn hc0
  rw [batched_eq_run U db s hs [] table columns rows uniqueKeys hn.1 hn.2.1, hch, runChunks]
  rcases hU : HashIndexedUpserter.Upsert U db [] table columns c0 uniqueKeys with ⟨ret, t1⟩
  rw [hU] at h0
  simp only [List.nil_append] at h0
  subst h0
  cases ret with
  | ok =>
    obtain ⟨more, hmore⟩ := runChunks_prefix U db table columns uniqueKeys cs
      (createOp U table uniqueKeys :: rest0) ([] ++ [c0])
    simp only []
    rcases hR : runChunks U db table columns uniqueKeys cs
      (createOp U table uniqueKeys :: rest0) ([] ++ [c0]) with ⟨r, t, calls⟩
    rw [hR] at hmore
    simp only at hmore
    exact ⟨r, rest0 ++ more, calls, by rw [← hmore]; rfl⟩
  | err e => exact ⟨_, _, _, rfl⟩
  | panic => exact ⟨_, _, _, rfl⟩

/-! ## Validation errors reach no database -/

/-- C13, counterexample: with three columns and the single row `[1, John]` the length
mismatch is reported after the database has been contacted: the row-by-row strategy has sent
`BEGIN` and `ROLLBACK`, the Bulk and Chunked strategies have sent `CREATE UNIQUE INDEX`. -/
theorem validation_mismatch_after_database :
    NaiveUpserter.Upsert latin1Tables (fun _ => none) [] "users" ["id", "name", "email"]
        [[.int 1, .str "John"]] ["id"]
      = (Ret.err (.new "row 0: columns (3) and values (2) length mismatch"),
          [.begin, .rollback])
    ∧ HashIndexedUpserter.Upsert latin1Tables (fun _ => none) [] "users"
        ["id", "name", "email"] [[.int 1, .str "John"]] ["id"]
      = (Ret.err (.new "row 0: columns (3) and values (2) length mismatch"),
          [.exec "CREATE UNIQUE INDEX IF NOT EXISTS \"idx_de7ebd7b26552dfc\" ON \"users\" (\"id\")"
            []])
    ∧ BatchedHashIndexedUpserter.Upsert latin1Tables (fun _ => none) 10 [] "users"
        ["id", "name", "email"] [[.int 1, .str "John"]] ["id"]
      = some (Ret.err (.new "row 0: columns (3) and values (2) length mismatch"),
          [.exec "CREATE UNIQUE INDEX IF NOT EXISTS \"idx_de7ebd7b26552dfc\" ON \"users\" (\"id\")"
            []], [[[.int 1, .str "John"]]]) := by
  decide!

/-- C13, amended: for each of the three strategies, a call whose names fail validation (empty
column list, empty unique-key list, a unique key not found among the columns, an invalid
table, column or key identifier) returns with nothing sent to the database, and so does a
Chunked call with a non-positive chunk size; on a non-empty batch the value returned is an
error. A call with valid names and a non-empty batch sends `BEGIN` (row-by-row) or
`CREATE UNIQUE INDEX` (Bulk, and Chunked with a positive size) first, whatever the lengths
of its rows, so a row of the wrong length is reported only after that operation. -/
theorem validation_before_database (U : UnicodeTables) (db : Db) (batchSize : Int)
    (table : String) (columns : List String) (rows : List Row) (uniqueKeys : List String) :
    (¬ validNames U table columns uniqueKeys →
      (∃ r, NaiveUpserter.Upsert U db [] table columns rows uniqueKeys = (r, [])
        ∧ (rows ≠ [] → ∃ e, r = Ret.err e))
      ∧ (∃ r, HashIndexedUpserter.Upsert U db [] table columns rows uniqueKeys = (r, [])
        ∧ (rows ≠ [] → ∃ e, r = Ret.err e))
      ∧ (∃ r calls, BatchedHashIndexedUpserter.Upsert U db batchSize [] table columns rows
            uniqueKeys = some (r, [], calls)
        ∧ (rows ≠ [] → ∃ e, r = Ret.err e)))
    ∧ (batchSize ≤ 0 →
      ∃ r, BatchedHashIndexedUpserter.Upsert U db batchSize [] table columns rows uniqueKeys
          = some (r, [], [])
        ∧ (rows ≠ [] → ∃ e, r = Ret.err e))
    ∧ (validNames U table columns uniqueKeys → rows ≠ [] →
      (∃ rest, (NaiveUpserter.Upsert U db [] table columns rows uniqueKeys).2
          = Op.begin :: rest)
      ∧ (∃ rest, (HashIndexedUpserter.Upsert U db [] table columns rows uniqueKeys).2
          = createOp U table uniqueKeys :: rest)
      ∧ (0 < batchSize → ∃ r rest calls,
          BatchedHashIndexedUpserter.Upsert U db batchSize [] table columns rows uniqueKeys
            = some (r, createOp U table uniqueKeys :: rest, calls))) := by
  refine ⟨fun h => ⟨?_, ?_, ?_⟩, fun hs => ?_, fun hn hne => ⟨?_, ?_, fun hs => ?_⟩⟩
  · exact naiveUpsert_invalid_names U db [] table columns rows uniqueKeys h
  · exact hashUpsert_invalid_names U db [] table columns rows uniqueKeys h
  · exact batched_invalid_names U db batchSize [] table columns rows uniqueKeys h
  · exact batched_nonpositive_trace U db batchSize [] table columns rows uniqueKeys hs
  · exact naiveUpsert_first_op U db table columns rows uniqueKeys hn hne
  · obtain ⟨rest, h⟩ := hashUpsert_first_op U db [] table columns rows uniqueKeys hn hne
    exact ⟨rest, by rw [h]; rfl⟩
  · have hpos : 0 < batchSize.toNat := by omega
    have hcast : ((batchSize.toNat : Nat) : Int) = batchSize := Int.toNat_of_nonneg (by omega)
    rw [← hcast]
    exact batched_first_op U db batchSize.toNat hpos table columns rows uniqueKeys hn hne

/-- C13, witness: the table name `1user` fails validation, and each strategy returns an
error with an empty trace; with the valid names `users`, `id`, `name` the first operation of
the row-by-row strategy is `BEGIN`. -/
theorem validation_before_database_witness :
    ¬ validNames latin1Tables "1user" ["id", "name"] ["id"]
      ∧ (NaiveUpserter.Upsert latin1Tables (fun _ => none) [] "1user" ["id", "name"]
          [[.int 1, .str "John"]] ["id"]).2 = []
      ∧ (HashIndexedUpserter.Upsert latin1Tables (fun _ => none) [] "1user" ["id", "name"]
          [[.int 1, .str "John"]] ["id"]).2 = []
      ∧ (∃ r calls, BatchedHashIndexedUpserter.Upsert latin1Tables (fun _ => none) 0 []
          "1user" ["id", "name"] [[.int 1, .str "John"]] ["id"] = some (r, [], calls))
      ∧ validNames latin1Tables "users" ["id", "name"] ["id"]
      ∧ (∃ rest, (NaiveUpserter.Upsert latin1Tables (fun _ => none) [] "users" ["id", "name"]
          [[.int 1, .str "John"]] ["id"]).2 = Op.begin :: rest) :=
  have hbad : ¬ validNames latin1Tables "1user" ["id", "name"] ["id"] :=
    fun h => absurd h.2.2.1 (by decide)
  have hgood : validNames latin1Tables "users" ["id", "name"] ["id"] := by
    unfold validNames
    decide
  have h1 := (validation_before_database latin1Tables (fun _ => none) 0 "1user" ["id", "name"]
    [[.int 1, .str "John"]] ["id"]).1 hbad
  have h2 := (validation_before_database latin1Tables (fun _ => none) 0 "users" ["id", "name"]
    [[.int 1, .str "John"]] ["id"]).2.2 hgood (by decide)
  ⟨hbad,
    (by obtain ⟨r, h, _⟩ := h1.1; rw [h]),
    (by obtain ⟨r, h, _⟩ := h1.2.1; rw [h]),
    (by obtain ⟨r, calls, h, _⟩ := h1.2.2; exact ⟨r, calls, h⟩),
    hgood, h2.1⟩

/-! ## One chunk holding the whole batch -/

theorem sliceRows_all (rows : List Row) (s : Nat) (h : rows.length ≤ s) :
    sliceRows rows 0 (min (0 + s) rows.length) = rows := by
  unfold sliceRows
  rw [Nat.zero_add, Nat.min_eq_right h, List.take_length, List.drop_zero]

/-- C24: when the batch size is at least `max(1, len(rows))`, the Chunked strategy returns the
result of the Bulk strategy on the same arguments and has sent exactly the same operations,
whatever the database answers and whether or not the call is valid. -/
theorem batched_single_chunk (U : UnicodeTables) (db : Db) (batchSize : Int) (tr : List Op)
    (table : String) (columns : List String) (rows : List Row) (uniqueKeys : List String)
    (hs : max 1 (rows.length : Int) ≤ batchSize) :
    ∃ calls, BatchedHashIndexedUpserter.Upsert U db batchSize tr table columns rows uniqueKeys
      = some ((HashIndexedUpserter.Upsert U db tr table columns rows uniqueKeys).1,
          (HashIndexedUpserter.Upsert U db tr table columns rows uniqueKeys).2, calls) := by
  have hpos : ¬ batchSize ≤ 0 := by omega
  have hle : rows.length ≤ batchSize.toNat := by omega
  by_cases h1 : columns.length = 0
  · unfold BatchedHashIndexedUpserter.Upsert HashIndexedUpserter.Upsert
    simp only [h1, if_true]
    exact ⟨_, rfl⟩
  · by_cases h2 : uniqueKeys.length = 0
    · unfold BatchedHashIndexedUpserter.Upsert HashIndexedUpserter.Upsert
      simp only [h1, h2, if_false, if_true]
      exact ⟨_, rfl⟩
    · by_cases h3 : rows.length = 0
      · unfold BatchedHashIndexedUpserter.Upsert HashIndexedUpserter.Upsert
        simp only [h1, h2, h3, if_false, if_true]
        exact ⟨_, rfl⟩
      · obtain ⟨n, hn⟩ : ∃ n, rows.length = n + 1 := ⟨rows.length - 1, by omega⟩
        have hlt : 0 < rows.length := by omega
        have hstop : ¬ 0 + batchSize.toNat < rows.length := by omega
        unfold BatchedHashIndexedUpserter.Upsert
        simp only [h1, h2, h3, hpos, if_false]
        rw [hn, batchLoop]
        simp only [← hn, hlt, if_true, sliceRows_all rows batchSize.toNat hle]
        rcases hU : HashIndexedUpserter.Upsert U db tr table columns rows uniqueKeys with ⟨r, t⟩
        cases r with
        | ok =>
          simp only []
          rw [hn, batchLoop]
          simp only [← hn, hstop, if_false]
          exact ⟨_, rfl⟩
        | err e => exact ⟨_, rfl⟩
        | panic => exact ⟨_, rfl⟩

/-- C24, witness: two rows with batch size 2 and with batch size 10 give the two statements
of the Bulk strategy. -/
theorem batched_single_chunk_witness :
    max 1 (([[Value.int 1, .str "John"], [.int 2, .str "Jane"]] : List Row).length : Int) ≤ 2
      ∧ ∃ calls, BatchedHashIndexedUpserter.Upsert latin1Tables (fun _ => none) 2 [] "users"
          ["id", "name"] [[.int 1, .str "John"], [.int 2, .str "Jane"]] ["id"]
        = some ((HashIndexedUpserter.Upsert latin1Tables (fun _ => none) [] "users"
            ["id", "name"] [[.int 1, .str "John"], [.int 2, .str "Jane"]] ["id"]).1,
          (HashIndexedUpserter.Upsert latin1Tables (fun _ => none) [] "users"
            ["id", "name"] [[.int 1, .str "John"], [.int 2, .str "Jane"]] ["id"]).2, calls) :=
  ⟨by decide, batched_single_chunk latin1Tables (fun _ => none) 2 [] "users" ["id", "name"]
    [[.int 1, .str "John"], [.int 2, .str "Jane"]] ["id"] (by decide)⟩

/-! ## No index out of range -/

theorem checkRows_no_panic (columns uniqueKeys : List String)
    (hsub : ∀ k ∈ uniqueKeys, k ∈ columns) :
    ∀ (rows : List Row) (idx : Nat) (seen : GoMap),
      checkRows columns uniqueKeys (columnIndexOf columns) idx rows seen ≠ Ret.panic := by
  intro rows
  induction rows with
  | nil => intro idx seen; simp [checkRows]
  | cons r rest ih =>
    intro idx seen
    rw [checkRows]
    by_cases hlen : r.length = columns.length
    · obtain ⟨key, hkey⟩ := compositeKeyLoop_some columns r hlen uniqueKeys hsub 0 ""
      simp only [hlen, ne_eq, not_true_eq_false, if_false, compositeKey, hkey]
      cases List.lookup key seen with
      | some prev => simp
      | none => exact ih _ _
    · simp [hlen]

theorem checkRows_ok_length (columns uniqueKeys : List String) (columnIndex : GoMap) :
    ∀ (rows : List Row) (idx : Nat) (seen : GoMap),
      checkRows columns uniqueKeys columnIndex idx rows seen = Ret.ok →
      ∀ r ∈ rows, r.length = columns.length := by
  intro rows
  induction rows with
  | nil => intro idx seen _ r hr; simp at hr
  | cons r rest ih =>
    intro idx seen h
    rw [checkRows] at h
    by_cases hlen : r.length = columns.length
    · simp only [hlen, ne_eq, not_true_eq_false, if_false] at h
      cases hk : compositeKey r uniqueKeys columnIndex with
      | none => rw [hk] at h; simp at h
      | some key =>
        rw [hk] at h
        simp only at h
        cases hl : List.lookup key seen with
        | some prev => rw [hl] at h; simp at h
        | none =>
          rw [hl] at h
          intro x hx
          rcases List.mem_cons.mp hx with rfl | hx
          · exact hlen
          · exact ih _ _ h x hx
    · simp [hlen] at h

theorem hashUpsert_no_panic (U : UnicodeTables) (db : Db) (tr : List Op) (table : String)
    (columns : List String) (rows : List Row) (uniqueKeys : List String) :
    (HashIndexedUpserter.Upsert U db tr table columns rows uniqueKeys).1 ≠ Ret.panic := by
  by_cases hr : rows = []
  · subst hr
    unfold HashIndexedUpserter.Upsert
    simp only [List.length_nil, if_true]
    split
    · simp
    · split <;> simp
  · by_cases hn : validNames U table columns uniqueKeys
    · obtain ⟨hc, hu, ht, hcs, hsub⟩ := hn
      have h1 : ¬ columns.length = 0 := fun h => hc (List.length_eq_zero.mp h)
      have h2 : ¬ uniqueKeys.length = 0 := fun h => hu (List.length_eq_zero.mp h)
      have h3 : ¬ rows.length = 0 := fun h => hr (List.length_eq_zero.mp h)
      have hcols : quoteColumns U 0 columns [] = .ok (columns.map quoted, columnIndexOf columns) :=
        quoteColumns_ok U columns hcs 0 []
      unfold HashIndexedUpserter.Upsert
      simp only [h1, h2, h3, if_false, quoteIdentifier_safe U table ht, hcols,
        quoteUniqueKeys_ok U columns uniqueKeys hcs hsub, ensureUniqueIndex_eq]
      cases db tr.length with
      | some e => simp
      | none =>
        simp only []
        have hnp := checkRows_no_panic columns uniqueKeys hsub rows 0 []
        cases hcr : checkRows columns uniqueKeys (columnIndexOf columns) 0 rows [] with
        | panic => exact absurd hcr hnp
        | err e => simp
        | ok =>
          simp only []
          rw [buildPlaceholders_eq columns rows
            (checkRows_ok_length columns uniqueKeys _ rows 0 [] hcr) 1]
          simp only []
          split <;> simp
    · obtain ⟨r, h, he⟩ := hashUpsert_invalid_names U db tr table columns rows uniqueKeys hn
      obtain ⟨e, rfl⟩ := he hr
      rw [h]
      simp

theorem runChunks_no_panic (U : UnicodeTables) (db : Db) (table : String)
    (columns uniqueKeys : List String) :
    ∀ chunks tr calls, (runChunks U db table columns uniqueKeys chunks tr calls).1 ≠ Ret.panic := by
  intro chunks
  induction chunks with
  | nil => intro tr calls; simp [runChunks]
  | cons c cs ih =>
    intro tr calls
    have hp := hashUpsert_no_panic U db tr table columns c uniqueKeys
    rw [runChunks]
    rcases hU : HashIndexedUpserter.Upsert U db tr table columns c uniqueKeys with ⟨ret, t1⟩
    rw [hU] at hp
    cases ret with
    | ok => exact ih t1 _
    | err e => simp
    | panic => exact absurd rfl hp

theorem batched_no_panic (U : UnicodeTables) (db : Db) (batchSize : Int) (tr : List Op)
    (table : String) (columns : List String) (rows : List Row) (uniqueKeys : List String) :
    ∃ r t calls, BatchedHashIndexedUpserter.Upsert U db batchSize tr table columns rows uniqueKeys
        = some (r, t, calls) ∧ r ≠ Ret.panic := by
  by_cases h1 : columns.length = 0
  · unfold BatchedHashIndexedUpserter.Upsert
    simp only [h1, if_true]
    exact ⟨_, _, _, rfl, by simp⟩
  · by_cases h2 : uniqueKeys.length = 0
    · unfold BatchedHashIndexedUpserter.Upsert
      simp only [h1, h2, if_false, if_true]
      exact ⟨_, _, _, rfl, by simp⟩
    · by_cases h3 : rows.length = 0
      · unfold BatchedHashIndexedUpserter.Upsert
        simp only [h1, h2, h3, if_false, if_true]
        exact ⟨_, _, _, rfl, by simp⟩
      · by_cases hs : batchSize ≤ 0
        · unfold BatchedHashIndexedUpserter.Upsert
          simp only [h1, h2, h3, hs, if_false, if_true]
          exact ⟨_, _, _, rfl, by simp⟩
        · have hpos : 0 < batchSize.toNat := by omega
          have hcast : ((batchSize.toNat : Nat) : Int) = batchSize :=
            Int.toNat_of_nonneg (by omega)
          rw [← hcast, batched_eq_run U db _ hpos tr table columns rows uniqueKeys
            (fun hn => h1 (by rw [hn]; rfl)) (fun hn => h2 (by rw [hn]; rfl))]
          exact ⟨_, _, _, rfl, runChunks_no_panic U db table columns uniqueKeys _ tr []⟩

theorem naiveRows_no_panic (db : Db) (table : String) (columns uniqueKeys : List String)
    (hsub : ∀ k ∈ uniqueKeys, k ∈ columns) :
    ∀ (rows : List Row) (idx : Nat) (tr : List Op),
      (naiveRows db (quoted table) (probeText table uniqueKeys) (columns.map quoted) columns
        (columnIndexOf columns) uniqueKeys (uniqueKeys.map quoted) idx rows tr).1 ≠ Ret.panic := by
  intro rows
  induction rows with
  | nil => intro idx tr; simp [naiveRows]
  | cons r rest ih =>
    intro idx tr
    by_cases hlen : r.length = columns.length
    · rw [naiveRows_step db table columns uniqueKeys hsub idx r rest tr hlen]
      cases db tr.length with
      | none =>
        simp only []
        cases db (tr.length + 1) with
        | none => exact ih _ _
        | some e => simp
      | some e =>
        cases e with
        | noRows =>
          simp only []
          cases db (tr.length + 1) with
          | none => exact ih _ _
          | some e => simp
        | other code => simp
    · rw [naiveRows]
      simp [hlen]

theorem naiveUpsert_no_panic (U : UnicodeTables) (db : Db) (table : String)
    (columns : List String) (rows : List Row) (uniqueKeys : List String) :
    (NaiveUpserter.Upsert U db [] table columns rows uniqueKeys).1 ≠ Ret.panic := by
  by_cases hr : rows = []
  · subst hr
    unfold NaiveUpserter.Upsert
    simp only [List.length_nil, if_true]
    split
    · simp
    · split <;> simp
  · by_cases hn : validNames U table columns uniqueKeys
    · cases hb : db 0 with
      | none =>
        rw [naiveUpsert_begun U db table columns rows uniqueKeys hn hr hb]
        have hp := naiveRows_no_panic db table columns uniqueKeys hn.2.2.2.2 rows 0 [.begin]
        rcases hR : naiveRows db (quoted table) (probeText table uniqueKeys) (columns.map quoted)
          columns (columnIndexOf columns) uniqueKeys (uniqueKeys.map quoted) 0 rows [.begin]
          with ⟨ret, t⟩
        rw [hR] at hp
        cases ret with
        | ok =>
          simp only []
          split <;> simp
        | err e => simp
        | panic => exact absurd rfl hp
      | some e =>
        obtain ⟨hc, hu, ht, hcs, hsub⟩ := hn
        have h1 : ¬ columns.length = 0 := fun h => hc (List.length_eq_zero.mp h)
        have h2 : ¬ uniqueKeys.length = 0 := fun h => hu (List.length_eq_zero.mp h)
        have h3 : ¬ rows.length = 0 := fun h => hr (List.length_eq_zero.mp h)
        have hcols : quoteColumns U 0 columns [] = .ok (columns.map quoted, columnIndexOf columns) :=
          quoteColumns_ok U columns hcs 0 []
        unfold NaiveUpserter.Upsert
        simp only [h1, h2, h3, if_false, quoteIdentifier_safe U table ht, hcols,
          quoteWhereKeys_ok U columns uniqueKeys hcs hsub 0, List.length_nil, hb]
        simp
    · obtain ⟨r, h, he⟩ := naiveUpsert_invalid_names U db [] table columns rows uniqueKeys hn
      obtain ⟨e, rfl⟩ := he hr
      rw [h]
      simp

/-- C23: no strategy indexes out of range. Whatever the table, column list, rows (of any
lengths), unique keys and database answers, the Bulk and the row-by-row strategy never end in
the panic of an index out of range, and the Chunked strategy returns a result that is not one
either: every `row[j]` and `row[columnIndex[key]]` is evaluated only once the key is known to
be a column and the row to be as long as the column list. -/
theorem no_index_out_of_range (U : UnicodeTables) (db : Db) (batchSize : Int) (tr : List Op)
    (table : String) (columns : List String) (rows : List Row) (uniqueKeys : List String) :
    (HashIndexedUpserter.Upsert U db tr table columns rows uniqueKeys).1 ≠ Ret.panic
      ∧ (NaiveUpserter.Upsert U db [] table columns rows uniqueKeys).1 ≠ Ret.panic
      ∧ ∃ r t calls,
          BatchedHashIndexedUpserter.Upsert U db batchSize tr table columns rows uniqueKeys
            = some (r, t, calls) ∧ r ≠ Ret.panic :=
  ⟨hashUpsert_no_panic U db tr table columns rows uniqueKeys,
    naiveUpsert_no_panic U db table columns rows uniqueKeys,
    batched_no_panic U db batchSize tr table columns rows uniqueKeys⟩

/-! ## The composite key -/

theorem joinStrings_bar (v : String) (rest : List String) :
    joinStrings "|" (v :: rest) = v ++ keyTail rest := by
  induction rest generalizing v with
  | nil => simp [joinStrings, keyTail]
  | cons y r ih => rw [joinStrings, ih y, keyTail, String.append_assoc, String.append_assoc]

theorem renderedKey_cons (columns : List String) (k : String) (rest : List String) (row : Row) :
    renderedKey columns (k :: rest) row
      = fmtV (row.getD ((List.lookup k (columnIndexOf columns)).getD 0) Value.null)
        :: renderedKey columns rest row := rfl

theorem compositeKeyLoop_eq (columns : List String) (row : Row)
    (hlen : row.length = columns.length) :
    ∀ (keys : List String), (∀ k ∈ keys, k ∈ columns) → ∀ i b,
      compositeKeyLoop row (columnIndexOf columns) i keys b
        = some (if i > 0 then b ++ keyTail (renderedKey columns keys row)
            else b ++ joinStrings "|" (renderedKey columns keys row)) := by
  intro keys
  induction keys with
  | nil =>
    intro _ i b
    simp [compositeKeyLoop, renderedKey, keyValues, keyTail, joinStrings]
  | cons k rest ih =>
    intro hsub i b
    obtain ⟨j, hj, hjlt⟩ := lookup_columnIndexOf columns k (hsub k (List.mem_cons_self _ _))
    have hjr : j < row.length := by omega
    have hget : row[j]? = some (row.getD j Value.null) := by
      rw [List.getD_eq_getElem?_getD, List.getElem?_eq_getElem hjr]
      rfl
    rw [compositeKeyLoop, renderedKey_cons, hj]
    simp only [Option.getD_some, hget]
    rw [ih (fun x hx => hsub x (List.mem_cons_of_mem _ hx)) (i + 1)]
    simp only [Nat.succ_pos, gt_iff_lt, if_true, joinStrings_bar, keyTail]
    by_cases hi : 0 < i
    · simp only [hi, if_true, String.append_assoc]
    · simp only [hi, if_false, String.append_assoc]

/-- The composite key of a row of the right length is the `|`-joined rendering of its key
values. -/
theorem compositeKey_eq_join (columns uniqueKeys : List String) (row : Row)
    (hlen : row.length = columns.length) (hsub : ∀ k ∈ uniqueKeys, k ∈ columns) :
    compositeKey row uniqueKeys (columnIndexOf columns)
      = some (joinStrings "|" (renderedKey columns uniqueKeys row)) := by
  rw [compositeKey, compositeKeyLoop_eq columns row hlen uniqueKeys hsub 0 ""]
  simp

theorem keyTail_data (l : List String) :
    (keyTail l).data = [] ∨ ∃ t, (keyTail l).data = '|' :: t := by
  cases l with
  | nil => exact Or.inl rfl
  | cons v rest =>
    refine Or.inr ⟨v.data ++ (keyTail rest).data, ?_⟩
    rw [keyTail, String.data_append, String.data_append]
    rfl

theorem bar_split : ∀ (a b t1 t2 : List Char), '|' ∉ a → '|' ∉ b →
    (t1 = [] ∨ ∃ t, t1 = '|' :: t) → (t2 = [] ∨ ∃ t, t2 = '|' :: t) →
    a ++ t1 = b ++ t2 → a = b ∧ t1 = t2 := by
  intro a
  induction a with
  | nil =>
    intro b t1 t2 _ hb h1 h2 h
    cases b with
    | nil => exact ⟨rfl, h⟩
    | cons d b' =>
      exfalso
      rcases h1 with h1 | ⟨t, h1⟩
      · rw [h1] at h
        simp at h
      · rw [h1] at h
        simp only [List.nil_append, List.cons_append, List.cons.injEq] at h
        exact hb (by rw [← h.1]; exact List.mem_cons_self _ _)
  | cons c a' ih =>
    intro b t1 t2 ha hb h1 h2 h
    cases b with
    | nil =>
      exfalso
      rcases h2 with h2 | ⟨t, h2⟩
      · rw [h2] at h
        simp at h
      · rw [h2] at h
        simp only [List.nil_append, List.cons_append, List.cons.injEq] at h
        exact ha (by rw [h.1]; exact List.mem_cons_self _ _)
    | cons d b' =>
      simp only [List.cons_append, List.cons.injEq] at h
      obtain ⟨h3, h4⟩ := ih b' t1 t2 (fun hm => ha (List.mem_cons_of_mem _ hm))
        (fun hm => hb (List.mem_cons_of_mem _ hm)) h1 h2 h.2
      exact ⟨by rw [h.1, h3], h4⟩

theorem keyTail_inj : ∀ (xs ys : List String), xs.length = ys.length →
    (∀ x ∈ xs, barFree x) → (∀ y ∈ ys, barFree y) → keyTail xs = keyTail ys → xs = ys := by
  intro xs
  induction xs with
  | nil =>
    intro ys hl _ _ _
    cases ys with
    | nil => rfl
    | cons y ys => simp at hl
  | cons x xs ih =>
    intro ys hl hx hy h
    cases ys with
    | nil => simp at hl
    | cons y ys =>
      have hd := congrArg String.data h
      simp only [keyTail, String.data_append] at hd
      have hd2 : x.data ++ (keyTail xs).data = y.data ++ (keyTail ys).data := by
        simpa using hd
      obtain ⟨h1, h2⟩ := bar_split x.data y.data _ _ (hx x (List.mem_cons_self _ _))
        (hy y (List.mem_cons_self _ _)) (keyTail_data xs) (keyTail_data ys) hd2
      rw [String.ext h1, ih ys (by simpa using hl) (fun z hz => hx z (List.mem_cons_of_mem _ hz))
        (fun z hz => hy z (List.mem_cons_of_mem _ hz)) (String.ext h2)]

theorem joinStrings_bar_inj (xs ys : List String) (hl : xs.length = ys.length)
    (hx : ∀ x ∈ xs, barFree x) (hy : ∀ y ∈ ys, barFree y)
    (h : joinStrings "|" xs = joinStrings "|" ys) : xs = ys := by
  cases xs with
  | nil =>
    cases ys with
    | nil => rfl
    | cons y ys => simp at hl
  | cons x xs =>
    cases ys with
    | nil => simp at hl
    | cons y ys =>
      rw [joinStrings_bar, joinStrings_bar] at h
      have hd := congrArg String.data h
      simp only [String.data_append] at hd
      obtain ⟨h1, h2⟩ := bar_split x.data y.data _ _ (hx x (List.mem_cons_self _ _))
        (hy y (List.mem_cons_self _ _)) (keyTail_data xs) (keyTail_data ys) hd
      rw [String.ext h1, keyTail_inj xs ys (by simpa using hl)
        (fun z hz => hx z (List.mem_cons_of_mem _ hz))
        (fun z hz => hy z (List.mem_cons_of_mem _ hz)) (String.ext h2)]

theorem renderedKey_length (columns uniqueKeys : List String) (row : Row) :
    (renderedKey columns uniqueKeys row).length = uniqueKeys.length := by
  simp [renderedKey, keyValues]

/-- Rows of the right length with bar-free renderings and the same composite key have the same
rendered key values. -/
theorem renderedKey_eq_of_compositeKey (columns uniqueKeys : List String) (r1 r2 : Row)
    (h1 : r1.length = columns.length) (h2 : r2.length = columns.length)
    (hsub : ∀ k ∈ uniqueKeys, k ∈ columns)
    (hb1 : ∀ v ∈ renderedKey columns uniqueKeys r1, barFree v)
    (hb2 : ∀ v ∈ renderedKey columns uniqueKeys r2, barFree v)
    (h : compositeKey r1 uniqueKeys (columnIndexOf columns)
      = compositeKey r2 uniqueKeys (columnIndexOf columns)) :
    renderedKey columns uniqueKeys r1 = renderedKey columns uniqueKeys r2 := by
  rw [compositeKey_eq_join columns uniqueKeys r1 h1 hsub,
    compositeKey_eq_join columns uniqueKeys r2 h2 hsub, Option.some.injEq] at h
  exact joinStrings_bar_inj _ _ (by rw [renderedKey_length, renderedKey_length]) hb1 hb2 h

theorem batchKeys_nodup_of_rendered (columns uniqueKeys : List String) (rows : List Row)
    (hlen : ∀ r ∈ rows, r.length = columns.length) (hsub : ∀ k ∈ uniqueKeys, k ∈ columns)
    (hbar : ∀ r ∈ rows, ∀ v ∈ renderedKey columns uniqueKeys r, barFree v)
    (hnd : (rows.map (renderedKey columns uniqueKeys)).Nodup) :
    (batchKeys columns uniqueKeys rows).Nodup := by
  have e : batchKeys columns uniqueKeys rows
      = (rows.map (renderedKey columns uniqueKeys)).map (fun l => some (joinStrings "|" l)) := by
    rw [batchKeys, List.map_map]
    exact List.map_congr_left fun r hr => compositeKey_eq_join columns uniqueKeys r (hlen r hr) hsub
  rw [e]
  refine List.Nodup.map_on ?_ hnd
  intro x hx y hy hxy
  obtain ⟨r1, hr1, rfl⟩ := List.mem_map.mp hx
  obtain ⟨r2, hr2, rfl⟩ := List.mem_map.mp hy
  exact joinStrings_bar_inj _ _ (by rw [renderedKey_length, renderedKey_length])
    (hbar r1 hr1) (hbar r2 hr2) (Option.some.inj hxy)

/-- Two rows that differ in both key columns but whose renderings, joined by the separator,
read the same: `a|b`, `c` against `a`, `b|c`. -/
theorem compositeKey_separator_collision :
    compositeKey [.str "a|b", .str "c"] ["k1", "k2"] (columnIndexOf ["k1", "k2"])
      = compositeKey [.str "a", .str "b|c"] ["k1", "k2"] (columnIndexOf ["k1", "k2"]) := by
  decide

/-- C25, counterexample: the rows `[1, a]` and `["1", b]` hold different values in the key
column `id`, yet `compositeKey` gives both the string `1`, and the Bulk strategy rejects the
batch as containing duplicates. -/
theorem compositeKey_rendering_collision :
    compositeKey [.int 1, .str "a"] ["id"] (columnIndexOf ["id", "name"])
        = compositeKey [.str "1", .str "b"] ["id"] (columnIndexOf ["id", "name"])
      ∧ keyValues ["id", "name"] ["id"] [.int 1, .str "a"]
        ≠ keyValues ["id", "name"] ["id"] [.str "1", .str "b"]
      ∧ HashIndexedUpserter.Upsert latin1Tables (fun _ => none) [] "users" ["id", "name"]
          [[.int 1, .str "a"], [.str "1", .str "b"]] ["id"]
        = (Ret.err (.new "rows 0 and 1 share duplicate unique key values"),
            [.exec "CREATE UNIQUE INDEX IF NOT EXISTS \"idx_de7ebd7b26552dfc\" ON \"users\" (\"id\")"
              []]) := by
  decide!

/-- C25, amended: when every unique key is a column, two rows of the right length whose key
values render (`%v`) without the separator `|` get the same composite key only if they have
the same rendering in every unique-key column; hence a valid batch whose rows have pairwise
different rendered key tuples, none containing `|`, is never rejected as containing
duplicates, whatever the database answers. -/
theorem compositeKey_collision_rendered (U : UnicodeTables) (db : Db) (table : String)
    (columns uniqueKeys : List String) (hsub : ∀ k ∈ uniqueKeys, k ∈ columns) :
    (∀ r1 r2 : Row, r1.length = columns.length → r2.length = columns.length →
      (∀ v ∈ renderedKey columns uniqueKeys r1, barFree v) →
      (∀ v ∈ renderedKey columns uniqueKeys r2, barFree v) →
      compositeKey r1 uniqueKeys (columnIndexOf columns)
        = compositeKey r2 uniqueKeys (columnIndexOf columns) →
      renderedKey columns uniqueKeys r1 = renderedKey columns uniqueKeys r2)
    ∧ (∀ rows : List Row, validCall U table columns rows uniqueKeys →
      (∀ r ∈ rows, ∀ v ∈ renderedKey columns uniqueKeys r, barFree v) →
      (rows.map (renderedKey columns uniqueKeys)).Nodup →
      ∀ p q, (HashIndexedUpserter.Upsert U db [] table columns rows uniqueKeys).1
        ≠ Ret.err (.new (duplicateMessage p q))) := by
  refine ⟨fun r1 r2 h1 h2 hb1 hb2 h =>
    renderedKey_eq_of_compositeKey columns uniqueKeys r1 r2 h1 h2 hsub hb1 hb2 h, ?_⟩
  intro rows hv hbar hnd p q
  by_cases hr : rows = []
  · subst hr
    have h1 : ¬ columns.length = 0 := fun h => hv.1 (List.length_eq_zero.mp h)
    have h2 : ¬ uniqueKeys.length = 0 := fun h => hv.2.1 (List.length_eq_zero.mp h)
    unfold HashIndexedUpserter.Upsert
    simp [h1, h2]
  · rw [hashUpsert_nodup U db [] table columns rows uniqueKeys hv hr
      (batchKeys_nodup_of_rendered columns uniqueKeys rows hv.2.2.2.2.2 hsub hbar hnd)]
    cases db ([] : List Op).length with
    | some e => simp
    | none =>
      simp only []
      cases db (([] : List Op).length + 1) with
      | some e => simp
      | none => simp

/-- C25, witness: the batch `[1, John]`, `[2, Jane]` with key `id` has the rendered keys `1`
and `2` and is not rejected as containing duplicates. -/
theorem compositeKey_collision_rendered_witness :
    (∀ k ∈ ["id"], k ∈ ["id", "name"])
      ∧ validCall latin1Tables "users" ["id", "name"]
          [[.int 1, .str "John"], [.int 2, .str "Jane"]] ["id"]
      ∧ ([[Value.int 1, .str "John"], [.int 2, .str "Jane"]].map
          (renderedKey ["id", "name"] ["id"])).Nodup
      ∧ (HashIndexedUpserter.Upsert latin1Tables (fun _ => none) [] "users" ["id", "name"]
          [[.int 1, .str "John"], [.int 2, .str "Jane"]] ["id"]).1
        ≠ Ret.err (.new (duplicateMessage 0 1)) :=
  have hsub : ∀ k ∈ ["id"], k ∈ ["id", "name"] := by decide
  have hv : validCall latin1Tables "users" ["id", "name"]
      [[.int 1, .str "John"], [.int 2, .str "Jane"]] ["id"] := by
    unfold validCall
    decide
  have hbar : ∀ r ∈ [[Value.int 1, .str "John"], [.int 2, .str "Jane"]],
      ∀ v ∈ renderedKey ["id", "name"] ["id"] r, barFree v := by
    unfold barFree
    decide
  have hnd : ([[Value.int 1, .str "John"], [.int 2, .str "Jane"]].map
      (renderedKey ["id", "name"] ["id"])).Nodup := by decide
  ⟨hsub, hv, hnd,
    (compositeKey_collision_rendered latin1Tables (fun _ => none) "users" ["id", "name"] ["id"]
      hsub).2 _ hv hbar hnd 0 1⟩

/-! ## Duplicates inside and across chunks -/

theorem batchKeys_not_nodup_iff (columns uniqueKeys : List String) (ch : List Row) :
    ¬ (batchKeys columns uniqueKeys ch).Nodup
      ↔ ∃ (a b : Nat) (ra rb : Row), a < b ∧ ch[a]? = some ra ∧ ch[b]? = some rb
        ∧ compositeKey ra uniqueKeys (columnIndexOf columns)
          = compositeKey rb uniqueKeys (columnIndexOf columns) := by
  rw [List.nodup_iff_getElem?_ne_getElem?]
  constructor
  · intro h
    push_neg at h
    obtain ⟨a, b, hab, hb, he⟩ := h
    have hbl : b < ch.length := by simpa [batchKeys] using hb
    have hal : a < ch.length := by omega
    refine ⟨a, b, ch[a], ch[b], hab, List.getElem?_eq_getElem hal, List.getElem?_eq_getElem hbl, ?_⟩
    simpa [batchKeys, List.getElem?_eq_getElem hal, List.getElem?_eq_getElem hbl] using he
  · rintro ⟨a, b, ra, rb, hab, ha, hb, he⟩ h
    have hbl : b < ch.length := by
      by_contra hn
      rw [List.getElem?_eq_none (by omega)] at hb
      exact absurd hb (by simp)
    refine h a b hab (by simpa [batchKeys] using hbl) ?_
    simp [batchKeys, ha, hb, he]

theorem sliceRows_getElem? (rows : List Row) (a b t : Nat) :
    (sliceRows rows a b)[t]? = if a + t < b then rows[a + t]? else none := by
  unfold sliceRows
  rw [List.getElem?_drop, List.getElem?_take]

theorem chunksOf_length (s : Nat) (rows : List Row) :
    (chunksOf s rows).length = (rows.length + s - 1) / s := by
  simp [chunksOf]

theorem chunksOf_getElem? (s : Nat) (rows : List Row) (k : Nat)
    (hk : k < (rows.length + s - 1) / s) :
    (chunksOf s rows)[k]? = some (sliceRows rows (k * s) (min ((k + 1) * s) rows.length)) := by
  simp [chunksOf, List.getElem?_range hk]

theorem chunk_index_lt (n s j : Nat) (hs : 0 < s) (hj : j < n) : j / s < (n + s - 1) / s := by
  have h1 : (j + s) / s ≤ (n + s - 1) / s := Nat.div_le_div_right (by omega)
  rw [Nat.add_div_right j hs] at h1
  omega

theorem exists_chunk_dup_iff (columns uniqueKeys : List String) (s : Nat) (hs : 0 < s)
    (rows : List Row) :
    (∃ c ∈ chunksOf s rows, ¬ (batchKeys columns uniqueKeys c).Nodup)
      ↔ sameChunkDuplicate columns uniqueKeys s rows := by
  constructor
  · rintro ⟨c, hc, hnd⟩
    obtain ⟨k, hk⟩ := List.getElem?_of_mem hc
    have hkl : k < (rows.length + s - 1) / s := by
      rw [← chunksOf_length]
      by_contra hn
      rw [List.getElem?_eq_none (by omega)] at hk
      exact absurd hk (by simp)
    rw [chunksOf_getElem? s rows k hkl, Option.some.injEq] at hk
    subst hk
    obtain ⟨a, b, ra, rb, hab, ha, hb, he⟩ := (batchKeys_not_nodup_iff _ _ _).mp hnd
    rw [sliceRows_getElem?] at ha hb
    have hb1 : k * s + b < min ((k + 1) * s) rows.length := by
      by_contra hn
      rw [if_neg hn] at hb
      exact absurd hb (by simp)
    have ha1 : k * s + a < min ((k + 1) * s) rows.length := by omega
    rw [if_pos ha1] at ha
    rw [if_pos hb1] at hb
    have hbs : b < s := by
      have : k * s + b < (k + 1) * s := by omega
      rw [Nat.add_mul, Nat.one_mul] at this
      omega
    have has : a < s := by omega
    refine ⟨k * s + a, k * s + b, ra, rb, by omega, ?_, ha, hb, he⟩
    rw [Nat.add_comm (k * s) a, Nat.add_comm (k * s) b, Nat.add_mul_div_right _ _ hs,
      Nat.add_mul_div_right _ _ hs, Nat.div_eq_of_lt has, Nat.div_eq_of_lt hbs]
  · rintro ⟨i, j, ri, rj, hij, hq, hi, hj, he⟩
    have hjl : j < rows.length := by
      by_contra hn
      rw [List.getElem?_eq_none (by omega)] at hj
      exact absurd hj (by simp)
    have hk := chunk_index_lt rows.length s j hs hjl
    have hdi := Nat.div_add_mod i s
    have hdj := Nat.div_add_mod j s
    have hmi := Nat.mod_lt i hs
    have hmj := Nat.mod_lt j hs
    have hci : s * (j / s) = j / s * s := Nat.mul_comm _ _
    have hlt : i % s < j % s := by
      rw [hq] at hdi
      omega
    have hupper : j / s * s + j % s < (j / s + 1) * s := by
      rw [Nat.add_mul, Nat.one_mul]
      omega
    refine ⟨_, List.getElem?_mem (chunksOf_getElem? s rows (j / s) hk), ?_⟩
    refine (batchKeys_not_nodup_iff _ _ _).mpr ⟨i % s, j % s, ri, rj, hlt, ?_, ?_, he⟩
    · rw [sliceRows_getElem?, if_pos (by omega)]
      have : j / s * s + i % s = i := by rw [hq] at hdi; omega
      rw [this, hi]
    · rw [sliceRows_getElem?, if_pos (by omega)]
      have : j / s * s + j % s = j := by omega
      rw [this, hj]

theorem runChunks_dup (U : UnicodeTables) (db : Db) (table : String)
    (columns uniqueKeys : List String) (hdb : ∀ k, db k = none) :
    ∀ chunks tr calls,
      (∀ c ∈ chunks, c ≠ [] ∧ validCall U table columns c uniqueKeys) →
      (∃ c ∈ chunks, ¬ (batchKeys columns uniqueKeys c).Nodup) →
      ∃ p q, (runChunks U db table columns uniqueKeys chunks tr calls).1
        = Ret.err (.new (duplicateMessage p q)) := by
  intro chunks
  induction chunks with
  | nil => intro tr calls _ h; obtain ⟨c, hc, _⟩ := h; simp at hc
  | cons c cs ih =>
    intro tr calls hv hbad
    obtain ⟨hne, hvc⟩ := hv c (List.mem_cons_self _ _)
    rw [runChunks]
    by_cases hnd : (batchKeys columns uniqueKeys c).Nodup
    · rw [hashUpsert_nodup U db tr table columns c uniqueKeys hvc hne hnd]
      simp only [hdb]
      refine ih _ _ (fun x hx => hv x (List.mem_cons_of_mem _ hx)) ?_
      obtain ⟨x, hx, hxn⟩ := hbad
      rcases List.mem_cons.mp hx with rfl | hx
      · exact absurd hnd hxn
      · exact ⟨x, hx, hxn⟩
    · obtain ⟨ks, hks⟩ := batchKeys_some columns uniqueKeys c hvc.2.2.2.2.1 hvc.2.2.2.2.2
      rw [hashUpsert_valid U db tr table columns c uniqueKeys hvc hne ks hks]
      have hsc : scanKeys 0 ks [] ≠ none := by
        intro h
        rw [scanKeys_zero_none_iff] at h
        exact hnd (by rw [hks]; exact h.map (Option.some_injective _))
      cases hs : scanKeys 0 ks [] with
      | none => exact absurd hs hsc
      | some pq =>
        obtain ⟨p, q⟩ := pq
        simp only [hdb]
        exact ⟨p, q, rfl⟩

theorem chunksOf_flatten (s : Nat) (hs : 0 < s) (rows : List Row) :
    (chunksOf s rows).flatten = rows := by
  rw [chunksOf_eq_chunksFrom, chunksFrom_flatten s rows hs _ 0 rfl, List.drop_zero]

/-- C26: in the Chunked strategy duplicate keys are rejected per chunk only. For a positive
batch size `s`, a valid batch and a database on which every statement succeeds, the call
returns a duplicate-key error exactly when two rows of the same chunk (indices `i < j` with
`i / s = j / s`) share a composite key; otherwise it succeeds and has sent, chunk after chunk
in batch order, `CREATE UNIQUE INDEX` and the insert of the rows of the chunk, so two rows that
share a key but lie in different chunks are both written. -/
theorem batched_duplicates_per_chunk (U : UnicodeTables) (db : Db) (s : Nat) (table : String)
    (columns : List String) (rows : List Row) (uniqueKeys : List String) (hs : 0 < s)
    (hv : validCall U table columns rows uniqueKeys) (hdb : ∀ k, db k = none) :
    ∃ r t calls,
      BatchedHashIndexedUpserter.Upsert U db (s : Int) [] table columns rows uniqueKeys
        = some (r, t, calls)
      ∧ ((∃ p q, r = Ret.err (.new (duplicateMessage p q)))
        ↔ sameChunkDuplicate columns uniqueKeys s rows)
      ∧ (¬ sameChunkDuplicate columns uniqueKeys s rows →
        r = Ret.ok ∧ t = (chunksOf s rows).flatMap (chunkOps U table columns uniqueKeys)
          ∧ (chunksOf s rows).flatten = rows) := by
  have hval : ∀ ch ∈ chunksOf s rows, ch ≠ [] ∧ validCall U table columns ch uniqueKeys :=
    fun ch hch => ⟨(chunksOf_forall s rows hs ch hch).1,
      validCall_of_subset U table columns rows ch uniqueKeys hv (chunksOf_forall s rows hs ch hch).2.2⟩
  rw [batched_eq_run U db s hs [] table columns rows uniqueKeys hv.1 hv.2.1]
  by_cases hbad : ∃ ch ∈ chunksOf s rows, ¬ (batchKeys columns uniqueKeys ch).Nodup
  · obtain ⟨p, q, hpq⟩ := runChunks_dup U db table columns uniqueKeys hdb (chunksOf s rows) [] []
      hval hbad
    have hsame := (exists_chunk_dup_iff columns uniqueKeys s hs rows).mp hbad
    exact ⟨_, _, _, rfl, ⟨fun _ => hsame, fun _ => ⟨p, q, hpq⟩⟩, fun hn => absurd hsame hn⟩
  · have hall : ∀ ch ∈ chunksOf s rows, ch ≠ [] ∧ validCall U table columns ch uniqueKeys
        ∧ (batchKeys columns uniqueKeys ch).Nodup :=
      fun ch hch => ⟨(hval ch hch).1, (hval ch hch).2, by
        by_contra hn
        exact hbad ⟨ch, hch, hn⟩⟩
    have hno : ¬ sameChunkDuplicate columns uniqueKeys s rows :=
      fun h => hbad ((exists_chunk_dup_iff columns uniqueKeys s hs rows).mpr h)
    rw [runChunks_ok U db table columns uniqueKeys hdb (chunksOf s rows) [] [] hall]
    refine ⟨_, _, _, rfl, ⟨fun h => ?_, fun h => absurd h hno⟩,
      fun _ => ⟨rfl, by simp, chunksOf_flatten s hs rows⟩⟩
    obtain ⟨p, q, hpq⟩ := h
    exact absurd hpq (by simp)

/-- C26, witness: with batch size 1 the rows `[1, John]` and `[1, Jane]` share the key `1` but
lie in different chunks; the call succeeds and sends two inserts, `[1, John]` first. -/
theorem batched_duplicates_per_chunk_witness :
    validCall latin1Tables "users" ["id", "name"] [[.int 1, .str "John"], [.int 1, .str "Jane"]]
        ["id"]
      ∧ (∃ r t calls,
        BatchedHashIndexedUpserter.Upsert latin1Tables (fun _ => none) ((1 : Nat) : Int) []
            "users" ["id", "name"] [[.int 1, .str "John"], [.int 1, .str "Jane"]] ["id"]
          = some (r, t, calls)
        ∧ ((∃ p q, r = Ret.err (.new (duplicateMessage p q)))
          ↔ sameChunkDuplicate ["id", "name"] ["id"] 1
              [[.int 1, .str "John"], [.int 1, .str "Jane"]])
        ∧ (¬ sameChunkDuplicate ["id", "name"] ["id"] 1
              [[.int 1, .str "John"], [.int 1, .str "Jane"]] →
          r = Ret.ok
            ∧ t = (chunksOf 1 [[.int 1, .str "John"], [.int 1, .str "Jane"]]).flatMap
                (chunkOps latin1Tables "users" ["id", "name"] ["id"])
            ∧ (chunksOf 1 [[Value.int 1, .str "John"], [.int 1, .str "Jane"]]).flatten
              = [[.int 1, .str "John"], [.int 1, .str "Jane"]]))
      ∧ BatchedHashIndexedUpserter.Upsert latin1Tables (fun _ => none) 1 [] "users"
          ["id", "name"] [[.int 1, .str "John"], [.int 1, .str "Jane"]] ["id"]
        = some (Ret.ok,
            [.exec "CREATE UNIQUE INDEX IF NOT EXISTS \"idx_de7ebd7b26552dfc\" ON \"users\" (\"id\")" [],
              .exec ("INSERT INTO \"users\" (\"id\", \"name\") VALUES ($1, $2) "
                ++ "ON CONFLICT (\"id\") DO UPDATE SET \"name\" = EXCLUDED.\"name\"")
                [.int 1, .str "John"],
              .exec "CREATE UNIQUE INDEX IF NOT EXISTS \"idx_de7ebd7b26552dfc\" ON \"users\" (\"id\")" [],
              .exec ("INSERT INTO \"users\" (\"id\", \"name\") VALUES ($1, $2) "
                ++ "ON CONFLICT (\"id\") DO UPDATE SET \"name\" = EXCLUDED.\"name\"")
                [.int 1, .str "Jane"]],
            [[[.int 1, .str "John"]], [[.int 1, .str "Jane"]]]) :=
  have hv : validCall latin1Tables "users" ["id", "name"]
      [[.int 1, .str "John"], [.int 1, .str "Jane"]] ["id"] := by
    unfold validCall
    decide
  ⟨hv, batched_duplicates_per_chunk latin1Tables (fun _ => none) 1 "users" ["id", "name"]
    [[.int 1, .str "John"], [.int 1, .str "Jane"]] ["id"] (by decide) hv (fun _ => rfl),
    by decide!⟩

/-! ## Upserts on the table model -/

theorem hasKey_iff (key : Row → List Value) (T : List Row) (kv : List Value) :
    hasKey key T kv = true ↔ ∃ x ∈ T, key x = kv := by
  simp [hasKey]

theorem lastBy_snoc (key : Row → List Value) (r : Row) (kv : List Value) :
    ∀ rows, lastBy key (rows ++ [r]) kv = if key r = kv then some r else lastBy key rows kv := by
  intro rows
  induction rows with
  | nil => simp [lastBy]
  | cons x rest ih =>
    rw [List.cons_append, lastBy, ih, lastBy]
    by_cases h : key r = kv
    · simp [h]
    · simp [h]

theorem lastBy_key (key : Row → List Value) (kv : List Value) :
    ∀ rows l, lastBy key rows kv = some l → key l = kv ∧ l ∈ rows := by
  intro rows
  induction rows with
  | nil => intro l h; simp [lastBy] at h
  | cons x rest ih =>
    intro l h
    rw [lastBy] at h
    cases hr : lastBy key rest kv with
    | some l' =>
      rw [hr] at h
      simp only [Option.some.injEq] at h
      subst h
      exact ⟨(ih _ hr).1, List.mem_cons_of_mem _ (ih _ hr).2⟩
    | none =>
      rw [hr] at h
      by_cases hx : key x = kv
      · simp only [hx, if_true, Option.some.injEq] at h
        subst h
        exact ⟨hx, List.mem_cons_self _ _⟩
      · simp [hx] at h

theorem lastBy_none_iff (key : Row → List Value) (kv : List Value) :
    ∀ rows, lastBy key rows kv = none ↔ kv ∉ rows.map key := by
  intro rows
  induction rows with
  | nil => simp [lastBy]
  | cons x rest ih =>
    rw [lastBy]
    cases hr : lastBy key rest kv with
    | some l =>
      have := (lastBy_key key kv rest l hr)
      simp only [List.map_cons, List.mem_cons, not_or]
      constructor
      · intro h
        exact absurd h (by simp)
      · intro h
        exact absurd (List.mem_map.mpr ⟨l, this.2, this.1⟩) h.2
    | none =>
      have h2 := ih.mp hr
      by_cases hx : key x = kv
      · simp [hx]
      · simp only [hx, if_false, List.map_cons, List.mem_cons, not_or, true_iff]
        exact ⟨fun h => hx h.symm, h2⟩

theorem map_key_upsertBy (key : Row → List Value) (f : Row → Row → Row)
    (hK : ∀ x r, key x = key r → key (f x r) = key x) (T : List Row) (r : Row) :
    (upsertBy key f T r).map key
      = if hasKey key T (key r) then T.map key else T.map key ++ [key r] := by
  unfold upsertBy
  by_cases h : hasKey key T (key r) = true
  · simp only [h, if_true, List.map_map]
    apply List.map_congr_left
    intro x _
    by_cases hx : key x = key r
    · simp [hx, hK x r hx]
    · simp [hx]
  · simp [h]

theorem nodup_upsertBy (key : Row → List Value) (f : Row → Row → Row)
    (hK : ∀ x r, key x = key r → key (f x r) = key x) (T : List Row) (r : Row)
    (hnd : (T.map key).Nodup) : ((upsertBy key f T r).map key).Nodup := by
  rw [map_key_upsertBy key f hK]
  by_cases h : hasKey key T (key r) = true
  · simpa [h] using hnd
  · simp only [h, if_false]
    refine List.Nodup.append hnd (List.nodup_singleton _) ?_
    intro a hm ha
    rw [List.mem_singleton] at ha
    subst ha
    obtain ⟨x, hx, hxk⟩ := List.mem_map.mp hm
    exact h ((hasKey_iff key T (key r)).mpr ⟨x, hx, hxk⟩)

theorem nodup_foldl_upsertBy (key : Row → List Value) (f : Row → Row → Row)
    (hK : ∀ x r, key x = key r → key (f x r) = key x) :
    ∀ (rows T : List Row), (T.map key).Nodup →
      ((rows.foldl (upsertBy key f) T).map key).Nodup := by
  intro rows
  induction rows with
  | nil => intro T h; exact h
  | cons r rest ih => intro T h; exact ih _ (nodup_upsertBy key f hK T r h)

theorem filter_upsertBy (key : Row → List Value) (f : Row → Row → Row)
    (hK : ∀ x r, key x = key r → key (f x r) = key x) (T : List Row) (r : Row)
    (k : List Value) :
    (upsertBy key f T r).filter (fun x => decide (key x = k))
      = if key r = k then
          (if hasKey key T (key r) then (T.filter fun x => decide (key x = k)).map (f · r)
            else [r])
        else T.filter fun x => decide (key x = k) := by
  unfold upsertBy
  by_cases h : hasKey key T (key r) = true
  · simp only [h, if_true, List.filter_map]
    have hf : (T.filter ((fun x => decide (key x = k))
        ∘ fun x => if key x = key r then f x r else x))
        = T.filter fun x => decide (key x = k) := by
      apply List.filter_congr
      intro x _
      by_cases hx : key x = key r
      · simp [hx, hK x r hx]
      · simp [hx]
    rw [hf]
    by_cases hr : key r = k
    · simp only [hr, if_true]
      apply List.map_congr_left
      intro x hx
      have : key x = k := by simpa using (List.mem_filter.mp hx).2
      simp [this]
    · simp only [hr, if_false]
      conv_rhs => rw [← List.map_id (T.filter fun x => decide (key x = k))]
      apply List.map_congr_left
      intro x hx
      have : key x = k := by simpa using (List.mem_filter.mp hx).2
      have hne : ¬ key x = key r := fun e => hr (e.symm.trans this)
      simp [hne]
  · simp only [h, if_false, List.filter_append]
    by_cases hr : key r = k
    · have hnil : (T.filter fun x => decide (key x = k)) = [] := by
        rw [List.filter_eq_nil_iff]
        intro x hx hk
        exact h ((hasKey_iff key T (key r)).mpr ⟨x, hx, by rw [hr]; simpa using hk⟩)
      simp [hr, hnil]
    · simp [hr]

theorem filter_key_length_le (key : Row → List Value) (T : List Row) (k : List Value)
    (hnd : (T.map key).Nodup) : (T.filter fun x => decide (key x = k)).length ≤ 1 := by
  have hsub : ((T.filter fun x => decide (key x = k)).map key).Nodup :=
    hnd.sublist ((List.filter_sublist T).map key)
  have hall : ∀ a ∈ (T.filter fun x => decide (key x = k)).map key, a = k := by
    intro a ha
    obtain ⟨x, hx, rfl⟩ := List.mem_map.mp ha
    simpa using (List.mem_filter.mp hx).2
  rw [← List.length_map _ key]
  match hL : (T.filter fun x => decide (key x = k)).map key, hsub, hall with
  | [], _, _ => simp
  | [_], _, _ => simp
  | a :: b :: t, hn, ha =>
    exfalso
    have h1 : a = k := ha a (List.mem_cons_self _ _)
    have h2 : b = k := ha b (List.mem_cons_of_mem _ (List.mem_cons_self _ _))
    rw [h1, h2] at hn
    exact (List.nodup_cons.mp hn).1 (List.mem_cons_self _ _)

theorem filter_key_singleton (key : Row → List Value) (T : List Row) (k : List Value)
    (hnd : (T.map key).Nodup) (hhas : hasKey key T k = true) :
    ∃ y, (T.filter fun x => decide (key x = k)) = [y] := by
  obtain ⟨x, hx, hxk⟩ := (hasKey_iff key T k).mp hhas
  have hmem : x ∈ T.filter fun x => decide (key x = k) :=
    List.mem_filter.mpr ⟨hx, by simpa using hxk⟩
  have hle := filter_key_length_le key T k hnd
  match hF : (T.filter fun x => decide (key x = k)), hmem, hle with
  | [y], _, _ => exact ⟨y, rfl⟩
  | [], hm, _ => simp at hm
  | _ :: _ :: _, _, hl => simp at hl

/-- The table after the rows of a batch were upserted one after the other, an existing row
being replaced by the proposed one: for a key of the batch exactly one row has it and that
row is the last row of the batch with the key; the rows with any other key are those of the
table before. -/
theorem foldl_upsert_last (key : Row → List Value) :
    ∀ (rows T : List Row), (T.map key).Nodup → ∀ k,
      (∀ l, lastBy key rows k = some l →
        (rows.foldl (upsertBy key fun _ r => r) T).filter (fun x => decide (key x = k)) = [l])
      ∧ (lastBy key rows k = none →
        (rows.foldl (upsertBy key fun _ r => r) T).filter (fun x => decide (key x = k))
          = T.filter fun x => decide (key x = k)) := by
  intro rows
  induction rows using List.reverseRecOn with
  | nil =>
    intro T _ k
    exact ⟨fun l h => by simp [lastBy] at h, fun _ => rfl⟩
  | append_singleton rows r ih =>
    intro T hnd k
    have hK : ∀ x r : Row, key x = key r → key ((fun _ r => r) x r) = key x :=
      fun x r h => h.symm
    have hF := nodup_foldl_upsertBy key (fun _ r => r) hK rows T hnd
    rw [List.foldl_append, List.foldl_cons, List.foldl_nil, lastBy_snoc,
      filter_upsertBy key (fun _ r => r) hK]
    by_cases hr : key r = k
    · simp only [hr, if_true]
      refine ⟨fun l hl => ?_, fun h => by simp at h⟩
      simp only [Option.some.injEq] at hl
      subst hl
      by_cases hh : hasKey key (rows.foldl (upsertBy key fun _ r => r) T) k = true
      · obtain ⟨y, hy⟩ := filter_key_singleton key _ k hF hh
        simp [hh, hy]
      · simp [hh]
    · simp only [hr, if_false]
      exact ih T hnd k

theorem upsertBy_of_has (key : Row → List Value) (f : Row → Row → Row) (T : List Row) (r : Row)
    (h : hasKey key T (key r) = true) :
    upsertBy key f T r = T.map fun x => if key x = key r then f x r else x := by
  unfold upsertBy
  rw [if_pos h]

theorem upsertBy_of_not (key : Row → List Value) (f : Row → Row → Row) (T : List Row) (r : Row)
    (h : ¬ hasKey key T (key r) = true) : upsertBy key f T r = T ++ [r] := by
  unfold upsertBy
  rw [if_neg h]

theorem mem_keys_upsertBy (key : Row → List Value) (f : Row → Row → Row)
    (hK : ∀ x r, key x = key r → key (f x r) = key x) (T : List Row) (r : Row)
    (k : List Value) (h : k ∈ T.map key ∨ k = key r) : k ∈ (upsertBy key f T r).map key := by
  rw [map_key_upsertBy key f hK]
  by_cases hh : hasKey key T (key r) = true
  · rw [if_pos hh]
    rcases h with h | h
    · exact h
    · obtain ⟨x, hx, hxk⟩ := (hasKey_iff key T (key r)).mp hh
      exact List.mem_map.mpr ⟨x, hx, by rw [hxk, h]⟩
  · rw [if_neg hh, List.mem_append, List.mem_singleton]
    exact h

theorem mem_keys_foldl (key : Row → List Value) (f : Row → Row → Row)
    (hK : ∀ x r, key x = key r → key (f x r) = key x) :
    ∀ (rows T : List Row) (k : List Value), (k ∈ T.map key ∨ k ∈ rows.map key) →
      k ∈ (rows.foldl (upsertBy key f) T).map key := by
  intro rows
  induction rows with
  | nil =>
    intro T k h
    rcases h with h | h
    · exact h
    · simp at h
  | cons r rest ih =>
    intro T k h
    rw [List.foldl_cons]
    apply ih
    rcases h with h | h
    · exact Or.inl (mem_keys_upsertBy key f hK T r k (Or.inl h))
    · rw [List.map_cons, List.mem_cons] at h
      rcases h with h | h
      · exact Or.inl (mem_keys_upsertBy key f hK T r k (Or.inr h))
      · exact Or.inr h

/-- Every row of the table after a batch was upserted is settled: upserting the last row of
the batch with its key once more does not change it. -/
theorem settled_foldl (key : Row → List Value) (f : Row → Row → Row)
    (hK : ∀ x r, key x = key r → key (f x r) = key x)
    (hA : ∀ x r l, f (f x r) l = f x l) :
    ∀ (rows T : List Row), (∀ r ∈ rows, f r r = r) →
      ∀ x ∈ rows.foldl (upsertBy key f) T, ∀ l, lastBy key rows (key x) = some l → f x l = x := by
  intro rows
  induction rows using List.reverseRecOn with
  | nil => intro T _ x _ l h; simp [lastBy] at h
  | append_singleton rows r ih =>
    intro T hR x hx l hl
    have hR' : ∀ r ∈ rows, f r r = r := fun y hy => hR y (List.mem_append_left _ hy)
    rw [List.foldl_append, List.foldl_cons, List.foldl_nil] at hx
    rw [lastBy_snoc] at hl
    by_cases hh : hasKey key (rows.foldl (upsertBy key f) T) (key r) = true
    · rw [upsertBy_of_has key f _ r hh, List.mem_map] at hx
      obtain ⟨y, hy, rfl⟩ := hx
      by_cases hyr : key y = key r
      · simp only [hyr, if_true] at hl ⊢
        rw [hK y r hyr, hyr] at hl
        simp only [if_true, Option.some.injEq] at hl
        subst hl
        exact hA y r r
      · simp only [hyr, if_false] at hl ⊢
        have : ¬ key r = key y := fun e => hyr e.symm
        rw [if_neg this] at hl
        exact ih T hR' y hy l hl
    · rw [upsertBy_of_not key f _ r hh, List.mem_append, List.mem_singleton] at hx
      rcases hx with hx | rfl
      · have hne : ¬ key r = key x := by
          intro e
          exact hh ((hasKey_iff key _ (key r)).mpr ⟨x, hx, e.symm⟩)
        rw [if_neg hne] at hl
        exact ih T hR' x hx l hl
      · simp only [if_true, Option.some.injEq] at hl
        subst hl
        exact hR _ (List.mem_append_right _ (List.mem_singleton_self _))

/-- Upserting a batch into a table that already has a row for every key of the batch changes
each such row into its upsert with the last row of the batch carrying its key. -/
theorem foldl_upsert_covered (key : Row → List Value) (f : Row → Row → Row)
    (hK : ∀ x r, key x = key r → key (f x r) = key x)
    (hA : ∀ x r l, f (f x r) l = f x l) :
    ∀ (rows S : List Row), (∀ r ∈ rows, key r ∈ S.map key) →
      rows.foldl (upsertBy key f) S
        = S.map fun x => match lastBy key rows (key x) with
            | some l => f x l
            | none => x := by
  intro rows
  induction rows with
  | nil => intro S _; simp [lastBy]
  | cons r rest ih =>
    intro S hcov
    have hh : hasKey key S (key r) = true := by
      obtain ⟨x, hx, hxk⟩ := List.mem_map.mp (hcov r (List.mem_cons_self _ _))
      exact (hasKey_iff key S (key r)).mpr ⟨x, hx, hxk⟩
    have hkeys : (upsertBy key f S r).map key = S.map key := by
      rw [map_key_upsertBy key f hK, if_pos hh]
    rw [List.foldl_cons, ih (upsertBy key f S r)
      (fun y hy => by rw [hkeys]; exact hcov y (List.mem_cons_of_mem _ hy))]
    rw [upsertBy_of_has key f S r hh, List.map_map]
    apply List.map_congr_left
    intro x _
    simp only [Function.comp]
    by_cases hx : key x = key r
    · simp only [hx, if_true]
      rw [hK x r hx, lastBy, hx]
      cases lastBy key rest (key r) with
      | some l => simp only []; exact hA x r l
      | none => simp
    · simp only [hx, if_false]
      rw [lastBy]
      have : ¬ key r = key x := fun e => hx e.symm
      cases lastBy key rest (key x) with
      | some l => rfl
      | none => simp [this]

/-- Upserting a batch a second time leaves the table as it was after the first time. -/
theorem foldl_upsert_idem (key : Row → List Value) (f : Row → Row → Row)
    (hK : ∀ x r, key x = key r → key (f x r) = key x)
    (hA : ∀ x r l, f (f x r) l = f x l) (rows T : List Row) (hR : ∀ r ∈ rows, f r r = r) :
    rows.foldl (upsertBy key f) (rows.foldl (upsertBy key f) T)
      = rows.foldl (upsertBy key f) T := by
  rw [foldl_upsert_covered key f hK hA rows _
    (fun r hr => mem_keys_foldl key f hK rows T (key r) (Or.inr (List.mem_map_of_mem _ hr)))]
  conv_rhs => rw [← List.map_id (rows.foldl (upsertBy key f) T)]
  apply List.map_congr_left
  intro x hx
  cases hl : lastBy key rows (key x) with
  | some l => exact settled_foldl key f hK hA rows T hR x hx l hl
  | none => rfl

/-! ## The statements of the strategies on the table model -/

theorem data_head_append (a b : String) (c : Char) (h : a.data.head? = some c) :
    (a ++ b).data.head? = some c := by
  rw [String.data_append]
  cases ha : a.data with
  | nil => rw [ha] at h; simp at h
  | cons x t => rw [ha] at h; simpa using h

theorem updateText_head (table : String) (columns uniqueKeys : List String) :
    (updateText table columns uniqueKeys).data.head? = some 'U' := by
  unfold updateText
  exact data_head_append _ _ _ (data_head_append _ _ _ (data_head_append _ _ _
    (data_head_append _ _ _ (data_head_append _ _ _ rfl))))

theorem insertText_head (table : String) (columns : List String) :
    (insertText table columns).data.head? = some 'I' := by
  unfold insertText
  exact data_head_append _ _ _ (data_head_append _ _ _ (data_head_append _ _ _
    (data_head_append _ _ _ (data_head_append _ _ _ (data_head_append _ _ _ rfl)))))

theorem bulkInsertText_head (table : String) (columns : List String) (n : Nat)
    (uniqueKeys : List String) :
    (bulkInsertText table columns n uniqueKeys).data.head? = some 'I' := by
  unfold bulkInsertText bulkInsertHead
  exact data_head_append _ _ _ (data_head_append _ _ _ (data_head_append _ _ _
    (data_head_append _ _ _ (data_head_append _ _ _ (data_head_append _ _ _
    (data_head_append _ _ _ (data_head_append _ _ _ (data_head_append _ _ _ rfl))))))))

theorem createIndexSql_head (a b : String) (ks : List String) :
    (createIndexSql a b ks).data.head? = some 'C' := by
  unfold createIndexSql
  exact data_head_append _ _ _ (data_head_append _ _ _ (data_head_append _ _ _
    (data_head_append _ _ _ (data_head_append _ _ _ rfl))))

theorem insertText_getLast (table : String) (columns : List String) :
    (insertText table columns).data.getLast? = some ')' := by
  unfold insertText
  rw [String.data_append, List.getLast?_append]
  rfl

theorem bulkInsertText_getLast (table : String) (columns : List String) (n : Nat)
    (uniqueKeys : List String) :
    (bulkInsertText table columns n uniqueKeys).data.getLast? = some 'G'
      ∨ (bulkInsertText table columns n uniqueKeys).data.getLast? = some dq := by
  unfold bulkInsertText conflictAction
  by_cases hall : columns.all (fun c => uniqueKeys.contains c) = true
  · left
    rw [if_pos hall, String.data_append, List.getLast?_append]
    rfl
  · right
    have hlist : (columns.filter fun c => !uniqueKeys.contains c).map
        (fun c => quoted c ++ " = EXCLUDED." ++ quoted c) ≠ [] := by
      intro hnil
      exact hall ((filter_length_zero_iff uniqueKeys columns).mp (by rw [hnil]; rfl))
    rw [if_neg hall]
    simp only [String.data_append, List.getLast?_append]
    rw [joinStrings_getLast ", " dq _ hlist]
    · rfl
    · intro x hx
      obtain ⟨c, _, rfl⟩ := List.mem_map.mp hx
      exact assignment_getLast c

theorem ne_of_head (a b : String) (c d : Char) (ha : a.data.head? = some c)
    (hb : b.data.head? = some d) (hcd : c ≠ d) : a ≠ b := by
  intro h
  rw [h, hb] at ha
  exact hcd (Option.some.inj ha).symm

theorem insertText_ne_updateText (table : String) (columns uniqueKeys : List String) :
    insertText table columns ≠ updateText table columns uniqueKeys :=
  ne_of_head _ _ _ _ (insertText_head _ _) (updateText_head _ _ _) (by decide)

theorem bulkInsertText_ne_updateText (table : String) (columns uniqueKeys : List String)
    (n : Nat) : bulkInsertText table columns n uniqueKeys ≠ updateText table columns uniqueKeys :=
  ne_of_head _ _ _ _ (bulkInsertText_head _ _ _ _) (updateText_head _ _ _) (by decide)

theorem bulkInsertText_ne_insertText (table : String) (columns uniqueKeys : List String)
    (n : Nat) : bulkInsertText table columns n uniqueKeys ≠ insertText table columns := by
  intro h
  have hl := insertText_getLast table columns
  rw [← h] at hl
  rcases bulkInsertText_getLast table columns n uniqueKeys with h1 | h1
  · rw [h1] at hl
    exact absurd (Option.some.inj hl) (by decide)
  · rw [h1] at hl
    exact absurd (Option.some.inj hl) (by decide)

theorem tableStep_probe (table : String) (columns uniqueKeys : List String) (T : List Row)
    (args : List Value) :
    tableStep table columns uniqueKeys T (.queryRow (probeText table uniqueKeys) args)
      = (T, if hasKey (keyValues columns uniqueKeys) T args then none else some DbErr.noRows) := by
  simp [tableStep]

theorem tableStep_update (table : String) (columns uniqueKeys : List String) (T : List Row)
    (r : Row) (kv : List Value) (hr : r.length = columns.length) :
    tableStep table columns uniqueKeys T (.exec (updateText table columns uniqueKeys) (r ++ kv))
      = (T.map fun x => if keyValues columns uniqueKeys x = kv then r else x, none) := by
  simp [tableStep, ← hr]

theorem tableStep_insert (table : String) (columns uniqueKeys : List String) (T : List Row)
    (r : Row) :
    tableStep table columns uniqueKeys T (.exec (insertText table columns) r)
      = (T ++ [r], none) := by
  simp [tableStep, insertText_ne_updateText]

theorem rowsOfArgs_flatten (m : Nat) :
    ∀ rows : List Row, (∀ r ∈ rows, r.length = m) → rowsOfArgs m rows.length rows.flatten = rows := by
  intro rows
  induction rows with
  | nil => intro _; rfl
  | cons r rest ih =>
    intro h
    have hr : r.length = m := h r (List.mem_cons_self _ _)
    rw [List.length_cons, List.flatten_cons, rowsOfArgs, ← hr, List.take_left, List.drop_left,
      hr, ih fun x hx => h x (List.mem_cons_of_mem _ hx)]

theorem flatten_length_rows (m : Nat) :
    ∀ rows : List Row, (∀ r ∈ rows, r.length = m) → rows.flatten.length = rows.length * m := by
  intro rows
  induction rows with
  | nil => intro _; simp
  | cons r rest ih =>
    intro h
    rw [List.flatten_cons, List.length_append, ih fun x hx => h x (List.mem_cons_of_mem _ hx),
      h r (List.mem_cons_self _ _), List.length_cons, Nat.succ_mul, Nat.add_comm]

theorem tableStep_bulk (table : String) (columns uniqueKeys : List String) (T : List Row)
    (rows : List Row) (hc : columns ≠ []) (hlen : ∀ r ∈ rows, r.length = columns.length) :
    tableStep table columns uniqueKeys T
        (.exec (bulkInsertText table columns rows.length uniqueKeys) rows.flatten)
      = (rows.foldl (upsertBy (keyValues columns uniqueKeys) (mergeRow columns uniqueKeys)) T,
          none) := by
  have hm : 0 < columns.length := List.length_pos.mpr hc
  have hn : rows.flatten.length / columns.length = rows.length := by
    rw [flatten_length_rows columns.length rows hlen, Nat.mul_div_cancel _ hm]
  simp only [tableStep]
  rw [if_neg (bulkInsertText_ne_updateText table columns uniqueKeys rows.length),
    if_neg (bulkInsertText_ne_insertText table columns uniqueKeys rows.length), hn, if_pos rfl,
    rowsOfArgs_flatten columns.length rows hlen]

theorem tableStep_createOp (U : UnicodeTables) (table : String) (columns uniqueKeys : List String)
    (T : List Row) :
    tableStep table columns uniqueKeys T (createOp U table uniqueKeys) = (T, none) := by
  have h1 : createIndexSql (quoted (deriveIndexName U table uniqueKeys "hash_idx")) (quoted table)
      (uniqueKeys.map quoted) ≠ updateText table columns uniqueKeys :=
    ne_of_head _ _ _ _ (createIndexSql_head _ _ _) (updateText_head _ _ _) (by decide)
  have h2 : createIndexSql (quoted (deriveIndexName U table uniqueKeys "hash_idx")) (quoted table)
      (uniqueKeys.map quoted) ≠ insertText table columns :=
    ne_of_head _ _ _ _ (createIndexSql_head _ _ _) (insertText_head _ _) (by decide)
  have h3 : ∀ n, createIndexSql (quoted (deriveIndexName U table uniqueKeys "hash_idx"))
      (quoted table) (uniqueKeys.map quoted) ≠ bulkInsertText table columns n uniqueKeys :=
    fun n => ne_of_head _ _ _ _ (createIndexSql_head _ _ _) (bulkInsertText_head _ _ _ _)
      (by decide)
  simp only [createOp, tableStep]
  rw [if_neg h1, if_neg h2, if_neg (h3 _)]

theorem finalTable_append (table : String) (columns uniqueKeys : List String) :
    ∀ (a b : List Op) (T : List Row),
      finalTable table columns uniqueKeys T (a ++ b)
        = finalTable table columns uniqueKeys (finalTable table columns uniqueKeys T a) b := by
  intro a
  induction a with
  | nil => intro b T; rfl
  | cons op rest ih => intro b T; rw [List.cons_append, finalTable, finalTable, ih]

theorem obeys_append (db : Db) (table : String) (columns uniqueKeys : List String) :
    ∀ (a b : List Op) (T : List Row) (pos : Nat),
      obeys db table columns uniqueKeys T pos (a ++ b)
        ↔ obeys db table columns uniqueKeys T pos a
          ∧ obeys db table columns uniqueKeys (finalTable table columns uniqueKeys T a)
              (pos + a.length) b := by
  intro a
  induction a with
  | nil => intro b T pos; simp [obeys, finalTable]
  | cons op rest ih =>
    intro b T pos
    rw [List.cons_append, obeys, obeys, finalTable, ih, List.length_cons, and_assoc,
      Nat.add_comm rest.length 1, Nat.add_assoc]

/-! ## The row-by-row strategy on the table model -/

/-- The row loop against a database that answers as the table model does: it succeeds, and
the table moves through the upserts of the rows in order. -/
theorem naiveRows_obeys (db : Db) (table : String) (columns uniqueKeys : List String)
    (hsub : ∀ k ∈ uniqueKeys, k ∈ columns) :
    ∀ (rows : List Row) (idx : Nat) (tr : List Op) (T : List Row) (body : List Op),
      (∀ r ∈ rows, r.length = columns.length) →
      (naiveRows db (quoted table) (probeText table uniqueKeys) (columns.map quoted) columns
        (columnIndexOf columns) uniqueKeys (uniqueKeys.map quoted) idx rows tr).2 = tr ++ body →
      obeys db table columns uniqueKeys T tr.length body →
      (naiveRows db (quoted table) (probeText table uniqueKeys) (columns.map quoted) columns
        (columnIndexOf columns) uniqueKeys (uniqueKeys.map quoted) idx rows tr).1 = Ret.ok
      ∧ finalTable table columns uniqueKeys T body
        = rows.foldl (upsertBy (keyValues columns uniqueKeys) fun _ r => r) T := by
  intro rows
  induction rows with
  | nil =>
    intro idx tr T body _ hbody _
    rw [naiveRows] at hbody ⊢
    have hb : body = [] := by
      have := List.append_cancel_left (hbody.symm.trans (List.append_nil tr).symm)
      exact this
    subst hb
    exact ⟨rfl, rfl⟩
  | cons r rest ih =>
    intro idx tr T body hlen hbody hob
    have hr : r.length = columns.length := hlen r (List.mem_cons_self _ _)
    have hrest : ∀ x ∈ rest, x.length = columns.length :=
      fun x hx => hlen x (List.mem_cons_of_mem _ hx)
    rw [naiveRows_step db table columns uniqueKeys hsub idx r rest tr hr] at hbody ⊢
    cases hd : db tr.length with
    | none =>
      rw [hd] at hbody
      simp only [] at hbody ⊢
      cases hd1 : db (tr.length + 1) with
      | some e =>
        exfalso
        rw [hd1] at hbody
        have hb := List.append_cancel_left hbody
        rw [← hb] at hob
        simp only [obeys, tableStep_probe, tableStep_update _ _ _ _ _ _ hr] at hob
        rw [hd1] at hob
        exact absurd hob.2.1 (by simp)
      | none =>
        rw [hd1] at hbody
        simp only [] at hbody ⊢
        obtain ⟨body1, hb1, _⟩ := naiveRows_body db (quoted table) (probeText table uniqueKeys)
          (columns.map quoted) columns (columnIndexOf columns) uniqueKeys (uniqueKeys.map quoted)
          rest (idx + 1)
          (tr ++ [.queryRow (probeText table uniqueKeys) (keyValues columns uniqueKeys r),
            .exec (updateText table columns uniqueKeys) (r ++ keyValues columns uniqueKeys r)])
        have hb : body = [.queryRow (probeText table uniqueKeys) (keyValues columns uniqueKeys r),
            .exec (updateText table columns uniqueKeys) (r ++ keyValues columns uniqueKeys r)]
            ++ body1 := by
          rw [hb1, List.append_assoc] at hbody
          exact (List.append_cancel_left hbody).symm
        subst hb
        simp only [List.cons_append, List.nil_append, obeys, tableStep_probe,
          tableStep_update _ _ _ _ _ _ hr] at hob
        rw [hd] at hob
        have hhas : hasKey (keyValues columns uniqueKeys) T (keyValues columns uniqueKeys r)
            = true := by
          by_contra hn
          rw [if_neg hn] at hob
          exact absurd hob.1 (by simp)
        have hpos : (tr ++ [Op.queryRow (probeText table uniqueKeys)
            (keyValues columns uniqueKeys r), Op.exec (updateText table columns uniqueKeys)
            (r ++ keyValues columns uniqueKeys r)]).length = tr.length + 1 + 1 := by simp
        have := ih (idx + 1) _ _ body1 hrest hb1 (by rw [hpos]; exact hob.2.2)
        refine ⟨this.1, ?_⟩
        simp only [List.cons_append, List.nil_append, finalTable, tableStep_probe,
          tableStep_update _ _ _ _ _ _ hr, List.foldl_cons]
        rw [upsertBy_of_has _ _ _ _ hhas]
        exact this.2
    | some e =>
      cases e with
      | other code =>
        exfalso
        rw [hd] at hbody
        have hb := List.append_cancel_left hbody
        rw [← hb] at hob
        simp only [obeys, tableStep_probe] at hob
        rw [hd] at hob
        by_cases hn : hasKey (keyValues columns uniqueKeys) T (keyValues columns uniqueKeys r) = true
        · rw [if_pos hn] at hob
          exact absurd hob.1 (by simp)
        · rw [if_neg hn] at hob
          exact absurd hob.1 (by simp)
      | noRows =>
        rw [hd] at hbody
        simp only [] at hbody ⊢
        cases hd1 : db (tr.length + 1) with
        | some e =>
          exfalso
          rw [hd1] at hbody
          have hb := List.append_cancel_left hbody
          rw [← hb] at hob
          simp only [obeys, tableStep_probe, tableStep_insert] at hob
          rw [hd1] at hob
          exact absurd hob.2.1 (by simp)
        | none =>
          rw [hd1] at hbody
          simp only [] at hbody ⊢
          obtain ⟨body1, hb1, _⟩ := naiveRows_body db (quoted table) (probeText table uniqueKeys)
            (columns.map quoted) columns (columnIndexOf columns) uniqueKeys
            (uniqueKeys.map quoted) rest (idx + 1)
            (tr ++ [.queryRow (probeText table uniqueKeys) (keyValues columns uniqueKeys r),
              .exec (insertText table columns) r])
          have hb : body = [.queryRow (probeText table uniqueKeys)
              (keyValues columns uniqueKeys r), .exec (insertText table columns) r]
              ++ body1 := by
            rw [hb1, List.append_assoc] at hbody
            exact (List.append_cancel_left hbody).symm
          subst hb
          simp only [List.cons_append, List.nil_append, obeys, tableStep_probe,
            tableStep_insert] at hob
          rw [hd] at hob
          have hhas : ¬ hasKey (keyValues columns uniqueKeys) T (keyValues columns uniqueKeys r)
              = true := by
            intro hn
            rw [if_pos hn] at hob
            exact absurd hob.1 (by simp)
          have hpos : (tr ++ [Op.queryRow (probeText table uniqueKeys)
              (keyValues columns uniqueKeys r), Op.exec (insertText table columns) r]).length
              = tr.length + 1 + 1 := by simp
          have := ih (idx + 1) _ _ body1 hrest hb1 (by rw [hpos]; exact hob.2.2)
          refine ⟨this.1, ?_⟩
          simp only [List.cons_append, List.nil_append, finalTable, tableStep_probe,
            tableStep_insert, List.foldl_cons]
          rw [upsertBy_of_not _ _ _ _ hhas]
          exact this.2

/-- The row-by-row strategy against a database that answers as the table model does: the call
succeeds and leaves the table after the upserts of the rows in batch order. -/
theorem naiveUpsert_table (U : UnicodeTables) (db : Db) (table : String)
    (columns : List String) (rows : List Row) (uniqueKeys : List String) (T : List Row)
    (hv : validCall U table columns rows uniqueKeys)
    (hob : obeys db table columns uniqueKeys T 0
      (NaiveUpserter.Upsert U db [] table columns rows uniqueKeys).2) :
    (NaiveUpserter.Upsert U db [] table columns rows uniqueKeys).1 = Ret.ok
      ∧ finalTable table columns uniqueKeys T
          (NaiveUpserter.Upsert U db [] table columns rows uniqueKeys).2
        = rows.foldl (upsertBy (keyValues columns uniqueKeys) fun _ r => r) T := by
  have hn := validNames_of_validCall U table columns rows uniqueKeys hv
  by_cases hne : rows = []
  · subst hne
    have h1 : ¬ columns.length = 0 := fun h => hv.1 (List.length_eq_zero.mp h)
    have h2 : ¬ uniqueKeys.length = 0 := fun h => hv.2.1 (List.length_eq_zero.mp h)
    have e : NaiveUpserter.Upsert U db [] table columns [] uniqueKeys = (Ret.ok, []) := by
      unfold NaiveUpserter.Upsert
      simp only [h1, h2, if_false, List.length_nil, if_true]
    rw [e]
    exact ⟨rfl, rfl⟩
  · have hbegin : db 0 = none := by
      obtain ⟨rest, hrest⟩ := naiveUpsert_first_op U db table columns rows uniqueKeys hn hne
      rw [hrest] at hob
      exact hob.1
    rw [naiveUpsert_begun U db table columns rows uniqueKeys hn hne hbegin] at hob ⊢
    obtain ⟨body, hbody, _⟩ := naiveRows_body db (quoted table) (probeText table uniqueKeys)
      (columns.map quoted) columns (columnIndexOf columns) uniqueKeys (uniqueKeys.map quoted)
      rows 0 [.begin]
    have key := naiveRows_obeys db table columns uniqueKeys hv.2.2.2.2.1 rows 0 [.begin] T body
      hv.2.2.2.2.2 hbody
    rcases hR : naiveRows db (quoted table) (probeText table uniqueKeys) (columns.map quoted)
      columns (columnIndexOf columns) uniqueKeys (uniqueKeys.map quoted) 0 rows [.begin]
      with ⟨ret, t⟩
    rw [hR] at hob hbody key
    simp only at hbody
    subst hbody
    cases ret with
    | ok =>
      simp only [] at hob ⊢
      cases hc : db ([Op.begin] ++ body).length with
      | some e =>
        exfalso
        rw [hc] at hob
        have hob2 : obeys db table columns uniqueKeys T 1 (body ++ [Op.commit, Op.rollback]) :=
          hob.2
        have h2 := ((obeys_append db table columns uniqueKeys body [Op.commit, Op.rollback] _ _).mp
          hob2).2
        have h3 : db (1 + body.length) = none := h2.1
        have hpos : ([Op.begin] ++ body).length = 1 + body.length := by
          simp [Nat.add_comm]
        rw [hpos, h3] at hc
        exact absurd hc (by simp)
      | none =>
        rw [hc] at hob
        have hob2 : obeys db table columns uniqueKeys T 1 (body ++ [Op.commit]) := hob.2
        have h2 := (obeys_append db table columns uniqueKeys body [Op.commit] _ _).mp hob2
        have hk := key h2.1
        refine ⟨rfl, ?_⟩
        change finalTable table columns uniqueKeys T (body ++ [Op.commit]) = _
        rw [finalTable_append]
        exact hk.2
    | err e =>
      exfalso
      have hob2 : obeys db table columns uniqueKeys T 1 (body ++ [Op.rollback]) := hob.2
      have h2 := (obeys_append db table columns uniqueKeys body [Op.rollback] _ _).mp hob2
      exact absurd (key h2.1).1 (by simp)
    | panic =>
      exfalso
      have hob2 : obeys db table columns uniqueKeys T 1 (body ++ [Op.rollback]) := hob.2
      have h2 := (obeys_append db table columns uniqueKeys body [Op.rollback] _ _).mp hob2
      exact absurd (key h2.1).1 (by simp)

/-! ## The conflict row -/

theorem lookup_columnIndexFrom_get (key : String) (cols : List String) :
    ∀ i m, key ∈ cols →
      ∃ j, (columnIndexFrom i cols m).lookup key = some j ∧ i ≤ j ∧ cols[j - i]? = some key := by
  induction cols with
  | nil => intro i m h; exact absurd h (List.not_mem_nil key)
  | cons c rest ih =>
    intro i m hmem
    by_cases hr : key ∈ rest
    · obtain ⟨j, hj, h1, h2⟩ := ih (i + 1) ((c, i) :: m) hr
      refine ⟨j, hj, by omega, ?_⟩
      have e : j - i = (j - (i + 1)) + 1 := by omega
      rw [e, List.getElem?_cons_succ]
      exact h2
    · have hkc : key = c := by
        rcases List.mem_cons.mp hmem with h | h
        · exact h
        · exact absurd h hr
      refine ⟨i, ?_, le_refl i, by simp [hkc]⟩
      simp only [columnIndexFrom]
      rw [(lookup_columnIndexFrom key rest (i + 1) ((c, i) :: m)).2 hr, hkc]
      exact lookup_cons_self c i m

theorem mergeRow_getD (columns uniqueKeys : List String) (old new : Row) (i : Nat)
    (hi : i < columns.length) :
    (mergeRow columns uniqueKeys old new).getD i Value.null
      = if uniqueKeys.contains (columns.getD i "") then old.getD i Value.null
        else new.getD i Value.null := by
  unfold mergeRow
  rw [List.getD_eq_getElem?_getD, List.getElem?_map, List.getElem?_range hi]
  rfl

theorem mergeRow_length (columns uniqueKeys : List String) (old new : Row) :
    (mergeRow columns uniqueKeys old new).length = columns.length := by
  simp [mergeRow]

theorem keyValues_mergeRow (columns uniqueKeys : List String)
    (hsub : ∀ k ∈ uniqueKeys, k ∈ columns) (old new : Row) :
    keyValues columns uniqueKeys (mergeRow columns uniqueKeys old new)
      = keyValues columns uniqueKeys old := by
  unfold keyValues
  apply List.map_congr_left
  intro k hk
  obtain ⟨j, hj, _, hget⟩ := lookup_columnIndexFrom_get k columns 0 [] (hsub k hk)
  have hj' : List.lookup k (columnIndexOf columns) = some j := hj
  rw [hj']
  simp only [Option.getD_some]
  have hjlt : j < columns.length := by
    by_contra hn
    rw [Nat.sub_zero, List.getElem?_eq_none (by omega)] at hget
    exact absurd hget (by simp)
  have hcol : columns.getD j "" = k := by
    rw [List.getD_eq_getElem?_getD]
    rw [Nat.sub_zero] at hget
    rw [hget]
    rfl
  rw [mergeRow_getD columns uniqueKeys old new j hjlt, hcol]
  have : uniqueKeys.contains k = true := by simpa using hk
  rw [if_pos this]

theorem mergeRow_absorb (columns uniqueKeys : List String) (x r l : Row) :
    mergeRow columns uniqueKeys (mergeRow columns uniqueKeys x r) l
      = mergeRow columns uniqueKeys x l := by
  conv_lhs => unfold mergeRow
  conv_rhs => unfold mergeRow
  apply List.map_congr_left
  intro i hi
  have hi' : i < columns.length := List.mem_range.mp hi
  by_cases hc : uniqueKeys.contains (columns.getD i "") = true
  · rw [if_pos hc, if_pos hc]
    have := mergeRow_getD columns uniqueKeys x r i hi'
    rw [if_pos hc] at this
    exact this
  · rw [if_neg hc, if_neg hc]

theorem mergeRow_self (columns uniqueKeys : List String) (r : Row)
    (hr : r.length = columns.length) : mergeRow columns uniqueKeys r r = r := by
  apply List.ext_getElem?
  intro i
  by_cases hi : i < columns.length
  · have h1 := mergeRow_getD columns uniqueKeys r r i hi
    simp only [ite_self] at h1
    have hl : i < (mergeRow columns uniqueKeys r r).length := by
      rw [mergeRow_length]; exact hi
    have hr' : i < r.length := by omega
    rw [List.getD_eq_getElem?_getD, List.getD_eq_getElem?_getD, List.getElem?_eq_getElem hl,
      List.getElem?_eq_getElem hr'] at h1
    rw [List.getElem?_eq_getElem hl, List.getElem?_eq_getElem hr']
    exact congrArg some h1
  · rw [List.getElem?_eq_none (by rw [mergeRow_length]; omega),
      List.getElem?_eq_none (by omega)]

/-! ## The Bulk and the Chunked strategy on the table model -/

theorem finalTable_chunkOps (U : UnicodeTables) (table : String) (columns uniqueKeys : List String)
    (T : List Row) (rows : List Row) (hc : columns ≠ [])
    (hlen : ∀ r ∈ rows, r.length = columns.length) :
    finalTable table columns uniqueKeys T (chunkOps U table columns uniqueKeys rows)
      = rows.foldl (upsertBy (keyValues columns uniqueKeys) (mergeRow columns uniqueKeys)) T := by
  simp only [chunkOps, finalTable, tableStep_createOp,
    tableStep_bulk table columns uniqueKeys _ rows hc hlen]

/-- The Bulk strategy on a batch without duplicate composite keys, against a database that
answers as the table model does: the call succeeds with its two statements and leaves the
table after the upserts of the rows. -/
theorem hashUpsert_obeys (U : UnicodeTables) (db : Db) (tr : List Op) (table : String)
    (columns : List String) (rows : List Row) (uniqueKeys : List String) (T : List Row)
    (body : List Op) (hv : validCall U table columns rows uniqueKeys) (hne : rows ≠ [])
    (hnd : (batchKeys columns uniqueKeys rows).Nodup)
    (hbody : (HashIndexedUpserter.Upsert U db tr table columns rows uniqueKeys).2 = tr ++ body)
    (hob : obeys db table columns uniqueKeys T tr.length body) :
    (HashIndexedUpserter.Upsert U db tr table columns rows uniqueKeys).1 = Ret.ok
      ∧ body = chunkOps U table columns uniqueKeys rows := by
  rw [hashUpsert_nodup U db tr table columns rows uniqueKeys hv hne hnd] at hbody ⊢
  cases hd : db tr.length with
  | some e =>
    exfalso
    rw [hd] at hbody
    have hb := List.append_cancel_left hbody
    rw [← hb] at hob
    have h1 : db tr.length = (tableStep table columns uniqueKeys T (createOp U table uniqueKeys)).2 :=
      hob.1
    rw [tableStep_createOp, hd] at h1
    exact absurd h1 (by simp)
  | none =>
    rw [hd] at hbody
    simp only [] at hbody ⊢
    cases hd1 : db (tr.length + 1) with
    | some e =>
      exfalso
      rw [hd1] at hbody
      have hb := List.append_cancel_left hbody
      rw [← hb] at hob
      have h1 : db (tr.length + 1) = (tableStep table columns uniqueKeys
          (tableStep table columns uniqueKeys T (createOp U table uniqueKeys)).1
          (.exec (bulkInsertText table columns rows.length uniqueKeys) rows.flatten)).2 :=
        hob.2.1
      rw [tableStep_createOp, tableStep_bulk table columns uniqueKeys _ rows hv.1 hv.2.2.2.2.2,
        hd1] at h1
      exact absurd h1 (by simp)
    | none =>
      rw [hd1] at hbody
      exact ⟨rfl, (List.append_cancel_left hbody).symm⟩

theorem hashUpsert_not_ok (U : UnicodeTables) (db : Db) (tr : List Op) (table : String)
    (columns : List String) (rows : List Row) (uniqueKeys : List String)
    (hv : validCall U table columns rows uniqueKeys) (hne : rows ≠ [])
    (hnd : ¬ (batchKeys columns uniqueKeys rows).Nodup) :
    (HashIndexedUpserter.Upsert U db tr table columns rows uniqueKeys).1 ≠ Ret.ok := by
  obtain ⟨ks, hks⟩ := batchKeys_some columns uniqueKeys rows hv.2.2.2.2.1 hv.2.2.2.2.2
  rw [hashUpsert_valid U db tr table columns rows uniqueKeys hv hne ks hks]
  have hsc : scanKeys 0 ks [] ≠ none := by
    intro h
    rw [scanKeys_zero_none_iff] at h
    exact hnd (by rw [hks]; exact h.map (Option.some_injective _))
  cases db tr.length with
  | some e => simp
  | none =>
    cases hs : scanKeys 0 ks [] with
    | none => exact absurd hs hsc
    | some pq => simp

theorem runChunks_ok_nodup (U : UnicodeTables) (db : Db) (table : String)
    (columns uniqueKeys : List String) :
    ∀ chunks tr calls,
      (∀ ch ∈ chunks, ch ≠ [] ∧ validCall U table columns ch uniqueKeys) →
      (runChunks U db table columns uniqueKeys chunks tr calls).1 = Ret.ok →
      ∀ ch ∈ chunks, (batchKeys columns uniqueKeys ch).Nodup := by
  intro chunks
  induction chunks with
  | nil => intro tr calls _ _ ch hch; simp at hch
  | cons c0 cs ih =>
    intro tr calls hval hok ch hch
    obtain ⟨hne, hvc⟩ := hval c0 (List.mem_cons_self _ _)
    rw [runChunks] at hok
    rcases hU : HashIndexedUpserter.Upsert U db tr table columns c0 uniqueKeys with ⟨ret, t1⟩
    rw [hU] at hok
    cases ret with
    | ok =>
      simp only [] at hok
      rcases List.mem_cons.mp hch with rfl | hch
      · by_contra hnd
        have := hashUpsert_not_ok U db tr table columns ch uniqueKeys hvc hne hnd
        rw [hU] at this
        exact this rfl
      · exact ih t1 _ (fun x hx => hval x (List.mem_cons_of_mem _ hx)) hok ch hch
    | err e => simp at hok
    | panic => simp at hok

/-- The Chunked run over chunks without duplicate composite keys, against a database that
answers as the table model does: it succeeds and leaves the table after the upserts of all
rows in batch order. -/
theorem runChunks_obeys (U : UnicodeTables) (db : Db) (table : String)
    (columns uniqueKeys : List String) :
    ∀ (chunks : List (List Row)) (tr : List Op) (calls : List (List Row)) (T : List Row)
      (body : List Op),
      (∀ ch ∈ chunks, ch ≠ [] ∧ validCall U table columns ch uniqueKeys) →
      (∀ ch ∈ chunks, (batchKeys columns uniqueKeys ch).Nodup) →
      (runChunks U db table columns uniqueKeys chunks tr calls).2.1 = tr ++ body →
      obeys db table columns uniqueKeys T tr.length body →
      (runChunks U db table columns uniqueKeys chunks tr calls).1 = Ret.ok
        ∧ finalTable table columns uniqueKeys T body
          = chunks.flatten.foldl
              (upsertBy (keyValues columns uniqueKeys) (mergeRow columns uniqueKeys)) T := by
  intro chunks
  induction chunks with
  | nil =>
    intro tr calls T body _ _ hbody _
    rw [runChunks] at hbody ⊢
    have hb : body = [] :=
      List.append_cancel_left (hbody.symm.trans (List.append_nil tr).symm)
    subst hb
    exact ⟨rfl, rfl⟩
  | cons c0 cs ih =>
    intro tr calls T body hval hnd hbody hob
    obtain ⟨hne, hvc⟩ := hval c0 (List.mem_cons_self _ _)
    obtain ⟨b1, hb1⟩ := hashUpsert_prefix U db tr table columns c0 uniqueKeys
    have hpre := runChunks_prefix U db table columns uniqueKeys cs
      (HashIndexedUpserter.Upsert U db tr table columns c0 uniqueKeys).2 (calls ++ [c0])
    rw [runChunks] at hbody ⊢
    rcases hU : HashIndexedUpserter.Upsert U db tr table columns c0 uniqueKeys with ⟨ret, t1⟩
    rw [hU] at hbody hb1 hpre
    simp only at hb1 hpre
    subst hb1
    have hsplit : ∃ b2, body = b1 ++ b2 := by
      cases ret with
      | ok =>
        simp only [] at hbody
        obtain ⟨b2, h2⟩ := hpre
        rw [hbody, List.append_assoc] at h2
        exact ⟨b2, (List.append_cancel_left h2).symm⟩
      | err e =>
        simp only [] at hbody
        exact ⟨[], by rw [List.append_nil]; exact (List.append_cancel_left hbody).symm⟩
      | panic =>
        simp only [] at hbody
        exact ⟨[], by rw [List.append_nil]; exact (List.append_cancel_left hbody).symm⟩
    obtain ⟨b2, rfl⟩ := hsplit
    have hob2 := (obeys_append db table columns uniqueKeys b1 b2 T tr.length).mp hob
    have h1 := hashUpsert_obeys U db tr table columns c0 uniqueKeys T b1 hvc hne
      (hnd c0 (List.mem_cons_self _ _)) (by rw [hU]) hob2.1
    rw [hU] at h1
    simp only at h1
    obtain ⟨hret, hb1⟩ := h1
    subst hret
    simp only [] at hbody ⊢
    rw [← List.append_assoc] at hbody
    have := ih (tr ++ b1) (calls ++ [c0]) (finalTable table columns uniqueKeys T b1) b2
      (fun x hx => hval x (List.mem_cons_of_mem _ hx))
      (fun x hx => hnd x (List.mem_cons_of_mem _ hx)) hbody
      (by rw [List.length_append]; exact hob2.2)
    refine ⟨this.1, ?_⟩
    rw [finalTable_append, this.2, hb1, finalTable_chunkOps U table columns uniqueKeys T c0 hvc.1
      hvc.2.2.2.2.2, List.flatten_cons, List.foldl_append]

/-! ## Running a strategy twice -/

theorem naiveUpsert_twice (U : UnicodeTables) (db1 db2 : Db) (table : String)
    (columns : List String) (rows : List Row) (uniqueKeys : List String) (T : List Row)
    (hv : validCall U table columns rows uniqueKeys)
    (h1 : obeys db1 table columns uniqueKeys T 0
      (NaiveUpserter.Upsert U db1 [] table columns rows uniqueKeys).2)
    (h2 : obeys db2 table columns uniqueKeys
      (finalTable table columns uniqueKeys T
        (NaiveUpserter.Upsert U db1 [] table columns rows uniqueKeys).2) 0
      (NaiveUpserter.Upsert U db2 [] table columns rows uniqueKeys).2) :
    (NaiveUpserter.Upsert U db1 [] table columns rows uniqueKeys).1 = Ret.ok
      ∧ (NaiveUpserter.Upsert U db2 [] table columns rows uniqueKeys).1 = Ret.ok
      ∧ finalTable table columns uniqueKeys
          (finalTable table columns uniqueKeys T
            (NaiveUpserter.Upsert U db1 [] table columns rows uniqueKeys).2)
          (NaiveUpserter.Upsert U db2 [] table columns rows uniqueKeys).2
        = finalTable table columns uniqueKeys T
            (NaiveUpserter.Upsert U db1 [] table columns rows uniqueKeys).2 := by
  obtain ⟨hok1, hf1⟩ := naiveUpsert_table U db1 table columns rows uniqueKeys T hv h1
  obtain ⟨hok2, hf2⟩ := naiveUpsert_table U db2 table columns rows uniqueKeys _ hv h2
  refine ⟨hok1, hok2, ?_⟩
  rw [hf2, hf1]
  exact foldl_upsert_idem (keyValues columns uniqueKeys) (fun _ r => r) (fun _ _ h => h.symm)
    (fun _ _ _ => rfl) rows T (fun _ _ => rfl)

theorem foldl_merge_idem (columns uniqueKeys : List String)
    (hsub : ∀ k ∈ uniqueKeys, k ∈ columns) (rows T : List Row)
    (hlen : ∀ r ∈ rows, r.length = columns.length) :
    rows.foldl (upsertBy (keyValues columns uniqueKeys) (mergeRow columns uniqueKeys))
        (rows.foldl (upsertBy (keyValues columns uniqueKeys) (mergeRow columns uniqueKeys)) T)
      = rows.foldl (upsertBy (keyValues columns uniqueKeys) (mergeRow columns uniqueKeys)) T :=
  foldl_upsert_idem (keyValues columns uniqueKeys) (mergeRow columns uniqueKeys)
    (fun x r _ => keyValues_mergeRow columns uniqueKeys hsub x r)
    (fun x r l => mergeRow_absorb columns uniqueKeys x r l) rows T
    (fun r hr => mergeRow_self columns uniqueKeys r (hlen r hr))

theorem hashUpsert_table (U : UnicodeTables) (db : Db) (table : String)
    (columns : List String) (rows : List Row) (uniqueKeys : List String) (T : List Row)
    (hv : validCall U table columns rows uniqueKeys)
    (hnd : rows ≠ [] → (batchKeys columns uniqueKeys rows).Nodup)
    (hob : obeys db table columns uniqueKeys T 0
      (HashIndexedUpserter.Upsert U db [] table columns rows uniqueKeys).2) :
    (HashIndexedUpserter.Upsert U db [] table columns rows uniqueKeys).1 = Ret.ok
      ∧ finalTable table columns uniqueKeys T
          (HashIndexedUpserter.Upsert U db [] table columns rows uniqueKeys).2
        = rows.foldl (upsertBy (keyValues columns uniqueKeys) (mergeRow columns uniqueKeys)) T := by
  by_cases hne : rows = []
  · subst hne
    have h1 : ¬ columns.length = 0 := fun h => hv.1 (List.length_eq_zero.mp h)
    have h2 : ¬ uniqueKeys.length = 0 := fun h => hv.2.1 (List.length_eq_zero.mp h)
    have e : HashIndexedUpserter.Upsert U db [] table columns [] uniqueKeys = (Ret.ok, []) := by
      unfold HashIndexedUpserter.Upsert
      simp only [h1, h2, if_false, List.length_nil, if_true]
    rw [e]
    exact ⟨rfl, rfl⟩
  · obtain ⟨hok, hb⟩ := hashUpsert_obeys U db [] table columns rows uniqueKeys T
      (HashIndexedUpserter.Upsert U db [] table columns rows uniqueKeys).2 hv hne (hnd hne)
      (List.nil_append _).symm hob
    refine ⟨hok, ?_⟩
    rw [hb, finalTable_chunkOps U table columns uniqueKeys T rows hv.1 hv.2.2.2.2.2]

theorem hashUpsert_twice (U : UnicodeTables) (db1 db2 : Db) (table : String)
    (columns : List String) (rows : List Row) (uniqueKeys : List String) (T : List Row)
    (hv : validCall U table columns rows uniqueKeys)
    (hok : (HashIndexedUpserter.Upsert U db1 [] table columns rows uniqueKeys).1 = Ret.ok)
    (h1 : obeys db1 table columns uniqueKeys T 0
      (HashIndexedUpserter.Upsert U db1 [] table columns rows uniqueKeys).2)
    (h2 : obeys db2 table columns uniqueKeys
      (finalTable table columns uniqueKeys T
        (HashIndexedUpserter.Upsert U db1 [] table columns rows uniqueKeys).2) 0
      (HashIndexedUpserter.Upsert U db2 [] table columns rows uniqueKeys).2) :
    (HashIndexedUpserter.Upsert U db2 [] table columns rows uniqueKeys).1 = Ret.ok
      ∧ finalTable table columns uniqueKeys
          (finalTable table columns uniqueKeys T
            (HashIndexedUpserter.Upsert U db1 [] table columns rows uniqueKeys).2)
          (HashIndexedUpserter.Upsert U db2 [] table columns rows uniqueKeys).2
        = finalTable table columns uniqueKeys T
            (HashIndexedUpserter.Upsert U db1 [] table columns rows uniqueKeys).2 := by
  have hnd : rows ≠ [] → (batchKeys columns uniqueKeys rows).Nodup := by
    intro hne
    by_contra hn
    exact hashUpsert_not_ok U db1 [] table columns rows uniqueKeys hv hne hn hok
  obtain ⟨_, hf1⟩ := hashUpsert_table U db1 table columns rows uniqueKeys T hv hnd h1
  obtain ⟨hok2, hf2⟩ := hashUpsert_table U db2 table columns rows uniqueKeys _ hv hnd h2
  refine ⟨hok2, ?_⟩
  rw [hf2, hf1]
  exact foldl_merge_idem columns uniqueKeys hv.2.2.2.2.1 rows T hv.2.2.2.2.2

theorem batched_twice (U : UnicodeTables) (db1 db2 : Db) (batchSize : Int) (table : String)
    (columns : List String) (rows : List Row) (uniqueKeys : List String) (T : List Row)
    (hv : validCall U table columns rows uniqueKeys) (t1 : List Op) (c1 : List (List Row))
    (hfirst : BatchedHashIndexedUpserter.Upsert U db1 batchSize [] table columns rows uniqueKeys
      = some (Ret.ok, t1, c1))
    (h1 : obeys db1 table columns uniqueKeys T 0 t1) :
    ∃ r2 t2 c2,
      BatchedHashIndexedUpserter.Upsert U db2 batchSize [] table columns rows uniqueKeys
        = some (r2, t2, c2)
      ∧ (obeys db2 table columns uniqueKeys (finalTable table columns uniqueKeys T t1) 0 t2 →
        r2 = Ret.ok
          ∧ finalTable table columns uniqueKeys (finalTable table columns uniqueKeys T t1) t2
            = finalTable table columns uniqueKeys T t1) := by
  have hc1 : ¬ columns.length = 0 := fun h => hv.1 (List.length_eq_zero.mp h)
  have hc2 : ¬ uniqueKeys.length = 0 := fun h => hv.2.1 (List.length_eq_zero.mp h)
  by_cases hne : rows = []
  · subst hne
    have e : ∀ db, BatchedHashIndexedUpserter.Upsert U db batchSize [] table columns [] uniqueKeys
        = some (Ret.ok, [], []) := by
      intro db
      unfold BatchedHashIndexedUpserter.Upsert
      simp only [hc1, hc2, if_false, List.length_nil, if_true]
    rw [e db1] at hfirst
    simp only [Option.some.injEq, Prod.mk.injEq, true_and] at hfirst
    obtain ⟨rfl, _⟩ := hfirst
    exact ⟨_, _, _, e db2, fun _ => ⟨rfl, rfl⟩⟩
  · have hr : ¬ rows.length = 0 := fun h => hne (List.length_eq_zero.mp h)
    by_cases hs : batchSize ≤ 0
    · exfalso
      unfold BatchedHashIndexedUpserter.Upsert at hfirst
      simp only [hc1, hc2, hr, hs, if_false, if_true, Option.some.injEq, Prod.mk.injEq] at hfirst
      exact absurd hfirst.1 (by simp)
    · have hpos : 0 < batchSize.toNat := by omega
      have hcast : ((batchSize.toNat : Nat) : Int) = batchSize := Int.toNat_of_nonneg (by omega)
      have hval : ∀ ch ∈ chunksOf batchSize.toNat rows,
          ch ≠ [] ∧ validCall U table columns ch uniqueKeys :=
        fun ch hch => ⟨(chunksOf_forall _ rows hpos ch hch).1,
          validCall_of_subset U table columns rows ch uniqueKeys hv
            (chunksOf_forall _ rows hpos ch hch).2.2⟩
      rw [← hcast, batched_eq_run U db1 _ hpos [] table columns rows uniqueKeys hv.1 hv.2.1,
        Option.some.injEq] at hfirst
      have hnd := runChunks_ok_nodup U db1 table columns uniqueKeys _ [] [] hval
        (by rw [hfirst])
      have hf1 := (runChunks_obeys U db1 table columns uniqueKeys _ [] [] T t1 hval hnd
        (by rw [hfirst]; rfl) h1).2
      rw [chunksOf_flatten _ hpos rows] at hf1
      rw [← hcast, batched_eq_run U db2 _ hpos [] table columns rows uniqueKeys hv.1 hv.2.1]
      refine ⟨_, _, _, rfl, fun h2 => ?_⟩
      obtain ⟨hok2, hf2⟩ := runChunks_obeys U db2 table columns uniqueKeys _ [] []
        (finalTable table columns uniqueKeys T t1) _ hval hnd (List.nil_append _).symm h2
      refine ⟨hok2, ?_⟩
      rw [hf2, chunksOf_flatten _ hpos rows, hf1]
      exact foldl_merge_idem columns uniqueKeys hv.2.2.2.2.1 rows T hv.2.2.2.2.2

/-- C22: idempotence on the table model (probe, `UPDATE` and `INSERT` for the row-by-row
strategy; `INSERT ... ON CONFLICT DO UPDATE` or `DO NOTHING` for the Bulk and the Chunked
strategy; no database errors). For each strategy and every valid batch on which a first call
succeeds against a database answering as the table does, a second call with the same
arguments, run against the table the first one left, succeeds too and leaves the table as
the first call left it. -/
theorem upsert_idempotent (U : UnicodeTables) (db1 db2 : Db) (batchSize : Int) (table : String)
    (columns : List String) (rows : List Row) (uniqueKeys : List String) (T : List Row)
    (hv : validCall U table columns rows uniqueKeys) :
    (obeys db1 table columns uniqueKeys T 0
        (NaiveUpserter.Upsert U db1 [] table columns rows uniqueKeys).2 →
      obeys db2 table columns uniqueKeys
        (finalTable table columns uniqueKeys T
          (NaiveUpserter.Upsert U db1 [] table columns rows uniqueKeys).2) 0
        (NaiveUpserter.Upsert U db2 [] table columns rows uniqueKeys).2 →
      (NaiveUpserter.Upsert U db1 [] table columns rows uniqueKeys).1 = Ret.ok
        ∧ (NaiveUpserter.Upsert U db2 [] table columns rows uniqueKeys).1 = Ret.ok
        ∧ finalTable table columns uniqueKeys
            (finalTable table columns uniqueKeys T
              (NaiveUpserter.Upsert U db1 [] table columns rows uniqueKeys).2)
            (NaiveUpserter.Upsert U db2 [] table columns rows uniqueKeys).2
          = finalTable table columns uniqueKeys T
              (NaiveUpserter.Upsert U db1 [] table columns rows uniqueKeys).2)
    ∧ ((HashIndexedUpserter.Upsert U db1 [] table columns rows uniqueKeys).1 = Ret.ok →
      obeys db1 table columns uniqueKeys T 0
        (HashIndexedUpserter.Upsert U db1 [] table columns rows uniqueKeys).2 →
      obeys db2 table columns uniqueKeys
        (finalTable table columns uniqueKeys T
          (HashIndexedUpserter.Upsert U db1 [] table columns rows uniqueKeys).2) 0
        (HashIndexedUpserter.Upsert U db2 [] table columns rows uniqueKeys).2 →
      (HashIndexedUpserter.Upsert U db2 [] table columns rows uniqueKeys).1 = Ret.ok
        ∧ finalTable table columns uniqueKeys
            (finalTable table columns uniqueKeys T
              (HashIndexedUpserter.Upsert U db1 [] table columns rows uniqueKeys).2)
            (HashIndexedUpserter.Upsert U db2 [] table columns rows uniqueKeys).2
          = finalTable table columns uniqueKeys T
              (HashIndexedUpserter.Upsert U db1 [] table columns rows uniqueKeys).2)
    ∧ (∀ t1 c1,
      BatchedHashIndexedUpserter.Upsert U db1 batchSize [] table columns rows uniqueKeys
        = some (Ret.ok, t1, c1) →
      obeys db1 table columns uniqueKeys T 0 t1 →
      ∃ r2 t2 c2,
        BatchedHashIndexedUpserter.Upsert U db2 batchSize [] table columns rows uniqueKeys
          = some (r2, t2, c2)
        ∧ (obeys db2 table columns uniqueKeys (finalTable table columns uniqueKeys T t1) 0 t2 →
          r2 = Ret.ok
            ∧ finalTable table columns uniqueKeys (finalTable table columns uniqueKeys T t1) t2
              = finalTable table columns uniqueKeys T t1)) :=
  ⟨fun h1 h2 => naiveUpsert_twice U db1 db2 table columns rows uniqueKeys T hv h1 h2,
    fun hok h1 h2 => hashUpsert_twice U db1 db2 table columns rows uniqueKeys T hv hok h1 h2,
    fun t1 c1 hfirst h1 =>
      batched_twice U db1 db2 batchSize table columns rows uniqueKeys T hv t1 c1 hfirst h1⟩

set_option maxRecDepth 8192 in
/-- C22, witness: on the table holding `[1, Old]`, the batch `[1, John]`, `[2, Jane]` with key
`id` leaves `[1, John]`, `[2, Jane]` after one row-by-row call (an update, then an insert)
and after a second one (two updates), and likewise after one and after two Bulk calls. -/
theorem upsert_idempotent_witness :
    validCall latin1Tables "users" ["id", "name"] [[.int 1, .str "John"], [.int 2, .str "Jane"]]
        ["id"]
      ∧ finalTable "users" ["id", "name"] ["id"] [[.int 1, .str "Old"]]
          (NaiveUpserter.Upsert latin1Tables secondRowIsNew [] "users" ["id", "name"]
            [[.int 1, .str "John"], [.int 2, .str "Jane"]] ["id"]).2
        = [[.int 1, .str "John"], [.int 2, .str "Jane"]]
      ∧ finalTable "users" ["id", "name"] ["id"]
          (finalTable "users" ["id", "name"] ["id"] [[.int 1, .str "Old"]]
            (NaiveUpserter.Upsert latin1Tables secondRowIsNew [] "users" ["id", "name"]
              [[.int 1, .str "John"], [.int 2, .str "Jane"]] ["id"]).2)
          (NaiveUpserter.Upsert latin1Tables (fun _ => none) [] "users" ["id", "name"]
            [[.int 1, .str "John"], [.int 2, .str "Jane"]] ["id"]).2
        = finalTable "users" ["id", "name"] ["id"] [[.int 1, .str "Old"]]
            (NaiveUpserter.Upsert latin1Tables secondRowIsNew [] "users" ["id", "name"]
              [[.int 1, .str "John"], [.int 2, .str "Jane"]] ["id"]).2
      ∧ finalTable "users" ["id", "name"] ["id"]
          (finalTable "users" ["id", "name"] ["id"] [[.int 1, .str "Old"]]
            (HashIndexedUpserter.Upsert latin1Tables (fun _ => none) [] "users" ["id", "name"]
              [[.int 1, .str "John"], [.int 2, .str "Jane"]] ["id"]).2)
          (HashIndexedUpserter.Upsert latin1Tables (fun _ => none) [] "users" ["id", "name"]
            [[.int 1, .str "John"], [.int 2, .str "Jane"]] ["id"]).2
        = finalTable "users" ["id", "name"] ["id"] [[.int 1, .str "Old"]]
            (HashIndexedUpserter.Upsert latin1Tables (fun _ => none) [] "users" ["id", "name"]
              [[.int 1, .str "John"], [.int 2, .str "Jane"]] ["id"]).2 :=
  have hv : validCall latin1Tables "users" ["id", "name"]
      [[.int 1, .str "John"], [.int 2, .str "Jane"]] ["id"] := by
    unfold validCall
    decide
  have ht1 : NaiveUpserter.Upsert latin1Tables secondRowIsNew [] "users" ["id", "name"]
      [[.int 1, .str "John"], [.int 2, .str "Jane"]] ["id"]
      = (Ret.ok, [.begin,
          .queryRow (probeText "users" ["id"]) [.int 1],
          .exec (updateText "users" ["id", "name"] ["id"]) [.int 1, .str "John", .int 1],
          .queryRow (probeText "users" ["id"]) [.int 2],
          .exec (insertText "users" ["id", "name"]) [.int 2, .str "Jane"],
          .commit]) := by
    decide!
  have ht2 : NaiveUpserter.Upsert latin1Tables (fun _ => none) [] "users" ["id", "name"]
      [[.int 1, .str "John"], [.int 2, .str "Jane"]] ["id"]
      = (Ret.ok, [.begin,
          .queryRow (probeText "users" ["id"]) [.int 1],
          .exec (updateText "users" ["id", "name"] ["id"]) [.int 1, .str "John", .int 1],
          .queryRow (probeText "users" ["id"]) [.int 2],
          .exec (updateText "users" ["id", "name"] ["id"]) [.int 2, .str "Jane", .int 2],
          .commit]) := by
    decide!
  have hb : HashIndexedUpserter.Upsert latin1Tables (fun _ => none) [] "users" ["id", "name"]
      [[.int 1, .str "John"], [.int 2, .str "Jane"]] ["id"]
      = (Ret.ok, chunkOps latin1Tables "users" ["id", "name"] ["id"]
          [[.int 1, .str "John"], [.int 2, .str "Jane"]]) := by
    decide!
  have hf1 : finalTable "users" ["id", "name"] ["id"] [[.int 1, .str "Old"]]
      (NaiveUpserter.Upsert latin1Tables secondRowIsNew [] "users" ["id", "name"]
        [[.int 1, .str "John"], [.int 2, .str "Jane"]] ["id"]).2
      = [[.int 1, .str "John"], [.int 2, .str "Jane"]] := by
    rw [ht1]
    decide!
  have ho1 : obeys secondRowIsNew "users" ["id", "name"] ["id"] [[.int 1, .str "Old"]] 0
      (NaiveUpserter.Upsert latin1Tables secondRowIsNew [] "users" ["id", "name"]
        [[.int 1, .str "John"], [.int 2, .str "Jane"]] ["id"]).2 := by
    rw [ht1]
    exact ⟨by decide!, by decide!, by decide!, by decide!, by decide!, by decide!, trivial⟩
  have ho2 : obeys (fun _ => none) "users" ["id", "name"] ["id"]
      (finalTable "users" ["id", "name"] ["id"] [[.int 1, .str "Old"]]
        (NaiveUpserter.Upsert latin1Tables secondRowIsNew [] "users" ["id", "name"]
          [[.int 1, .str "John"], [.int 2, .str "Jane"]] ["id"]).2) 0
      (NaiveUpserter.Upsert latin1Tables (fun _ => none) [] "users" ["id", "name"]
        [[.int 1, .str "John"], [.int 2, .str "Jane"]] ["id"]).2 := by
    rw [hf1, ht2]
    exact ⟨by decide!, by decide!, by decide!, by decide!, by decide!, by decide!, trivial⟩
  have hbf : finalTable "users" ["id", "name"] ["id"] [[.int 1, .str "Old"]]
      (HashIndexedUpserter.Upsert latin1Tables (fun _ => none) [] "users" ["id", "name"]
        [[.int 1, .str "John"], [.int 2, .str "Jane"]] ["id"]).2
      = [[.int 1, .str "John"], [.int 2, .str "Jane"]] := by
    rw [hb]
    decide!
  have hbo1 : obeys (fun _ => none) "users" ["id", "name"] ["id"] [[.int 1, .str "Old"]] 0
      (HashIndexedUpserter.Upsert latin1Tables (fun _ => none) [] "users" ["id", "name"]
        [[.int 1, .str "John"], [.int 2, .str "Jane"]] ["id"]).2 := by
    rw [hb]
    exact ⟨by decide!, by decide!, trivial⟩
  have hbo2 : obeys (fun _ => none) "users" ["id", "name"] ["id"]
      (finalTable "users" ["id", "name"] ["id"] [[.int 1, .str "Old"]]
        (HashIndexedUpserter.Upsert latin1Tables (fun _ => none) [] "users" ["id", "name"]
          [[.int 1, .str "John"], [.int 2, .str "Jane"]] ["id"]).2) 0
      (HashIndexedUpserter.Upsert latin1Tables (fun _ => none) [] "users" ["id", "name"]
        [[.int 1, .str "John"], [.int 2, .str "Jane"]] ["id"]).2 := by
    rw [hbf, hb]
    exact ⟨by decide!, by decide!, trivial⟩
  have hbok : (HashIndexedUpserter.Upsert latin1Tables (fun _ => none) [] "users" ["id", "name"]
      [[.int 1, .str "John"], [.int 2, .str "Jane"]] ["id"]).1 = Ret.ok := by
    decide!
  have hall := upsert_idempotent latin1Tables secondRowIsNew (fun _ => none) 500 "users"
    ["id", "name"] [[.int 1, .str "John"], [.int 2, .str "Jane"]] ["id"] [[.int 1, .str "Old"]] hv
  have hbulk := upsert_idempotent latin1Tables (fun _ => none) (fun _ => none) 500 "users"
    ["id", "name"] [[.int 1, .str "John"], [.int 2, .str "Jane"]] ["id"] [[.int 1, .str "Old"]] hv
  ⟨hv, hf1, (hall.1 ho1 ho2).2.2, (hbulk.2.1 hbok hbo1 hbo2).2⟩

/-! ## A database that answers as the table -/

theorem tableAnswers_length (columns uniqueKeys : List String) :
    ∀ (rows T : List Row), (tableAnswers columns uniqueKeys T rows).length = 2 * rows.length := by
  intro rows
  induction rows with
  | nil => intro T; rfl
  | cons r rest ih =>
    intro T
    rw [tableAnswers, List.length_cons, List.length_cons, ih, List.length_cons]
    omega

theorem tableAnswers_getD (columns uniqueKeys : List String) :
    ∀ (rows T : List Row) (j : Nat),
      ((tableAnswers columns uniqueKeys T rows).getD (2 * j) none = none
        ∨ (tableAnswers columns uniqueKeys T rows).getD (2 * j) none = some DbErr.noRows)
      ∧ (tableAnswers columns uniqueKeys T rows).getD (2 * j + 1) none = none := by
  intro rows
  induction rows with
  | nil => intro T j; simp [tableAnswers]
  | cons r rest ih =>
    intro T j
    rw [tableAnswers]
    cases j with
    | zero =>
      by_cases h : hasKey (keyValues columns uniqueKeys) T (keyValues columns uniqueKeys r) = true
      · simp [h]
      · simp [h]
    | succ j =>
      have e1 : 2 * (j + 1) = 2 * j + 1 + 1 := by omega
      rw [e1]
      simp only [List.getD_cons_succ]
      exact ih _ j

theorem naiveRowOps_obeys (db : Db) (table : String) (columns uniqueKeys : List String) :
    ∀ (rows T : List Row) (pos : Nat), (∀ r ∈ rows, r.length = columns.length) →
      (∀ i, i < 2 * rows.length →
        db (pos + i) = (tableAnswers columns uniqueKeys T rows).getD i none) →
      obeys db table columns uniqueKeys T pos (naiveRowOps db table columns uniqueKeys pos rows) := by
  intro rows
  induction rows with
  | nil => intro T pos _ _; trivial
  | cons r rest ih =>
    intro T pos hlen hdb
    have hr : r.length = columns.length := hlen r (List.mem_cons_self _ _)
    have h0 := hdb 0 (by simp only [List.length_cons]; omega)
    have h1 := hdb 1 (by simp only [List.length_cons]; omega)
    rw [tableAnswers] at h0 h1
    simp only [Nat.add_zero, List.getD_cons_zero, List.getD_cons_succ] at h0 h1
    have hrest : ∀ i, i < 2 * rest.length →
        db (pos + 2 + i) = (tableAnswers columns uniqueKeys
          (upsertBy (keyValues columns uniqueKeys) (fun _ r => r) T r) rest).getD i none := by
      intro i hi
      have := hdb (i + 2) (by simp only [List.length_cons]; omega)
      rw [tableAnswers] at this
      simp only [List.getD_cons_succ] at this
      rw [← this]
      congr 1
      omega
    rw [naiveRowOps]
    by_cases hh : hasKey (keyValues columns uniqueKeys) T (keyValues columns uniqueKeys r) = true
    · rw [if_pos hh] at h0
      rw [h0]
      simp only [obeys, tableStep_probe, tableStep_update _ _ _ _ _ _ hr, if_pos hh, h0, h1,
        true_and]
      have := ih _ (pos + 2) (fun x hx => hlen x (List.mem_cons_of_mem _ hx)) hrest
      rw [upsertBy_of_has _ _ _ _ hh] at this
      exact this
    · rw [if_neg hh] at h0
      rw [h0]
      simp only [obeys, tableStep_probe, tableStep_insert, if_neg hh, h0, h1, true_and]
      have := ih _ (pos + 2) (fun x hx => hlen x (List.mem_cons_of_mem _ hx)) hrest
      rw [upsertBy_of_not _ _ _ _ hh] at this
      exact this

/-- The oracle built from the table answers the operations of the row-by-row call as the
table model does. -/
theorem tableOracle_obeys (U : UnicodeTables) (table : String) (columns : List String)
    (rows : List Row) (uniqueKeys : List String) (T : List Row)
    (hv : validCall U table columns rows uniqueKeys) :
    obeys (tableOracle columns uniqueKeys T rows) table columns uniqueKeys T 0
      (NaiveUpserter.Upsert U (tableOracle columns uniqueKeys T rows) [] table columns rows
        uniqueKeys).2 := by
  by_cases hne : rows = []
  · subst hne
    have h1 : ¬ columns.length = 0 := fun h => hv.1 (List.length_eq_zero.mp h)
    have h2 : ¬ uniqueKeys.length = 0 := fun h => hv.2.1 (List.length_eq_zero.mp h)
    have e : NaiveUpserter.Upsert U (tableOracle columns uniqueKeys T []) [] table columns []
        uniqueKeys = (Ret.ok, []) := by
      unfold NaiveUpserter.Upsert
      simp only [h1, h2, if_false, List.length_nil, if_true]
    rw [e]
    trivial
  · have hbegin : tableOracle columns uniqueKeys T rows 0 = none := rfl
    have hodd : ∀ i, tableOracle columns uniqueKeys T rows (1 + i)
        = (tableAnswers columns uniqueKeys T rows).getD i none := by
      intro i
      unfold tableOracle
      rw [Nat.add_comm 1 i, List.getD_cons_succ]
    have hrows : rowsSucceed (tableOracle columns uniqueKeys T rows) 1 rows.length := by
      intro j _
      have := tableAnswers_getD columns uniqueKeys rows T j
      rw [hodd, Nat.add_assoc, hodd]
      exact this
    have hcommit : tableOracle columns uniqueKeys T rows (1 + 2 * rows.length) = none := by
      rw [hodd, List.getD_eq_default _ _ (by rw [tableAnswers_length])]
    have hgood := naiveRows_good (tableOracle columns uniqueKeys T rows) table columns uniqueKeys
      hv.2.2.2.2.1 [] rows 0 [Op.begin] hv.2.2.2.2.2 hrows
    rw [List.append_nil] at hgood
    rw [naiveUpsert_begun U _ table columns rows uniqueKeys
      (validNames_of_validCall U table columns rows uniqueKeys hv) hne hbegin, hgood, naiveRows]
    have hl : ([Op.begin] ++ naiveRowOps (tableOracle columns uniqueKeys T rows) table columns
        uniqueKeys [Op.begin].length rows).length = 1 + 2 * rows.length := by
      rw [List.length_append, naiveRowOps_length]
      rfl
    simp only [hl, hcommit]
    change obeys _ table columns uniqueKeys T 0 (Op.begin :: (naiveRowOps
      (tableOracle columns uniqueKeys T rows) table columns uniqueKeys 1 rows ++ [Op.commit]))
    refine ⟨rfl, ?_⟩
    rw [obeys_append]
    refine ⟨naiveRowOps_obeys _ table columns uniqueKeys rows T 1 hv.2.2.2.2.2
      (fun i _ => hodd i), ?_⟩
    refine ⟨?_, trivial⟩
    rw [naiveRowOps_length]
    exact hcommit

/-! ## The table after a call -/

/-- C21: on the table model (a probe finds a row with the bound key values or answers
`sql.ErrNoRows`, `UPDATE` replaces the rows with the bound key, `INSERT` appends, no database
errors), for a valid call whose rows have the column-list length and an initial table with
distinct unique-key values: the database holding the table answers the call as the model
does, and against every database that does so `NaiveUpserter.Upsert` succeeds, duplicate keys
in the batch included; afterwards, for every row of the batch, exactly one row of the table
has its key values and it is the last row of the batch carrying that key, and for a key that
does not occur in the batch the rows of the table are those it had before. -/
theorem naiveUpsert_last_row_wins (U : UnicodeTables) (table : String)
    (columns : List String) (rows : List Row) (uniqueKeys : List String) (T : List Row)
    (hv : validCall U table columns rows uniqueKeys)
    (hT : (T.map (keyValues columns uniqueKeys)).Nodup) :
    obeys (tableOracle columns uniqueKeys T rows) table columns uniqueKeys T 0
        (NaiveUpserter.Upsert U (tableOracle columns uniqueKeys T rows) [] table columns rows
          uniqueKeys).2
    ∧ ∀ db : Db, obeys db table columns uniqueKeys T 0
        (NaiveUpserter.Upsert U db [] table columns rows uniqueKeys).2 →
      (NaiveUpserter.Upsert U db [] table columns rows uniqueKeys).1 = Ret.ok
      ∧ (∀ r ∈ rows, ∃ l, lastBy (keyValues columns uniqueKeys) rows (keyValues columns uniqueKeys r)
            = some l
          ∧ (finalTable table columns uniqueKeys T
              (NaiveUpserter.Upsert U db [] table columns rows uniqueKeys).2).filter
              (fun x => decide (keyValues columns uniqueKeys x = keyValues columns uniqueKeys r))
            = [l])
      ∧ (∀ kv, kv ∉ rows.map (keyValues columns uniqueKeys) →
          (finalTable table columns uniqueKeys T
              (NaiveUpserter.Upsert U db [] table columns rows uniqueKeys).2).filter
              (fun x => decide (keyValues columns uniqueKeys x = kv))
            = T.filter fun x => decide (keyValues columns uniqueKeys x = kv)) := by
  refine ⟨tableOracle_obeys U table columns rows uniqueKeys T hv, fun db hob => ?_⟩
  obtain ⟨hok, hfin⟩ := naiveUpsert_table U db table columns rows uniqueKeys T hv hob
  rw [hfin]
  refine ⟨hok, fun r hr => ?_, fun kv hkv => ?_⟩
  · cases hl : lastBy (keyValues columns uniqueKeys) rows (keyValues columns uniqueKeys r) with
    | none =>
      exact absurd (List.mem_map_of_mem _ hr)
        ((lastBy_none_iff (keyValues columns uniqueKeys) _ rows).mp hl)
    | some l =>
      exact ⟨l, rfl, (foldl_upsert_last (keyValues columns uniqueKeys) rows T hT _).1 l hl⟩
  · exact (foldl_upsert_last (keyValues columns uniqueKeys) rows T hT kv).2
      ((lastBy_none_iff (keyValues columns uniqueKeys) kv rows).mpr hkv)

/-- C21, witness: on the empty table the rows `[1, John]`, `[1, Jane]` with key `id` are both
accepted (insert, then update) and leave the single row `[1, Jane]`. -/
theorem naiveUpsert_last_row_wins_witness :
    validCall latin1Tables "users" ["id", "name"] [[.int 1, .str "John"], [.int 1, .str "Jane"]]
        ["id"]
      ∧ (([] : List Row).map (keyValues ["id", "name"] ["id"])).Nodup
      ∧ obeys firstRowIsNew "users" ["id", "name"] ["id"] [] 0
          (NaiveUpserter.Upsert latin1Tables firstRowIsNew [] "users" ["id", "name"]
            [[.int 1, .str "John"], [.int 1, .str "Jane"]] ["id"]).2
      ∧ (NaiveUpserter.Upsert latin1Tables firstRowIsNew [] "users" ["id", "name"]
            [[.int 1, .str "John"], [.int 1, .str "Jane"]] ["id"]).1 = Ret.ok
      ∧ finalTable "users" ["id", "name"] ["id"] []
          (NaiveUpserter.Upsert latin1Tables firstRowIsNew [] "users" ["id", "name"]
            [[.int 1, .str "John"], [.int 1, .str "Jane"]] ["id"]).2
        = [[.int 1, .str "Jane"]] :=
  have hv : validCall latin1Tables "users" ["id", "name"]
      [[.int 1, .str "John"], [.int 1, .str "Jane"]] ["id"] := by
    unfold validCall
    decide
  have hT : (([] : List Row).map (keyValues ["id", "name"] ["id"])).Nodup := List.nodup_nil
  have htr : NaiveUpserter.Upsert latin1Tables firstRowIsNew [] "users" ["id", "name"]
      [[.int 1, .str "John"], [.int 1, .str "Jane"]] ["id"]
      = (Ret.ok, [.begin,
          .queryRow (probeText "users" ["id"]) [.int 1],
          .exec (insertText "users" ["id", "name"]) [.int 1, .str "John"],
          .queryRow (probeText "users" ["id"]) [.int 1],
          .exec (updateText "users" ["id", "name"] ["id"]) [.int 1, .str "Jane", .int 1],
          .commit]) := by
    decide!
  have hob : obeys firstRowIsNew "users" ["id", "name"] ["id"] [] 0
      (NaiveUpserter.Upsert latin1Tables firstRowIsNew [] "users" ["id", "name"]
        [[.int 1, .str "John"], [.int 1, .str "Jane"]] ["id"]).2 := by
    rw [htr]
    exact ⟨by decide!, by decide!, by decide!, by decide!, by decide!, by decide!, trivial⟩
  ⟨hv, hT, hob,
    ((naiveUpsert_last_row_wins latin1Tables "users" ["id", "name"]
      [[.int 1, .str "John"], [.int 1, .str "Jane"]] ["id"] [] hv hT).2 firstRowIsNew hob).1,
    by rw [htr]; decide!⟩

end UpsertBenchmark
